import Mathlib

/-!
Shallow embedding of the RustFlow single-symbol limit order book
(`src/models/order.rs`, `src/models/trade.rs`, `src/models/stats.rs`,
`src/core/matcher.rs`, `src/core/order_books.rs`) together with proofs
about the claims of the specification.

Machine integers (`u64`) are modelled as `Nat`; overflow is made explicit
with `% 2 ^ 64` at the one place the claims are about it
(`calculate_slippage`, which in the source accumulates `total_cost` in
plain `u64` arithmetic).  Rust's `BTreeMap<u64, Vec<Order>>` is modelled
as an association list of price levels kept in ascending key order by the
insertion routine; `HashMap<u64, Order>` is modelled as an association
list with insert-replaces semantics.  The `assert!` inside
`Order::fill_partial` is modelled by a ghost boolean (`assertsOk`)
collected at every call site of the matcher, so that the surrounding
functions stay total while the assertion's truth is provable separately.
-/

namespace RustFlow

/-- `OrderSide` from `src/models/order.rs`. -/
inductive OrderSide : Type
  | Buy
  | Sell
deriving DecidableEq, Repr

/-- `OrderType` from `src/models/order.rs`. -/
inductive OrderType : Type
  | Limit
  | Market
  | Stop (stop_price : Nat)
  | StopLimit (stop_price limit_price : Nat)
  | IOC
  | FOK
deriving DecidableEq, Repr

/-- `OrderStatus` from `src/models/order.rs`. -/
inductive OrderStatus : Type
  | New
  | PartiallyFilled
  | Filled
  | Canceled
  | Rejected
deriving DecidableEq, Repr

/-- `Order` from `src/models/order.rs` (u64 fields as `Nat`). -/
structure Order : Type where
  id : Nat
  price : Nat
  quantity : Nat
  remaining_quantity : Nat
  side : OrderSide
  order_type : OrderType
  timestamp : Nat
  status : OrderStatus
  user_id : Nat
  client_order_id : Option String
  symbol : String
deriving DecidableEq, Repr

/-- `Order::is_filled`. -/
def Order.is_filled (o : Order) : Bool :=
  o.remaining_quantity = 0

/-- `Order::is_buy`. -/
def Order.is_buy (o : Order) : Bool :=
  o.side = OrderSide.Buy

/-- `Order::is_sell`. -/
def Order.is_sell (o : Order) : Bool :=
  o.side = OrderSide.Sell

/-- `Order::fill_partial` from `src/models/order.rs`, lines 167-180, minus
its `assert!(filled_quantity <= self.remaining_quantity)`: the assertion
is tracked at every call site through the matcher's `assertsOk` ghost
flag (claim C10); whenever the assertion holds, truncated `Nat`
subtraction agrees with the `u64` subtraction of the source. -/
def Order.fillPartial (o : Order) (filled_quantity : Nat) : Order :=
  let r := o.remaining_quantity - filled_quantity
  { o with
    remaining_quantity := r
    status := if 0 < r then OrderStatus.PartiallyFilled else OrderStatus.Filled }

/-- `Order::fill_complete`. -/
def Order.fill_complete (o : Order) : Order :=
  { o with remaining_quantity := 0, status := OrderStatus.Filled }

/-- `Order::cancel`: sets `Canceled` unless the order is already `Filled`. -/
def Order.cancel (o : Order) : Order :=
  if o.status ≠ OrderStatus.Filled then { o with status := OrderStatus.Canceled } else o

/-- `Order::new_limit`. -/
def Order.new_limit (id price quantity : Nat) (side : OrderSide)
    (user_id timestamp : Nat) (client_order_id : Option String) (symbol : String) : Order :=
  { id, price, quantity, remaining_quantity := quantity, side,
    order_type := OrderType.Limit, timestamp, status := OrderStatus.New,
    user_id, client_order_id, symbol }

/-- `Order::new_market` (sentinel price: `u64::MAX` for buys, `0` for sells). -/
def Order.new_market (id quantity : Nat) (side : OrderSide)
    (user_id timestamp : Nat) (client_order_id : Option String) (symbol : String) : Order :=
  { id,
    price := match side with
      | OrderSide.Buy => 2 ^ 64 - 1
      | OrderSide.Sell => 0,
    quantity, remaining_quantity := quantity, side,
    order_type := OrderType.Market, timestamp, status := OrderStatus.New,
    user_id, client_order_id, symbol }

/-- `Trade` from `src/models/trade.rs`. -/
structure Trade : Type where
  id : Nat
  price : Nat
  quantity : Nat
  timestamp : Nat
  buy_order_id : Nat
  sell_order_id : Nat
  buy_user_id : Nat
  sell_user_id : Nat
  symbol : String
deriving DecidableEq, Repr

/-- `OrderBookStats` from `src/models/stats.rs`. -/
structure OrderBookStats : Type where
  symbol : String
  best_bid : Option Nat
  best_ask : Option Nat
  last_trade_price : Option Nat
  volume : Nat
  trade_count : Nat
  bid_order_count : Nat
  ask_order_count : Nat
  last_update_time : Nat
deriving DecidableEq, Repr

/-- `OrderBookStats::new`. -/
def OrderBookStats.new (symbol : String) : OrderBookStats :=
  { symbol, best_bid := none, best_ask := none, last_trade_price := none,
    volume := 0, trade_count := 0, bid_order_count := 0, ask_order_count := 0,
    last_update_time := 0 }

/-- `OrderBookStats::update_with_trade`. -/
def OrderBookStats.update_with_trade (s : OrderBookStats) (price quantity : Nat) :
    OrderBookStats :=
  { s with last_trade_price := some price, volume := s.volume + quantity,
           trade_count := s.trade_count + 1 }

/-- `OrderBookStats::update_order_counts`. -/
def OrderBookStats.update_order_counts (s : OrderBookStats) (bid_count ask_count : Nat) :
    OrderBookStats :=
  { s with bid_order_count := bid_count, ask_order_count := ask_count }

/-!
### The by-id index

`HashMap<u64, Order>` (`orders_by_id`) modelled as an association list in
which `insert` replaces any previous binding of the key.
-/

/-- The `orders_by_id` map. -/
abbrev Index : Type := List (Nat × Order)

/-- `HashMap::get`. -/
def Index.get : Index → Nat → Option Order
  | [], _ => none
  | e :: rest, k => if e.1 = k then some e.2 else Index.get rest k

/-- `HashMap::remove` (value-dropping part). -/
def Index.erase : Index → Nat → Index
  | [], _ => []
  | e :: rest, k => if e.1 = k then Index.erase rest k else e :: Index.erase rest k

/-- `HashMap::insert`: replaces any existing binding of `k`. -/
def Index.insert (m : Index) (k : Nat) (v : Order) : Index :=
  (k, v) :: m.erase k

/-!
### Price ladders

`BTreeMap<u64, Vec<Order>>` modelled as an association list of
`(price, level)` pairs, kept in ascending key order by `insertLevel`.
-/

/-- One side of the book. -/
abbrev Ladder : Type := List (Nat × List Order)

/-- `BTreeMap::get` for a price level. -/
def Ladder.getLevel : Ladder → Nat → Option (List Order)
  | [], _ => none
  | e :: rest, p => if e.1 = p then some e.2 else Ladder.getLevel rest p

/-- `BTreeMap::remove` for a price level. -/
def Ladder.eraseKey : Ladder → Nat → Ladder
  | [], _ => []
  | e :: rest, p => if e.1 = p then Ladder.eraseKey rest p else e :: Ladder.eraseKey rest p

/-- Replace the (first) level stored at key `p`. -/
def Ladder.setLevel : Ladder → Nat → List Order → Ladder
  | [], _, _ => []
  | e :: rest, p, lvl => if e.1 = p then (p, lvl) :: rest else e :: Ladder.setLevel rest p lvl

/-- Insert a fresh level at its ascending-key position (`BTreeMap` key order). -/
def Ladder.insertLevel : Ladder → Nat → List Order → Ladder
  | [], p, lvl => [(p, lvl)]
  | e :: rest, p, lvl =>
    if p < e.1 then (p, lvl) :: e :: rest
    else if p = e.1 then (p, lvl) :: rest
    else e :: Ladder.insertLevel rest p lvl

/-- `keys().next()` of the ascending map: the minimum key. -/
def Ladder.minKey (l : Ladder) : Option Nat :=
  l.head?.map (·.1)

/-- `keys().next_back()` of the ascending map: the maximum key. -/
def Ladder.maxKey (l : Ladder) : Option Nat :=
  l.getLast?.map (·.1)

/-- Total number of orders stored in a ladder
(`values().map(|orders| orders.len()).sum()`). -/
def totalOrders (l : Ladder) : Nat :=
  (l.map (fun e => e.2.length)).sum

/-- Stable insertion of an order into a timestamp-sorted level: the new
order goes after every order whose timestamp is `≤` its own, exactly
where Rust's stable `sort_by_key(|o| o.timestamp)` puts a pushed-back
element. -/
def insertTsAfterEq (o : Order) : List Order → List Order
  | [] => [o]
  | x :: xs => if x.timestamp ≤ o.timestamp then x :: insertTsAfterEq o xs else o :: x :: xs

/-- Stable sort of a level by timestamp, modelling
`orders.sort_by_key(|o| o.timestamp)` (Rust's slice sort is stable). -/
def sortByTs (l : List Order) : List Order :=
  l.foldl (fun acc o => insertTsAfterEq o acc) []

/-!
### The matcher (`src/core/matcher.rs`)

`match_limit_order` and `match_market_order` share their loop body
verbatim in the source except for the price-cross test (the market loop
always crosses, the limit loop breaks when the best opposite price stops
being favorable).  Both are rendered as wrappers over `matchLoop`, which
is parameterised by `checkPrice`.

The loop walks the *opposite* ladder best-price first: for a buy that is
the ascending ask map itself, for a sell the bid map iterated from its
maximum key, which is rendered by reversing the bid ladder first and
reversing it back afterwards.

Because the Rust `while` loop is not structurally recursive, the loop
takes explicit fuel; the wrappers pass fuel that strictly dominates the
loop's termination measure (remaining quantity + number of resting
orders + number of levels), so the fuel never runs out on the wrappers'
calls.
-/

/-- The price-cross test of the matching loops: market orders
(`checkPrice = false`) always cross; limit-style orders cross while the
best opposite price is favorable (`matcher.rs` lines 140-163). -/
def crossesPrice (checkPrice : Bool) (side : OrderSide) (limitPrice bestPrice : Nat) : Bool :=
  !checkPrice ||
    (match side with
     | OrderSide.Buy => decide (bestPrice ≤ limitPrice)
     | OrderSide.Sell => decide (limitPrice ≤ bestPrice))

/-- Trade construction shared by both matching loops
(`matcher.rs` lines 63-74 and 178-189). -/
def mkTrade (tid price qty : Nat) (order resting : Order) : Trade :=
  { id := tid, price, quantity := qty,
    timestamp := max order.timestamp resting.timestamp,
    buy_order_id := if order.is_buy then order.id else resting.id,
    sell_order_id := if order.is_sell then order.id else resting.id,
    buy_user_id := if order.is_buy then order.user_id else resting.user_id,
    sell_user_id := if order.is_sell then order.user_id else resting.user_id,
    symbol := order.symbol }

/-- Result of one matching run: the executed trades, the final value of
the matcher's local `order` variable, the opposite-side view after
matching, the updated `orders_by_id`, the trade-id counter, and the ghost
conjunction of every `fill_partial` assertion encountered. -/
structure MatchResult : Type where
  trades : List Trade
  order : Order
  levels : List (Nat × List Order)
  index : Index
  last_trade_id : Nat
  assertsOk : Bool
deriving DecidableEq, Repr

/-- The updated aggressor copy in `orders_by_id`
(`matcher.rs` lines 79-82 / 194-197). -/
def indexFillAggressor (index : Index) (oid q : Nat) : Index :=
  match index.get oid with
  | some st => index.insert oid (st.fillPartial q)
  | none => index

/-- Marking the exhausted resting order's `orders_by_id` copy fully
filled (`matcher.rs` lines 96-99 / 211-214). -/
def indexFillComplete (index : Index) (oid : Nat) : Index :=
  match index.get oid with
  | some st => index.insert oid st.fill_complete
  | none => index

/-- The `fill_partial` assertion checks of one iteration: the local
aggressor, its `orders_by_id` copy, and the resting order. -/
def stepAssert (index : Index) (order resting : Order) (q : Nat) : Bool :=
  decide (q ≤ order.remaining_quantity) &&
    (match index.get order.id with
     | some st => decide (q ≤ st.remaining_quantity)
     | none => true) &&
    decide (q ≤ resting.remaining_quantity)

/-- One iteration of the shared matching loop of
`Matcher::match_limit_order` / `Matcher::match_market_order`
(`matcher.rs` lines 44-106 and 139-221); `go` is the rest of the loop.
`levels` is the opposite ladder viewed best price first.  The iteration:
peek the best level (breaking on an unfavorable price when
`checkPrice`), drop the level if its vector is empty, otherwise match
against its FIFO head for `min` of the remaining quantities, create the
trade, fill the aggressor locally and in `orders_by_id`, fill the
resting copy, and remove the resting order from the level (marking its
`orders_by_id` copy fully filled) once exhausted. -/
def matchStep (checkPrice : Bool)
    (go : Order → List (Nat × List Order) → Index → Nat → MatchResult)
    (order : Order) (levels : List (Nat × List Order)) (index : Index) (tid : Nat) :
    MatchResult :=
  if order.remaining_quantity = 0 then ⟨[], order, levels, index, tid, true⟩
  else
    match levels with
    | [] => ⟨[], order, [], index, tid, true⟩
    | (price, lvl) :: rest =>
      if crossesPrice checkPrice order.side order.price price then
        match lvl with
        | [] =>
          -- empty level vector: remove it and continue
          go order rest index tid
        | resting :: lvlRest =>
          let q := min order.remaining_quantity resting.remaining_quantity
          let t := mkTrade (tid + 1) price q order resting
          let ok := stepAssert index order resting q
          let order' := order.fillPartial q
          let index' := indexFillAggressor index order.id q
          let resting' := resting.fillPartial q
          if resting'.is_filled then
            let r := go order' ((price, lvlRest) :: rest) (indexFillComplete index' resting.id)
              (tid + 1)
            ⟨t :: r.trades, r.order, r.levels, r.index, r.last_trade_id, ok && r.assertsOk⟩
          else
            let r := go order' ((price, resting' :: lvlRest) :: rest) index' (tid + 1)
            ⟨t :: r.trades, r.order, r.levels, r.index, r.last_trade_id, ok && r.assertsOk⟩
      else ⟨[], order, levels, index, tid, true⟩

/-- The matching loop: `matchStep` iterated on explicit fuel. -/
def matchLoop (checkPrice : Bool) :
    Nat → Order → List (Nat × List Order) → Index → Nat → MatchResult
  | 0, order, levels, index, tid => ⟨[], order, levels, index, tid, true⟩
  | fuel + 1, order, levels, index, tid =>
    matchStep checkPrice (matchLoop checkPrice fuel) order levels index tid

/-- Fuel that strictly dominates the matching loop's termination measure. -/
def matchFuel (order : Order) (levels : List (Nat × List Order)) : Nat :=
  order.remaining_quantity + totalOrders levels + levels.length + 1

/-- `Matcher` from `src/core/matcher.rs`: only the trade-id counter. -/
structure Matcher : Type where
  last_trade_id : Nat
deriving DecidableEq, Repr

/-- `Matcher::new`. -/
def Matcher.new : Matcher := ⟨0⟩

/-- Result of a matcher call at the book level: state-passing rendering
of the `&mut` parameters of the Rust methods, plus the final local
`order` value and the assertion ghost. -/
structure EngineResult : Type where
  trades : List Trade
  order : Order
  bids : Ladder
  asks : Ladder
  index : Index
  matcher : Matcher
  assertsOk : Bool
deriving DecidableEq, Repr

/-- `Matcher::match_market_order` (`matcher.rs` lines 28-119). -/
def Matcher.match_market_order (m : Matcher) (order : Order)
    (bids asks : Ladder) (index : Index) : EngineResult :=
  match order.side with
  | OrderSide.Buy =>
    let r := matchLoop false (matchFuel order asks) order asks index m.last_trade_id
    ⟨r.trades, r.order, bids, r.levels, r.index, ⟨r.last_trade_id⟩, r.assertsOk⟩
  | OrderSide.Sell =>
    let r :=
      matchLoop false (matchFuel order bids.reverse) order bids.reverse index m.last_trade_id
    ⟨r.trades, r.order, r.levels.reverse, asks, r.index, ⟨r.last_trade_id⟩, r.assertsOk⟩

/-- `Matcher::match_limit_order` (`matcher.rs` lines 123-224). -/
def Matcher.match_limit_order (m : Matcher) (order : Order)
    (bids asks : Ladder) (index : Index) : EngineResult :=
  match order.side with
  | OrderSide.Buy =>
    let r := matchLoop true (matchFuel order asks) order asks index m.last_trade_id
    ⟨r.trades, r.order, bids, r.levels, r.index, ⟨r.last_trade_id⟩, r.assertsOk⟩
  | OrderSide.Sell =>
    let r :=
      matchLoop true (matchFuel order bids.reverse) order bids.reverse index m.last_trade_id
    ⟨r.trades, r.order, r.levels.reverse, asks, r.index, ⟨r.last_trade_id⟩, r.assertsOk⟩

/-- Simulated trade construction of `Matcher::simulate_order_match`
(placeholder id 0, `matcher.rs` lines 264-274). -/
def mkSimTrade (price qty : Nat) (order resting : Order) : Trade :=
  mkTrade 0 price qty order resting

/-- Inner loop of `simulate_order_match` over one price level: returns
the simulated trades, the remaining quantity, and whether the walk
returned early because the order was exhausted. -/
def simOrdersLoop (order : Order) (price : Nat) :
    Nat → List Order → List Trade × Nat × Bool
  | remaining, [] => ([], remaining, false)
  | remaining, opp :: rest =>
    let q := min remaining opp.remaining_quantity
    let t := mkSimTrade price q order opp
    let remaining' := remaining - q
    if remaining' = 0 then ([t], 0, true)
    else
      let r := simOrdersLoop order price remaining' rest
      (t :: r.1, r.2.1, r.2.2)

/-- Outer loop of `simulate_order_match` over the opposite levels viewed
best price first, breaking at the first unfavorable price. -/
def simLevelsLoop (order : Order) :
    Nat → List (Nat × List Order) → List Trade
  | _, [] => []
  | remaining, (price, lvl) :: rest =>
    if (match order.side with
        | OrderSide.Buy => decide (price ≤ order.price)
        | OrderSide.Sell => decide (order.price ≤ price)) then
      let r := simOrdersLoop order price remaining lvl
      if r.2.2 then r.1 else r.1 ++ simLevelsLoop order r.2.1 rest
    else []

/-- `Matcher::simulate_order_match` (`matcher.rs` lines 228-287):
read-only walk of the opposite side accumulating what would match. -/
def Matcher.simulate_order_match (order : Order) (bids asks : Ladder) : List Trade :=
  match order.side with
  | OrderSide.Buy => simLevelsLoop order order.remaining_quantity asks
  | OrderSide.Sell => simLevelsLoop order order.remaining_quantity bids.reverse

/-!
### The order book (`src/core/order_books.rs`)
-/

/-- `OrderBook` from `src/core/order_books.rs`. -/
structure OrderBook : Type where
  symbol : String
  bids : Ladder
  asks : Ladder
  orders_by_id : Index
  stats : OrderBookStats
  matcher : Matcher
deriving DecidableEq, Repr

/-- `OrderBook::new`. -/
def OrderBook.new (symbol : String) : OrderBook :=
  { symbol, bids := [], asks := [], orders_by_id := [],
    stats := OrderBookStats.new symbol, matcher := Matcher.new }

/-- `OrderBook::best_bid`: maximum bid key. -/
def OrderBook.best_bid (b : OrderBook) : Option Nat :=
  b.bids.maxKey

/-- `OrderBook::best_ask`: minimum ask key. -/
def OrderBook.best_ask (b : OrderBook) : Option Nat :=
  b.asks.minKey

/-- `OrderBook::spread` (saturating subtraction is `Nat` subtraction). -/
def OrderBook.spread (b : OrderBook) : Option Nat :=
  match b.best_ask, b.best_bid with
  | some ask, some bid => some (ask - bid)
  | _, _ => none

/-- `OrderBook::get_order`. -/
def OrderBook.get_order (b : OrderBook) (order_id : Nat) : Option Order :=
  b.orders_by_id.get order_id

/-- Push an order onto its price level (creating the level at its
sorted key position if needed) and stably re-sort the level by
timestamp: the `entry(..).or_insert_with(Vec::new)` / `push` /
`sort_by_key` body of `add_to_book`. -/
def Ladder.addOrder (lad : Ladder) (o : Order) : Ladder :=
  match lad.getLevel o.price with
  | some lvl => lad.setLevel o.price (sortByTs (lvl ++ [o]))
  | none => lad.insertLevel o.price (sortByTs [o])

/-- `OrderBook::add_to_book` (`order_books.rs` lines 256-271). -/
def OrderBook.add_to_book (b : OrderBook) (o : Order) : OrderBook :=
  match o.side with
  | OrderSide.Buy => { b with bids := b.bids.addOrder o }
  | OrderSide.Sell => { b with asks := b.asks.addOrder o }

/-- Remove the first order with id `oid` from a level list, or `none` if
no such order exists (`orders.iter().position(..)` + `orders.remove(pos)`). -/
def eraseFirstById (oid : Nat) : List Order → Option (List Order)
  | [] => none
  | o :: rest =>
    if o.id = oid then some rest
    else (eraseFirstById oid rest).map (fun r => o :: r)

/-- The ladder part of `remove_order`: find the level at `price`, remove
the first entry with id `oid` from it, dropping the level when it
becomes empty; `none` when no such entry exists. -/
def Ladder.removeOrderEntry (lad : Ladder) (price oid : Nat) : Option Ladder :=
  match lad.getLevel price with
  | none => none
  | some lvl =>
    match eraseFirstById oid lvl with
    | none => none
    | some lvl' =>
      some (if lvl' = [] then lad.eraseKey price else lad.setLevel price lvl')

/-- `OrderBook::remove_order` (`order_books.rs` lines 208-231): take the
order out of `orders_by_id`; if its ladder holds an entry with its id at
its price, remove that entry (and the level when it becomes empty) and
report `true`, otherwise report `false`. -/
def OrderBook.remove_order (b : OrderBook) (order_id : Nat) : Bool × OrderBook :=
  match b.orders_by_id.get order_id with
  | none => (false, b)
  | some o =>
    let b1 := { b with orders_by_id := b.orders_by_id.erase order_id }
    match o.side with
    | OrderSide.Buy =>
      match b1.bids.removeOrderEntry o.price order_id with
      | none => (false, b1)
      | some bids' => (true, { b1 with bids := bids' })
    | OrderSide.Sell =>
      match b1.asks.removeOrderEntry o.price order_id with
      | none => (false, b1)
      | some asks' => (true, { b1 with asks := asks' })

/-- `OrderBook::update_stats` (`order_books.rs` lines 274-282). -/
def OrderBook.update_stats (b : OrderBook) : OrderBook :=
  { b with stats :=
      { b.stats with
        best_bid := b.best_bid
        best_ask := b.best_ask
        bid_order_count := totalOrders b.bids
        ask_order_count := totalOrders b.asks } }

/-- Apply a matcher result to the book's `&mut` state. -/
def OrderBook.applyEngine (b : OrderBook) (r : EngineResult) : OrderBook :=
  { b with bids := r.bids, asks := r.asks, orders_by_id := r.index, matcher := r.matcher }

/-- The private `OrderBook::match_limit_order` wrapper
(`order_books.rs` lines 234-253): run the matcher, then, if the copy of
the order in `orders_by_id` still has remaining quantity, add that copy
to the book.  Also returns the matcher's final local order and the
assertion ghost. -/
def OrderBook.match_limit_order (b : OrderBook) (order : Order) :
    List Trade × OrderBook × Order × Bool :=
  let r := b.matcher.match_limit_order order b.bids b.asks b.orders_by_id
  let b1 := b.applyEngine r
  match b1.orders_by_id.get order.id with
  | some updated =>
    if 0 < updated.remaining_quantity then (r.trades, b1.add_to_book updated, r.order, r.assertsOk)
    else (r.trades, b1, r.order, r.assertsOk)
  | none => (r.trades, b1, r.order, r.assertsOk)

/-- Result of `process_order`: the trades and the updated book, plus two
ghost components — `finalOrder`, the submitted order's record as the
code's locals leave it (the matcher's local `order`, with the
cancellation of the IOC/FOK paths applied), and `assertsOk`, the
conjunction of every `fill_partial` assertion encountered. -/
structure ProcessResult : Type where
  trades : List Trade
  book : OrderBook
  finalOrder : Order
  assertsOk : Bool
deriving DecidableEq, Repr

/-- The stop / stop-limit trigger test of `process_order`
(`order_books.rs` lines 143-146 and 165-168): a buy triggers when the
best ask has fallen to the stop price, a sell when the best bid has
risen to it; an empty side never triggers. -/
def OrderBook.stopTriggered (b : OrderBook) (side : OrderSide) (stop_price : Nat) : Bool :=
  match side with
  | OrderSide.Buy =>
    match b.best_ask with
    | some ask => decide (ask ≤ stop_price)
    | none => false
  | OrderSide.Sell =>
    match b.best_bid with
    | some bid => decide (stop_price ≤ bid)
    | none => false

/-- The order-type dispatch of `process_order` (`order_books.rs` lines
94-181), acting on the book state `b0` in which the order has already
been inserted into `orders_by_id`. -/
def OrderBook.dispatchOrder (b0 : OrderBook) (order : Order) :
    List Trade × OrderBook × Order × Bool :=
  match order.order_type with
  | OrderType.Market =>
    let r := b0.matcher.match_market_order order b0.bids b0.asks b0.orders_by_id
    (r.trades, b0.applyEngine r, r.order, r.assertsOk)
  | OrderType.Limit => b0.match_limit_order order
  | OrderType.IOC =>
    let s := b0.match_limit_order order
    match s.2.1.orders_by_id.get order.id with
    | some ro =>
      if 0 < ro.remaining_quantity then
        let b2 := { s.2.1 with orders_by_id := s.2.1.orders_by_id.insert order.id ro.cancel }
        (s.1, (b2.remove_order order.id).2, s.2.2.1.cancel, s.2.2.2)
      else (s.1, s.2.1, s.2.2.1, s.2.2.2)
    | none => (s.1, s.2.1, s.2.2.1, s.2.2.2)
  | OrderType.FOK =>
    let potential := Matcher.simulate_order_match order b0.bids b0.asks
    let total_matched := (potential.map (·.quantity)).sum
    if total_matched = order.quantity then b0.match_limit_order order
    else
      let b1 :=
        match b0.orders_by_id.get order.id with
        | some ro => { b0 with orders_by_id := b0.orders_by_id.insert order.id ro.cancel }
        | none => b0
      ([], (b1.remove_order order.id).2, order.cancel, true)
  | OrderType.Stop stop_price =>
    if b0.stopTriggered order.side stop_price then
      let market_order := { order with order_type := OrderType.Market }
      let r := b0.matcher.match_market_order market_order b0.bids b0.asks b0.orders_by_id
      (r.trades, b0.applyEngine r, r.order, r.assertsOk)
    else ([], b0, order, true)
  | OrderType.StopLimit stop_price limit_price =>
    if b0.stopTriggered order.side stop_price then
      let limit_order := { order with order_type := OrderType.Limit, price := limit_price }
      b0.match_limit_order limit_order
    else ([], b0, order, true)

/-- The book state of `process_order` just before dispatch: the order
inserted into `orders_by_id`, `stats.last_update_time` stamped
(`order_books.rs` lines 86-89). -/
def OrderBook.preDispatch (b : OrderBook) (order : Order) : OrderBook :=
  { b with
    orders_by_id := b.orders_by_id.insert order.id order
    stats := { b.stats with last_update_time := order.timestamp } }

/-- `OrderBook::process_order` (`order_books.rs` lines 75-192): reject a
symbol mismatch outright; otherwise insert the order into
`orders_by_id`, stamp `stats.last_update_time`, dispatch on the order
type, refresh the stats, and fold the trades into the stats. -/
def OrderBook.process_order (b : OrderBook) (order : Order) : ProcessResult :=
  if order.symbol ≠ b.symbol then ⟨[], b, order, true⟩
  else
    let step := (b.preDispatch order).dispatchOrder order
    let b2 := step.2.1.update_stats
    let b3 :=
      { b2 with stats :=
          step.1.foldl (fun s t => s.update_with_trade t.price t.quantity) b2.stats }
    ⟨step.1, b3, step.2.2.1, step.2.2.2⟩

/-- `OrderBook::cancel_order` (`order_books.rs` lines 196-205): any id
present in `orders_by_id` is canceled (its copy is marked, the record is
removed, stats refresh) and reported `true`; an absent id reports
`false` with no state change. -/
def OrderBook.cancel_order (b : OrderBook) (order_id : Nat) : Bool × OrderBook :=
  match b.orders_by_id.get order_id with
  | some o =>
    let b1 := { b with orders_by_id := b.orders_by_id.insert order_id o.cancel }
    (true, (b1.remove_order order_id).2.update_stats)
  | none => (false, b)

/-!
### Slippage (`order_books.rs` lines 315-368)

The source accumulates `total_cost += price * match_qty` in plain `u64`;
the embedding makes that explicit with `% 2 ^ 64` (release-profile
wrapping semantics; a debug build would panic instead — either way the
accumulation is not widened and not checked).  The `f64`
`slippage_percent` second component of the Rust return value is not
modelled; the embedding returns the first component, the integer average
price `total_cost / total_volume` (whose `u64` division also underlies
the claim).  When `total_volume` is zero the source's division panics;
`Nat` division returns 0 there, and no theorem relies on that corner.
-/

/-- The `u64` modulus. -/
def U64MOD : Nat := 2 ^ 64

/-- Inner slippage walk over one level, accumulating wrapped cost and
volume; the `Bool` reports the early return at `remaining == 0`. -/
def slipOrdersLoop (price : Nat) :
    Nat → Nat → Nat → List Order → Nat × Nat × Nat × Bool
  | remaining, cost, volume, [] => (remaining, cost, volume, false)
  | remaining, cost, volume, o :: rest =>
    let q := min remaining o.remaining_quantity
    let cost' := (cost + price * q) % U64MOD
    let volume' := volume + q
    let remaining' := remaining - q
    if remaining' = 0 then (0, cost', volume', true)
    else slipOrdersLoop price remaining' cost' volume' rest

/-- Outer slippage walk over the opposite levels viewed best first. -/
def slipLevelsLoop :
    Nat → Nat → Nat → List (Nat × List Order) → Nat × Nat × Nat × Bool
  | remaining, cost, volume, [] => (remaining, cost, volume, false)
  | remaining, cost, volume, (price, lvl) :: rest =>
    let r := slipOrdersLoop price remaining cost volume lvl
    if r.2.2.2 then r
    else slipLevelsLoop r.1 r.2.1 r.2.2.1 rest

/-- `OrderBook::calculate_slippage`, integer average-price component:
walk the opposite side best price first accumulating wrapped `u64` cost;
return `total_cost / total_volume` if the quantity is covered, `none` on
insufficient liquidity (or an empty opposite side). -/
def OrderBook.calculate_slippage (b : OrderBook) (side : OrderSide) (quantity : Nat) :
    Option Nat :=
  let opposite :=
    match side with
    | OrderSide.Buy => b.asks
    | OrderSide.Sell => b.bids.reverse
  if opposite.isEmpty then none
  else
    let r := slipLevelsLoop quantity 0 0 opposite
    if r.2.2.2 then some (r.2.1 / r.2.2.1) else none

/-- Mathematical (unbounded) counterpart of `slipOrdersLoop`, used to
state what the wrapped accumulator actually computes. -/
def slipOrdersSpec (price : Nat) :
    Nat → Nat → Nat → List Order → Nat × Nat × Nat × Bool
  | remaining, cost, volume, [] => (remaining, cost, volume, false)
  | remaining, cost, volume, o :: rest =>
    let q := min remaining o.remaining_quantity
    let cost' := cost + price * q
    let volume' := volume + q
    let remaining' := remaining - q
    if remaining' = 0 then (0, cost', volume', true)
    else slipOrdersSpec price remaining' cost' volume' rest

/-- Mathematical (unbounded) counterpart of `slipLevelsLoop`. -/
def slipLevelsSpec :
    Nat → Nat → Nat → List (Nat × List Order) → Nat × Nat × Nat × Bool
  | remaining, cost, volume, [] => (remaining, cost, volume, false)
  | remaining, cost, volume, (price, lvl) :: rest =>
    let r := slipOrdersSpec price remaining cost volume lvl
    if r.2.2.2 then r
    else slipLevelsSpec r.1 r.2.1 r.2.2.1 rest

/-- The opposite-side view walked by the matcher and the slippage /
simulation loops: asks ascending for a buy, bids descending for a sell. -/
def oppositeView (side : OrderSide) (bids asks : Ladder) : List (Nat × List Order) :=
  match side with
  | OrderSide.Buy => asks
  | OrderSide.Sell => bids.reverse

/-!
### Concrete inputs used by witnesses and counterexamples
-/

/-- A limit order on the book symbol used by the concrete scenarios. -/
def exLimit (id price qty : Nat) (side : OrderSide) (ts : Nat) : Order :=
  Order.new_limit id price qty side (1000 + id) ts none "S"

/-- The empty book for symbol S. -/
def exBook0 : OrderBook := OrderBook.new "S"

/-- Book with a resting ask: id 1, price 100, quantity 3, timestamp 1. -/
def exBookAsk : OrderBook :=
  (exBook0.process_order (exLimit 1 100 3 OrderSide.Sell 1)).book

/-- Book with a resting bid: id 1, price 100, quantity 10, timestamp 1. -/
def exBookBid : OrderBook :=
  (exBook0.process_order (exLimit 1 100 10 OrderSide.Buy 1)).book

/-- The partially-filled scenario: sell id 2, price 90, quantity 5,
timestamp 2 crosses the resting bid id 1 for 5, leaving bid id 1 resting
with 5 of 10 remaining. -/
def exBookPartial : OrderBook :=
  (exBookBid.process_order (exLimit 2 90 5 OrderSide.Sell 2)).book

/-- The fully-filled scenario: buy id 2, price 100, quantity 3,
timestamp 2 fully fills the resting ask id 1 and itself. -/
def exBookFilled : OrderBook :=
  (exBookAsk.process_order (exLimit 2 100 3 OrderSide.Buy 2)).book

/-- An untriggered buy stop order (stop price 100 against an empty book). -/
def exStopOrder : Order :=
  { exLimit 7 0 4 OrderSide.Buy 1 with order_type := OrderType.Stop 100 }

/-- A zero-quantity limit buy order. -/
def exZeroOrder : Order :=
  exLimit 3 10 0 OrderSide.Buy 2

/-- A fill-or-kill buy for 5 at 100 (one unit more than available in
`exBookAsk` would ever match: only 3 rest there), timestamp 9. -/
def exFokOrder : Order :=
  { exLimit 2 100 5 OrderSide.Buy 9 with order_type := OrderType.FOK }

/-- Book with a resting ask at price `2 ^ 63`, quantity 2: the slippage
cost of buying 2 is `2 ^ 64`, which overflows the u64 accumulator. -/
def exBookBigAsk : OrderBook :=
  (exBook0.process_order (exLimit 1 (2 ^ 63) 2 OrderSide.Sell 1)).book

/-- Conservation of quantity for one submission: the traded quantities
plus the final remaining quantity account exactly for the submitted
remaining quantity, and every trade names the submitted order on one of
its sides. -/
def ConservedBy (order : Order) (trades : List Trade) (fin : Order) : Prop :=
  (trades.map (·.quantity)).sum + fin.remaining_quantity = order.remaining_quantity ∧
    ∀ t ∈ trades, t.buy_order_id = order.id ∨ t.sell_order_id = order.id

/-- The id carried by a trade for the passive (resting) participant,
given the aggressor's side. -/
def passiveOrderId (side : OrderSide) (t : Trade) : Nat :=
  match side with
  | OrderSide.Buy => t.sell_order_id
  | OrderSide.Sell => t.buy_order_id

/-- `lvl'` arises from `lvl` by dropping a front prefix and possibly
partially filling the new head — the only way a level evolves inside the
matching loop. -/
def levelReduced (lvl lvl' : List Order) : Prop :=
  ∃ k, lvl' = lvl.drop k ∨
    ∃ o rest q, lvl.drop k = o :: rest ∧ lvl' = o.fillPartial q :: rest

/-- `L'` arises from `L` by dropping whole levels from the front and
reducing the first remaining level — the only way the opposite-side view
evolves across the matching loop. -/
def viewReduced (L L' : List (Nat × List Order)) : Prop :=
  ∃ k, (L.drop k = [] ∧ L' = []) ∨
    ∃ p lvl rest lvl', L.drop k = (p, lvl) :: rest ∧ levelReduced lvl lvl' ∧
      L' = (p, lvl') :: rest

/-- All order ids stored in a ladder, level by level. -/
def ladderIds (lad : Ladder) : List Nat :=
  (lad.map (fun e => e.2.map Order.id)).flatten

/-- Agreement between a ladder entry `o` and its `orders_by_id` copy
`o'`.  The copy matches on every field except `remaining_quantity` and
`status`: `match_limit_order` / `match_market_order` update only the
*aggressor's* index copy on a partial fill (`orders_by_id.get_mut(&order.id)`),
so a resting order's index copy lags behind, holding the remaining
quantity it had when it was inserted into the ladder, with a
non-terminal status. -/
def laggedCopy (o o' : Order) : Prop :=
  o' = { o with remaining_quantity := o'.remaining_quantity, status := o'.status } ∧
    o.remaining_quantity ≤ o'.remaining_quantity ∧
    (o'.status = OrderStatus.New ∨ o'.status = OrderStatus.PartiallyFilled)

/-- Per-order well-formedness of one ladder (or of the matching loop's
view of it) with respect to the `orders_by_id` index: each stored order
has its level key as price, the ladder's side, positive remaining
quantity, a non-terminal status, and a lagged copy in the index. -/
def ladderOrdersOk (lad : List (Nat × List Order)) (side : OrderSide) (index : Index) :
    Prop :=
  ∀ p lvl, (p, lvl) ∈ lad → ∀ o ∈ lvl,
    o.price = p ∧ o.side = side ∧ 0 < o.remaining_quantity ∧
      (o.status = OrderStatus.New ∨ o.status = OrderStatus.PartiallyFilled) ∧
      ∃ o', index.get o.id = some o' ∧ laggedCopy o o'

/-- Every price level is sorted by timestamp (FIFO time priority). -/
def ladderTsSorted (lad : List (Nat × List Order)) : Prop :=
  ∀ p lvl, (p, lvl) ∈ lad → List.Chain' (fun a b => a.timestamp ≤ b.timestamp) lvl

/-- Well-formedness of a book state, maintained by `process_order` and
`cancel_order` from the empty book under fresh-id submissions. -/
structure WF (b : OrderBook) : Prop where
  bidsKeys : (b.bids.map Prod.fst).Nodup
  asksKeys : (b.asks.map Prod.fst).Nodup
  bidsOk : ladderOrdersOk b.bids OrderSide.Buy b.orders_by_id
  asksOk : ladderOrdersOk b.asks OrderSide.Sell b.orders_by_id
  bidsTs : ladderTsSorted b.bids
  asksTs : ladderTsSorted b.asks
  idsNodup : (ladderIds b.bids ++ ladderIds b.asks).Nodup
  statsBid : b.stats.best_bid = b.best_bid
  statsAsk : b.stats.best_ask = b.best_ask
  statsBidCount : b.stats.bid_order_count = totalOrders b.bids
  statsAskCount : b.stats.ask_order_count = totalOrders b.asks

/-- The ladder/index part of `WF`, used while stats are transiently
stale inside `process_order` / `cancel_order`. -/
structure CoreWF (bids asks : Ladder) (index : Index) : Prop where
  bidsKeys : (bids.map Prod.fst).Nodup
  asksKeys : (asks.map Prod.fst).Nodup
  bidsOk : ladderOrdersOk bids OrderSide.Buy index
  asksOk : ladderOrdersOk asks OrderSide.Sell index
  bidsTs : ladderTsSorted bids
  asksTs : ladderTsSorted asks
  idsNodup : (ladderIds bids ++ ladderIds asks).Nodup

/-- Every index binding stores an order whose `id` field is its key —
maintained because every insertion into `orders_by_id` uses the stored
order's own id as key. -/
def WellKeyed (index : Index) : Prop :=
  ∀ k v, index.get k = some v → v.id = k

/-- The ladder/index part of the book invariant together with index
key-consistency: everything of `WF` that survives the transient stats
staleness inside `process_order` / `cancel_order`. -/
def BookInv (b : OrderBook) : Prop :=
  CoreWF b.bids b.asks b.orders_by_id ∧ WellKeyed b.orders_by_id

/-- The order rests in one of the book's two ladders. -/
def OrderBook.hasResting (b : OrderBook) (o : Order) : Prop :=
  (∃ p lvl, (p, lvl) ∈ b.bids ∧ o ∈ lvl) ∨ ∃ p lvl, (p, lvl) ∈ b.asks ∧ o ∈ lvl

/-- The ladder of one side of the book. -/
def OrderBook.sideLadder (b : OrderBook) : OrderSide → Ladder
  | OrderSide.Buy => b.bids
  | OrderSide.Sell => b.asks

/-- Total remaining quantity stored in one price level. -/
def levelQty (lvl : List Order) : Nat :=
  (lvl.map (·.remaining_quantity)).sum

/-- The liquidity the loop's price test lets the aggressor consume: the
total remaining quantity of the crossing prefix of the opposite view. -/
def matchableQty (cp : Bool) (order : Order) : List (Nat × List Order) → Nat
  | [] => 0
  | (price, lvl) :: rest =>
    if crossesPrice cp order.side order.price price then
      levelQty lvl + matchableQty cp order rest
    else 0

/-- Submission side conditions: the order's id is not yet bound in
`orders_by_id` (the spec declares ids "unique within the book's
lifetime") and the order is freshly constructed (`Order::new_*`: full
remaining quantity, status `New`). -/
def SubmitOk (b : OrderBook) (o : Order) : Prop :=
  b.orders_by_id.get o.id = none ∧ o.remaining_quantity = o.quantity ∧
    o.status = OrderStatus.New

/-- Book states reachable from an empty book through `process_order`
(submissions satisfying `SubmitOk`) and `cancel_order`. -/
inductive Reachable : OrderBook → Prop
  | base (symbol : String) : Reachable (OrderBook.new symbol)
  | step_order (b : OrderBook) (o : Order) : Reachable b → SubmitOk b o →
      Reachable (b.process_order o).book
  | step_cancel (b : OrderBook) (oid : Nat) : Reachable b →
      Reachable (b.cancel_order oid).2

/-!
### Basic lemmas about the containers and order operations
-/

@[simp]
theorem Index.get_insert_self (m : Index) (k : Nat) (v : Order) :
    (m.insert k v).get k = some v := by
  simp [Index.insert, Index.get]

theorem Index.get_erase_self (m : Index) (k : Nat) :
    (m.erase k).get k = none := by
  induction m with
  | nil => rfl
  | cons e rest ih =>
    rw [Index.erase]
    by_cases he : e.1 = k
    · simpa [he] using ih
    · rw [if_neg he, Index.get, if_neg he]
      exact ih

theorem Index.get_erase_ne (m : Index) (k k' : Nat) (h : k' ≠ k) :
    (m.erase k).get k' = m.get k' := by
  induction m with
  | nil => rfl
  | cons e rest ih =>
    rw [Index.erase]
    by_cases he : e.1 = k
    · rw [if_pos he, Index.get, if_neg (by rw [he]; exact fun e' => h e'.symm)]
      exact ih
    · rw [if_neg he, Index.get, Index.get]
      by_cases hk' : e.1 = k'
      · rw [if_pos hk', if_pos hk']
      · rw [if_neg hk', if_neg hk']
        exact ih

theorem Index.get_insert_ne (m : Index) (k k' : Nat) (v : Order) (h : k' ≠ k) :
    (m.insert k v).get k' = m.get k' := by
  rw [Index.insert, Index.get, if_neg (fun e => h e.symm)]
  exact Index.get_erase_ne m k k' h

theorem Index.erase_of_get_none (m : Index) (k : Nat) (h : m.get k = none) :
    m.erase k = m := by
  induction m with
  | nil => rfl
  | cons e rest ih =>
    rw [Index.get] at h
    by_cases he : e.1 = k
    · rw [if_pos he] at h
      exact absurd h (by simp)
    · rw [if_neg he] at h
      rw [Index.erase, if_neg he, ih h]

theorem Index.erase_erase_self (m : Index) (k : Nat) :
    (m.erase k).erase k = m.erase k := by
  induction m with
  | nil => rfl
  | cons e rest ih =>
    rw [Index.erase]
    by_cases he : e.1 = k
    · rw [if_pos he]
      exact ih
    · rw [if_neg he, Index.erase, if_neg he, ih]

theorem Index.erase_insert (m : Index) (k : Nat) (v : Order) :
    (m.insert k v).erase k = m.erase k := by
  rw [Index.insert, Index.erase, if_pos rfl]
  exact Index.erase_erase_self m k

@[simp]
theorem Order.fillPartial_id (o : Order) (q : Nat) : (o.fillPartial q).id = o.id := rfl

@[simp]
theorem Order.fillPartial_price (o : Order) (q : Nat) : (o.fillPartial q).price = o.price := rfl

@[simp]
theorem Order.fillPartial_quantity (o : Order) (q : Nat) :
    (o.fillPartial q).quantity = o.quantity := rfl

@[simp]
theorem Order.fillPartial_side (o : Order) (q : Nat) : (o.fillPartial q).side = o.side := rfl

@[simp]
theorem Order.fillPartial_timestamp (o : Order) (q : Nat) :
    (o.fillPartial q).timestamp = o.timestamp := rfl

@[simp]
theorem Order.fillPartial_user_id (o : Order) (q : Nat) :
    (o.fillPartial q).user_id = o.user_id := rfl

@[simp]
theorem Order.fillPartial_symbol (o : Order) (q : Nat) :
    (o.fillPartial q).symbol = o.symbol := rfl

@[simp]
theorem Order.fillPartial_order_type (o : Order) (q : Nat) :
    (o.fillPartial q).order_type = o.order_type := rfl

@[simp]
theorem Order.fillPartial_client_order_id (o : Order) (q : Nat) :
    (o.fillPartial q).client_order_id = o.client_order_id := rfl

@[simp]
theorem Order.fillPartial_remaining (o : Order) (q : Nat) :
    (o.fillPartial q).remaining_quantity = o.remaining_quantity - q := rfl

@[simp]
theorem Order.cancel_remaining (o : Order) :
    o.cancel.remaining_quantity = o.remaining_quantity := by
  unfold Order.cancel
  split <;> rfl

@[simp]
theorem mkTrade_quantity (tid price q : Nat) (o r : Order) :
    (mkTrade tid price q o r).quantity = q := rfl

@[simp]
theorem mkTrade_price (tid price q : Nat) (o r : Order) :
    (mkTrade tid price q o r).price = price := rfl

theorem mkTrade_involves (tid price q : Nat) (o r : Order) :
    (mkTrade tid price q o r).buy_order_id = o.id ∨
      (mkTrade tid price q o r).sell_order_id = o.id := by
  cases h : o.side
  · left
    simp [mkTrade, Order.is_buy, h]
  · right
    simp [mkTrade, Order.is_sell, Order.is_buy, h]

theorem mkTrade_passive (tid price q : Nat) (o r : Order) :
    (match o.side with
     | OrderSide.Buy => (mkTrade tid price q o r).sell_order_id
     | OrderSide.Sell => (mkTrade tid price q o r).buy_order_id) = r.id := by
  cases h : o.side <;> simp [mkTrade, Order.is_buy, Order.is_sell, h]

/-!
### One-step unfolding lemmas for the matching loop
-/

theorem matchLoop_succ (cp : Bool) (fuel : Nat) (order : Order)
    (levels : List (Nat × List Order)) (index : Index) (tid : Nat) :
    matchLoop cp (fuel + 1) order levels index tid =
      matchStep cp (matchLoop cp fuel) order levels index tid := rfl

theorem matchStep_done (cp : Bool) (go : Order → List (Nat × List Order) → Index → Nat →
      MatchResult) (order : Order) (levels : List (Nat × List Order)) (index : Index)
    (tid : Nat) (h : order.remaining_quantity = 0) :
    matchStep cp go order levels index tid = ⟨[], order, levels, index, tid, true⟩ := by
  unfold matchStep
  rw [if_pos h]

theorem matchStep_nil (cp : Bool) (go : Order → List (Nat × List Order) → Index → Nat →
      MatchResult) (order : Order) (index : Index) (tid : Nat)
    (h : order.remaining_quantity ≠ 0) :
    matchStep cp go order [] index tid = ⟨[], order, [], index, tid, true⟩ := by
  unfold matchStep
  rw [if_neg h]

theorem matchStep_nocross (cp : Bool) (go : Order → List (Nat × List Order) → Index → Nat →
      MatchResult) (order : Order) (price : Nat) (lvl : List Order)
    (rest : List (Nat × List Order)) (index : Index) (tid : Nat)
    (h : order.remaining_quantity ≠ 0)
    (hc : crossesPrice cp order.side order.price price = false) :
    matchStep cp go order ((price, lvl) :: rest) index tid =
      ⟨[], order, (price, lvl) :: rest, index, tid, true⟩ := by
  unfold matchStep
  rw [if_neg h]
  simp only [hc, Bool.false_eq_true, if_false]

theorem matchStep_emptyLvl (cp : Bool) (go : Order → List (Nat × List Order) → Index → Nat →
      MatchResult) (order : Order) (price : Nat) (rest : List (Nat × List Order))
    (index : Index) (tid : Nat) (h : order.remaining_quantity ≠ 0)
    (hc : crossesPrice cp order.side order.price price = true) :
    matchStep cp go order ((price, []) :: rest) index tid = go order rest index tid := by
  unfold matchStep
  rw [if_neg h]
  simp only [hc, if_true]

theorem matchStep_fill_filled (cp : Bool) (go : Order → List (Nat × List Order) → Index →
      Nat → MatchResult) (order resting : Order) (price : Nat) (lvlRest : List Order)
    (rest : List (Nat × List Order)) (index : Index) (tid : Nat)
    (h : order.remaining_quantity ≠ 0)
    (hc : crossesPrice cp order.side order.price price = true)
    (hf : (resting.fillPartial
      (min order.remaining_quantity resting.remaining_quantity)).is_filled = true) :
    matchStep cp go order ((price, resting :: lvlRest) :: rest) index tid =
      (let q := min order.remaining_quantity resting.remaining_quantity
       let r := go (order.fillPartial q) ((price, lvlRest) :: rest)
         (indexFillComplete (indexFillAggressor index order.id q) resting.id) (tid + 1)
       ⟨mkTrade (tid + 1) price q order resting :: r.trades, r.order, r.levels, r.index,
        r.last_trade_id, stepAssert index order resting q && r.assertsOk⟩) := by
  unfold matchStep
  rw [if_neg h]
  simp only [hc, if_true, hf]

theorem matchStep_fill_open (cp : Bool) (go : Order → List (Nat × List Order) → Index →
      Nat → MatchResult) (order resting : Order) (price : Nat) (lvlRest : List Order)
    (rest : List (Nat × List Order)) (index : Index) (tid : Nat)
    (h : order.remaining_quantity ≠ 0)
    (hc : crossesPrice cp order.side order.price price = true)
    (hf : ¬ (resting.fillPartial
      (min order.remaining_quantity resting.remaining_quantity)).is_filled = true) :
    matchStep cp go order ((price, resting :: lvlRest) :: rest) index tid =
      (let q := min order.remaining_quantity resting.remaining_quantity
       let r := go (order.fillPartial q) ((price, resting.fillPartial q :: lvlRest) :: rest)
         (indexFillAggressor index order.id q) (tid + 1)
       ⟨mkTrade (tid + 1) price q order resting :: r.trades, r.order, r.levels, r.index,
        r.last_trade_id, stepAssert index order resting q && r.assertsOk⟩) := by
  unfold matchStep
  rw [if_neg h]
  simp only [hc, if_true]
  rw [if_neg hf]

/-!
### Conservation through the matching loop (towards C1)
-/

/-- Through the matching loop the aggressor keeps every field except
`remaining_quantity` and `status`, the traded quantities and the final
remaining quantity account exactly for the initial remaining quantity,
and every emitted trade carries the aggressor's id on its own side. -/
theorem matchLoop_conservation (cp : Bool) :
    ∀ (fuel : Nat) (order : Order) (levels : List (Nat × List Order)) (index : Index)
      (tid : Nat),
      ((matchLoop cp fuel order levels index tid).trades.map (·.quantity)).sum +
          (matchLoop cp fuel order levels index tid).order.remaining_quantity =
        order.remaining_quantity ∧
      (matchLoop cp fuel order levels index tid).order =
        { order with
          remaining_quantity := (matchLoop cp fuel order levels index tid).order.remaining_quantity
          status := (matchLoop cp fuel order levels index tid).order.status } ∧
      ∀ t ∈ (matchLoop cp fuel order levels index tid).trades,
        t.buy_order_id = order.id ∨ t.sell_order_id = order.id := by
  intro fuel
  induction fuel with
  | zero =>
    intro order levels index tid
    refine ⟨by simp [matchLoop], rfl, by simp [matchLoop]⟩
  | succ fuel ih =>
    intro order levels index tid
    rw [matchLoop_succ]
    by_cases h0 : order.remaining_quantity = 0
    · rw [matchStep_done _ _ _ _ _ _ h0]
      exact ⟨by simp, rfl, by simp⟩
    · match levels with
      | [] =>
        rw [matchStep_nil _ _ _ _ _ h0]
        exact ⟨by simp, rfl, by simp⟩
      | (price, lvl) :: rest =>
        by_cases hc : crossesPrice cp order.side order.price price = true
        · match lvl with
          | [] =>
            rw [matchStep_emptyLvl _ _ _ _ _ _ _ h0 hc]
            exact ih order rest index tid
          | resting :: lvlRest =>
            set q := min order.remaining_quantity resting.remaining_quantity with hq
            have hqle : q ≤ order.remaining_quantity := Nat.min_le_left _ _
            by_cases hf : (resting.fillPartial q).is_filled = true
            · rw [matchStep_fill_filled _ _ _ _ _ _ _ _ _ h0 hc hf]
              obtain ⟨ha, hb, hcc⟩ := ih (order.fillPartial q) ((price, lvlRest) :: rest)
                (indexFillComplete (indexFillAggressor index order.id q) resting.id) (tid + 1)
              refine ⟨?_, ?_, ?_⟩
              · simp only [List.map_cons, List.sum_cons, mkTrade_quantity]
                rw [Nat.add_assoc, ha]
                simp only [Order.fillPartial_remaining]
                omega
              · rw [hb]
                simp [Order.fillPartial]
              · intro t ht
                simp only [List.mem_cons] at ht
                rcases ht with rfl | ht
                · exact mkTrade_involves _ _ _ _ _
                · simpa using hcc t ht
            · rw [matchStep_fill_open _ _ _ _ _ _ _ _ _ h0 hc hf]
              obtain ⟨ha, hb, hcc⟩ := ih (order.fillPartial q)
                ((price, resting.fillPartial q :: lvlRest) :: rest)
                (indexFillAggressor index order.id q) (tid + 1)
              refine ⟨?_, ?_, ?_⟩
              · simp only [List.map_cons, List.sum_cons, mkTrade_quantity]
                rw [Nat.add_assoc, ha]
                simp only [Order.fillPartial_remaining]
                omega
              · rw [hb]
                simp [Order.fillPartial]
              · intro t ht
                simp only [List.mem_cons] at ht
                rcases ht with rfl | ht
                · exact mkTrade_involves _ _ _ _ _
                · simpa using hcc t ht
        · rw [matchStep_nocross _ _ _ _ _ _ _ _ h0 (by simpa using hc)]
          exact ⟨by simp, rfl, by simp⟩

/-!
### Equational characterizations of the matcher wrappers and the dispatch
-/

theorem Matcher.match_market_order_buy (m : Matcher) (order : Order) (bids asks : Ladder)
    (index : Index) (h : order.side = OrderSide.Buy) :
    m.match_market_order order bids asks index =
      (let r := matchLoop false (matchFuel order asks) order asks index m.last_trade_id
       ⟨r.trades, r.order, bids, r.levels, r.index, ⟨r.last_trade_id⟩, r.assertsOk⟩) := by
  unfold Matcher.match_market_order
  rw [h]

theorem Matcher.match_market_order_sell (m : Matcher) (order : Order) (bids asks : Ladder)
    (index : Index) (h : order.side = OrderSide.Sell) :
    m.match_market_order order bids asks index =
      (let r := matchLoop false (matchFuel order bids.reverse) order bids.reverse index
         m.last_trade_id
       ⟨r.trades, r.order, r.levels.reverse, asks, r.index, ⟨r.last_trade_id⟩, r.assertsOk⟩) := by
  unfold Matcher.match_market_order
  rw [h]

theorem Matcher.match_limit_order_buy (m : Matcher) (order : Order) (bids asks : Ladder)
    (index : Index) (h : order.side = OrderSide.Buy) :
    m.match_limit_order order bids asks index =
      (let r := matchLoop true (matchFuel order asks) order asks index m.last_trade_id
       ⟨r.trades, r.order, bids, r.levels, r.index, ⟨r.last_trade_id⟩, r.assertsOk⟩) := by
  unfold Matcher.match_limit_order
  rw [h]

theorem Matcher.match_limit_order_sell (m : Matcher) (order : Order) (bids asks : Ladder)
    (index : Index) (h : order.side = OrderSide.Sell) :
    m.match_limit_order order bids asks index =
      (let r := matchLoop true (matchFuel order bids.reverse) order bids.reverse index
         m.last_trade_id
       ⟨r.trades, r.order, r.levels.reverse, asks, r.index, ⟨r.last_trade_id⟩, r.assertsOk⟩) := by
  unfold Matcher.match_limit_order
  rw [h]

/-- Repackaged form of `matchLoop_conservation`. -/
theorem matchLoop_conserved (cp : Bool) (fuel : Nat) (order : Order)
    (levels : List (Nat × List Order)) (index : Index) (tid : Nat) :
    ConservedBy order (matchLoop cp fuel order levels index tid).trades
      (matchLoop cp fuel order levels index tid).order := by
  obtain ⟨h1, _, h3⟩ := matchLoop_conservation cp fuel order levels index tid
  exact ⟨h1, h3⟩

theorem Matcher.match_market_order_conserved (m : Matcher) (order : Order)
    (bids asks : Ladder) (index : Index) :
    ConservedBy order (m.match_market_order order bids asks index).trades
      (m.match_market_order order bids asks index).order := by
  cases h : order.side
  · rw [Matcher.match_market_order_buy m order bids asks index h]
    exact matchLoop_conserved _ _ _ _ _ _
  · rw [Matcher.match_market_order_sell m order bids asks index h]
    exact matchLoop_conserved _ _ _ _ _ _

theorem Matcher.limit_engine_conserved (m : Matcher) (order : Order)
    (bids asks : Ladder) (index : Index) :
    ConservedBy order (m.match_limit_order order bids asks index).trades
      (m.match_limit_order order bids asks index).order := by
  cases h : order.side
  · rw [Matcher.match_limit_order_buy m order bids asks index h]
    exact matchLoop_conserved _ _ _ _ _ _
  · rw [Matcher.match_limit_order_sell m order bids asks index h]
    exact matchLoop_conserved _ _ _ _ _ _

/-- The book-level `match_limit_order` wrapper returns the matcher's
trades, final order and assertion flag unchanged. -/
theorem OrderBook.match_limit_order_proj (b : OrderBook) (order : Order) :
    (b.match_limit_order order).1 =
        (b.matcher.match_limit_order order b.bids b.asks b.orders_by_id).trades ∧
      (b.match_limit_order order).2.2.1 =
        (b.matcher.match_limit_order order b.bids b.asks b.orders_by_id).order ∧
      (b.match_limit_order order).2.2.2 =
        (b.matcher.match_limit_order order b.bids b.asks b.orders_by_id).assertsOk := by
  refine ⟨?_, ?_, ?_⟩ <;>
    · unfold OrderBook.match_limit_order
      simp only []
      split
      · split <;> rfl
      · rfl

theorem OrderBook.match_limit_order_conserved (b : OrderBook) (order : Order) :
    ConservedBy order (b.match_limit_order order).1 (b.match_limit_order order).2.2.1 := by
  obtain ⟨h1, h2, _⟩ := b.match_limit_order_proj order
  rw [h1, h2]
  exact Matcher.limit_engine_conserved _ _ _ _ _

theorem ConservedBy_of_modified (order mo : Order) (trades : List Trade) (fin : Order)
    (hrem : mo.remaining_quantity = order.remaining_quantity) (hid : mo.id = order.id)
    (h : ConservedBy mo trades fin) : ConservedBy order trades fin := by
  refine ⟨by rw [h.1, hrem], ?_⟩
  intro t ht
  rcases h.2 t ht with h' | h'
  · exact Or.inl (by rw [h', hid])
  · exact Or.inr (by rw [h', hid])

theorem ConservedBy_cancel_final (order : Order) (trades : List Trade) (fin : Order)
    (h : ConservedBy order trades fin) : ConservedBy order trades fin.cancel :=
  ⟨by rw [Order.cancel_remaining, h.1], h.2⟩

theorem OrderBook.dispatchOrder_market (b0 : OrderBook) (order : Order)
    (ht : order.order_type = OrderType.Market) :
    b0.dispatchOrder order =
      (let r := b0.matcher.match_market_order order b0.bids b0.asks b0.orders_by_id
       (r.trades, b0.applyEngine r, r.order, r.assertsOk)) := by
  unfold OrderBook.dispatchOrder
  rw [ht]

theorem OrderBook.dispatchOrder_limit (b0 : OrderBook) (order : Order)
    (ht : order.order_type = OrderType.Limit) :
    b0.dispatchOrder order = b0.match_limit_order order := by
  unfold OrderBook.dispatchOrder
  rw [ht]

theorem OrderBook.dispatchOrder_ioc (b0 : OrderBook) (order : Order)
    (ht : order.order_type = OrderType.IOC) :
    b0.dispatchOrder order =
      (let s := b0.match_limit_order order
       match s.2.1.orders_by_id.get order.id with
       | some ro =>
         if 0 < ro.remaining_quantity then
           let b2 :=
             { s.2.1 with orders_by_id := s.2.1.orders_by_id.insert order.id ro.cancel }
           (s.1, (b2.remove_order order.id).2, s.2.2.1.cancel, s.2.2.2)
         else (s.1, s.2.1, s.2.2.1, s.2.2.2)
       | none => (s.1, s.2.1, s.2.2.1, s.2.2.2)) := by
  unfold OrderBook.dispatchOrder
  rw [ht]

theorem OrderBook.dispatchOrder_fok (b0 : OrderBook) (order : Order)
    (ht : order.order_type = OrderType.FOK) :
    b0.dispatchOrder order =
      (let potential := Matcher.simulate_order_match order b0.bids b0.asks
       let total_matched := (potential.map (·.quantity)).sum
       if total_matched = order.quantity then b0.match_limit_order order
       else
         let b1 :=
           match b0.orders_by_id.get order.id with
           | some ro => { b0 with orders_by_id := b0.orders_by_id.insert order.id ro.cancel }
           | none => b0
         ([], (b1.remove_order order.id).2, order.cancel, true)) := by
  unfold OrderBook.dispatchOrder
  rw [ht]

theorem OrderBook.dispatchOrder_stop (b0 : OrderBook) (order : Order) (sp : Nat)
    (ht : order.order_type = OrderType.Stop sp) :
    b0.dispatchOrder order =
      (if b0.stopTriggered order.side sp then
        let market_order := { order with order_type := OrderType.Market }
        let r := b0.matcher.match_market_order market_order b0.bids b0.asks b0.orders_by_id
        (r.trades, b0.applyEngine r, r.order, r.assertsOk)
      else ([], b0, order, true)) := by
  unfold OrderBook.dispatchOrder
  rw [ht]

theorem OrderBook.dispatchOrder_stopLimit (b0 : OrderBook) (order : Order) (sp lp : Nat)
    (ht : order.order_type = OrderType.StopLimit sp lp) :
    b0.dispatchOrder order =
      (if b0.stopTriggered order.side sp then
        b0.match_limit_order { order with order_type := OrderType.Limit, price := lp }
      else ([], b0, order, true)) := by
  unfold OrderBook.dispatchOrder
  rw [ht]

theorem OrderBook.process_order_mismatch (b : OrderBook) (order : Order)
    (h : order.symbol ≠ b.symbol) :
    b.process_order order = ⟨[], b, order, true⟩ := by
  unfold OrderBook.process_order
  rw [if_pos h]

theorem OrderBook.process_order_ok (b : OrderBook) (order : Order)
    (h : order.symbol = b.symbol) :
    b.process_order order =
      (let step := (b.preDispatch order).dispatchOrder order
       let b2 := step.2.1.update_stats
       ⟨step.1,
        { b2 with stats :=
            step.1.foldl (fun s t => s.update_with_trade t.price t.quantity) b2.stats },
        step.2.2.1, step.2.2.2⟩) := by
  unfold OrderBook.process_order
  rw [if_neg (by simp [h])]

/-- Every dispatch branch conserves quantity into its trades and final
order ghost. -/
theorem OrderBook.dispatchOrder_conserved (b0 : OrderBook) (order : Order) :
    ConservedBy order (b0.dispatchOrder order).1 (b0.dispatchOrder order).2.2.1 := by
  cases ht : order.order_type with
  | Market =>
    rw [OrderBook.dispatchOrder_market b0 order ht]
    exact Matcher.match_market_order_conserved _ _ _ _ _
  | Limit =>
    rw [OrderBook.dispatchOrder_limit b0 order ht]
    exact b0.match_limit_order_conserved order
  | IOC =>
    rw [OrderBook.dispatchOrder_ioc b0 order ht]
    have hs := b0.match_limit_order_conserved order
    cases hg : Index.get (b0.match_limit_order order).2.1.orders_by_id order.id
    · simpa [hg] using hs
    · simp only [hg]
      split
      · exact ConservedBy_cancel_final _ _ _ hs
      · exact hs
  | FOK =>
    rw [OrderBook.dispatchOrder_fok b0 order ht]
    simp only []
    by_cases hm : ((Matcher.simulate_order_match order b0.bids b0.asks).map
        (·.quantity)).sum = order.quantity
    · rw [if_pos hm]
      exact b0.match_limit_order_conserved order
    · rw [if_neg hm]
      exact ⟨by simp, by simp⟩
  | Stop sp =>
    rw [OrderBook.dispatchOrder_stop b0 order sp ht]
    split
    · exact ConservedBy_of_modified order _ _ _ rfl rfl
        (Matcher.match_market_order_conserved _ _ _ _ _)
    · exact ⟨by simp, by simp⟩
  | StopLimit sp lp =>
    rw [OrderBook.dispatchOrder_stopLimit b0 order sp lp ht]
    split
    · exact ConservedBy_of_modified order _ _ _ rfl rfl
        (b0.match_limit_order_conserved _)
    · exact ⟨by simp, by simp⟩

/-- C1.  Conservation of quantity: for every order submitted via
`process_order` (fresh, i.e. `remaining_quantity = quantity` as the
`Order` constructors guarantee), the submitted quantity equals the sum
of `trade.quantity` over the returned trades plus the order's final
remaining quantity; moreover every returned trade names the submitted
order as its `buy_order_id` or `sell_order_id`, so the sum over all
returned trades coincides with the sum over the trades in which the
order appears. -/
theorem c1_conservation (b : OrderBook) (o : Order)
    (h : o.remaining_quantity = o.quantity) :
    o.quantity =
        ((b.process_order o).trades.map (·.quantity)).sum +
          (b.process_order o).finalOrder.remaining_quantity ∧
      ∀ t ∈ (b.process_order o).trades, t.buy_order_id = o.id ∨ t.sell_order_id = o.id := by
  by_cases hs : o.symbol = b.symbol
  · rw [OrderBook.process_order_ok b o hs]
    have hc := OrderBook.dispatchOrder_conserved (b.preDispatch o) o
    exact ⟨by rw [← h, ← hc.1], hc.2⟩
  · rw [OrderBook.process_order_mismatch b o hs]
    exact ⟨by simpa using h.symm, by simp⟩

/-- Witness for C1: submitting a crossing buy limit order for 5 against
a book whose only ask has quantity 3 yields trades totalling 3 and a
final remaining quantity of 2. -/
theorem c1_conservation_witness :
    (exLimit 2 100 5 OrderSide.Buy 2).remaining_quantity =
        (exLimit 2 100 5 OrderSide.Buy 2).quantity ∧
      ((exLimit 2 100 5 OrderSide.Buy 2).quantity =
          ((exBookAsk.process_order (exLimit 2 100 5 OrderSide.Buy 2)).trades.map
              (·.quantity)).sum +
            (exBookAsk.process_order
              (exLimit 2 100 5 OrderSide.Buy 2)).finalOrder.remaining_quantity ∧
        ∀ t ∈ (exBookAsk.process_order (exLimit 2 100 5 OrderSide.Buy 2)).trades,
          t.buy_order_id = (exLimit 2 100 5 OrderSide.Buy 2).id ∨
            t.sell_order_id = (exLimit 2 100 5 OrderSide.Buy 2).id) :=
  ⟨rfl, c1_conservation exBookAsk (exLimit 2 100 5 OrderSide.Buy 2) rfl⟩

/-!
### Shape of the matching loop's effect on the opposite view
-/

theorem Order.fillPartial_fillPartial (o : Order) (q₁ q₂ : Nat) :
    (o.fillPartial q₁).fillPartial q₂ = o.fillPartial (q₁ + q₂) := by
  unfold Order.fillPartial
  simp [Nat.sub_sub]

theorem levelReduced_refl (lvl : List Order) : levelReduced lvl lvl :=
  ⟨0, Or.inl rfl⟩

theorem levelReduced_dropHead (o : Order) (rest : List Order) :
    levelReduced (o :: rest) rest :=
  ⟨1, Or.inl rfl⟩

theorem levelReduced_fillHead (o : Order) (rest : List Order) (q : Nat) :
    levelReduced (o :: rest) (o.fillPartial q :: rest) :=
  ⟨0, Or.inr ⟨o, rest, q, rfl, rfl⟩⟩

theorem levelReduced_trans (a b c : List Order)
    (h₁ : levelReduced a b) (h₂ : levelReduced b c) : levelReduced a c := by
  obtain ⟨k₁, h₁⟩ := h₁
  obtain ⟨k₂, h₂⟩ := h₂
  rcases h₁ with h₁ | ⟨o, rest, q, ha, hb⟩
  · subst h₁
    rcases h₂ with h₂ | ⟨o, rest, q, ha, hb⟩
    · exact ⟨k₁ + k₂, Or.inl (by rw [h₂, List.drop_drop])⟩
    · exact ⟨k₁ + k₂, Or.inr ⟨o, rest, q, by rw [← List.drop_drop, ha], hb⟩⟩
  · subst hb
    match k₂ with
    | 0 =>
      rcases h₂ with h₂ | ⟨o₂, rest₂, q₂, ha₂, hb₂⟩
      · rw [List.drop_zero] at h₂
        exact ⟨k₁, Or.inr ⟨o, rest, q, ha, h₂⟩⟩
      · rw [List.drop_zero] at ha₂
        cases ha₂
        rw [hb₂, Order.fillPartial_fillPartial]
        exact ⟨k₁, Or.inr ⟨o, rest, q + q₂, ha, rfl⟩⟩
    | j + 1 =>
      have hdrop : (Order.fillPartial o q :: rest).drop (j + 1) = a.drop (k₁ + (j + 1)) := by
        rw [List.drop_succ_cons, ← List.drop_drop, ha, List.drop_succ_cons]
      rcases h₂ with h₂ | ⟨o₂, rest₂, q₂, ha₂, hb₂⟩
      · exact ⟨k₁ + (j + 1), Or.inl (by rw [h₂, hdrop])⟩
      · exact ⟨k₁ + (j + 1), Or.inr ⟨o₂, rest₂, q₂, by rw [← hdrop, ha₂], hb₂⟩⟩

theorem viewReduced_refl (L : List (Nat × List Order)) : viewReduced L L := by
  match L with
  | [] => exact ⟨0, Or.inl ⟨rfl, rfl⟩⟩
  | (p, lvl) :: rest => exact ⟨0, Or.inr ⟨p, lvl, rest, lvl, rfl, levelReduced_refl lvl, rfl⟩⟩

theorem viewReduced_dropLevel (e : Nat × List Order) (rest L' : List (Nat × List Order))
    (h : viewReduced rest L') : viewReduced (e :: rest) L' := by
  obtain ⟨k, h⟩ := h
  exact ⟨k + 1, by rwa [List.drop_succ_cons]⟩

theorem viewReduced_headLevel (p : Nat) (lvl lvl₂ : List Order)
    (rest L' : List (Nat × List Order)) (h₁ : levelReduced lvl lvl₂)
    (h₂ : viewReduced ((p, lvl₂) :: rest) L') : viewReduced ((p, lvl) :: rest) L' := by
  obtain ⟨k, h₂⟩ := h₂
  match k with
  | 0 =>
    rcases h₂ with ⟨h₂, _⟩ | ⟨p', lvl'', rest', lvl₃, ha, hred, hb⟩
    · exact absurd h₂ (by simp)
    · rw [List.drop_zero] at ha
      cases ha
      exact ⟨0, Or.inr ⟨p, lvl, rest, lvl₃, rfl, levelReduced_trans _ _ _ h₁ hred, hb⟩⟩
  | j + 1 =>
    rw [List.drop_succ_cons] at h₂
    exact ⟨j + 1, by rwa [List.drop_succ_cons]⟩

/-- The matching loop only ever drops front levels of the opposite view
and reduces the first remaining level. -/
theorem matchLoop_viewReduced (cp : Bool) :
    ∀ (fuel : Nat) (order : Order) (levels : List (Nat × List Order)) (index : Index)
      (tid : Nat), viewReduced levels (matchLoop cp fuel order levels index tid).levels := by
  intro fuel
  induction fuel with
  | zero =>
    intro order levels index tid
    exact viewReduced_refl levels
  | succ fuel ih =>
    intro order levels index tid
    rw [matchLoop_succ]
    by_cases h0 : order.remaining_quantity = 0
    · rw [matchStep_done _ _ _ _ _ _ h0]
      exact viewReduced_refl levels
    · match levels with
      | [] =>
        rw [matchStep_nil _ _ _ _ _ h0]
        exact viewReduced_refl []
      | (price, lvl) :: rest =>
        by_cases hc : crossesPrice cp order.side order.price price = true
        · match lvl with
          | [] =>
            rw [matchStep_emptyLvl _ _ _ _ _ _ _ h0 hc]
            exact viewReduced_dropLevel _ _ _ (ih order rest index tid)
          | resting :: lvlRest =>
            by_cases hf : (resting.fillPartial
                (min order.remaining_quantity resting.remaining_quantity)).is_filled = true
            · rw [matchStep_fill_filled _ _ _ _ _ _ _ _ _ h0 hc hf]
              exact viewReduced_headLevel _ _ _ _ _
                (levelReduced_dropHead resting lvlRest) (ih _ _ _ _)
            · rw [matchStep_fill_open _ _ _ _ _ _ _ _ _ h0 hc hf]
              exact viewReduced_headLevel _ _ _ _ _
                (levelReduced_fillHead resting lvlRest _) (ih _ _ _ _)
        · rw [matchStep_nocross _ _ _ _ _ _ _ _ h0 (by simpa using hc)]
          exact viewReduced_refl _

/-!
### Effect of the loop's index updates
-/

theorem ladderIds_cons (p : Nat) (lvl : List Order) (rest : Ladder) :
    ladderIds ((p, lvl) :: rest) = lvl.map Order.id ++ ladderIds rest := by
  simp [ladderIds]

theorem indexFillAggressor_get_ne (index : Index) (oid q k : Nat) (h : k ≠ oid) :
    (indexFillAggressor index oid q).get k = index.get k := by
  unfold indexFillAggressor
  cases hg : index.get oid
  · rfl
  · exact Index.get_insert_ne _ _ _ _ h

theorem indexFillComplete_get_ne (index : Index) (oid k : Nat) (h : k ≠ oid) :
    (indexFillComplete index oid).get k = index.get k := by
  unfold indexFillComplete
  cases hg : index.get oid
  · rfl
  · exact Index.get_insert_ne _ _ _ _ h

theorem indexFillAggressor_get_self (index : Index) (oid q : Nat) (st : Order)
    (h : index.get oid = some st) :
    (indexFillAggressor index oid q).get oid = some (st.fillPartial q) := by
  unfold indexFillAggressor
  rw [h]
  exact Index.get_insert_self _ _ _

theorem mem_ladderIds_of_mem (lad : Ladder) (p : Nat) (lvl : List Order) (o : Order)
    (hm : (p, lvl) ∈ lad) (ho : o ∈ lvl) : o.id ∈ ladderIds lad := by
  unfold ladderIds
  exact List.mem_flatten.2 ⟨lvl.map Order.id, List.mem_map_of_mem _ hm,
    List.mem_map_of_mem _ ho⟩

theorem Order.fillPartial_status_pos (o : Order) (q : Nat)
    (h : 0 < o.remaining_quantity - q) :
    (o.fillPartial q).status = OrderStatus.PartiallyFilled := by
  unfold Order.fillPartial
  simp only []
  rw [if_pos h]

theorem Order.fillPartial_override (o : Order) (q r' : Nat) (s' : OrderStatus) :
    ({ o.fillPartial q with remaining_quantity := r', status := s' } : Order) =
      { o with remaining_quantity := r', status := s' } := rfl

/-!
### State invariant through the matching loop
-/

/-- The matching loop preserves the per-order ladder invariant and the
timestamp ordering of the opposite view, only ever removes ids from the
view, and leaves every index binding other than the aggressor's and the
view's own orders' untouched. -/
theorem matchLoop_stateInv (cp : Bool) (side : OrderSide) :
    ∀ (fuel : Nat) (order : Order) (L : List (Nat × List Order)) (index : Index)
      (tid : Nat),
      order.id ∉ ladderIds L →
      (ladderIds L).Nodup →
      ladderOrdersOk L side index →
      ladderTsSorted L →
      ladderOrdersOk (matchLoop cp fuel order L index tid).levels side
          (matchLoop cp fuel order L index tid).index ∧
        ladderTsSorted (matchLoop cp fuel order L index tid).levels ∧
        List.Sublist (ladderIds (matchLoop cp fuel order L index tid).levels) (ladderIds L) ∧
        ∀ k, k ≠ order.id → k ∉ ladderIds L →
          (matchLoop cp fuel order L index tid).index.get k = index.get k := by
  intro fuel
  induction fuel with
  | zero =>
    intro order L index tid _ _ hOk hTs
    exact ⟨hOk, hTs, List.Sublist.refl _, fun _ _ _ => rfl⟩
  | succ fuel ih =>
    intro order L index tid hfresh hnd hOk hTs
    rw [matchLoop_succ]
    by_cases h0 : order.remaining_quantity = 0
    · rw [matchStep_done _ _ _ _ _ _ h0]
      exact ⟨hOk, hTs, List.Sublist.refl _, fun _ _ _ => rfl⟩
    · match L with
      | [] =>
        rw [matchStep_nil _ _ _ _ _ h0]
        exact ⟨hOk, hTs, List.Sublist.refl _, fun _ _ _ => rfl⟩
      | (price, lvl) :: rest =>
        by_cases hc : crossesPrice cp order.side order.price price = true
        · match lvl with
          | [] =>
            rw [matchStep_emptyLvl _ _ _ _ _ _ _ h0 hc]
            have hids : ladderIds ((price, ([] : List Order)) :: rest) = ladderIds rest := by
              simp [ladderIds_cons]
            rw [hids] at hfresh hnd
            have hOk' : ladderOrdersOk rest side index := by
              intro p lv hm o ho
              exact hOk p lv (List.mem_cons_of_mem _ hm) o ho
            have hTs' : ladderTsSorted rest := by
              intro p lv hm
              exact hTs p lv (List.mem_cons_of_mem _ hm)
            obtain ⟨a, b, c, d⟩ := ih order rest index tid hfresh hnd hOk' hTs'
            refine ⟨a, b, ?_, ?_⟩
            · rw [hids]
              exact c
            · intro k hk1 hk2
              rw [hids] at hk2
              exact d k hk1 hk2
          | resting :: lvlRest =>
            set q := min order.remaining_quantity resting.remaining_quantity with hq
            obtain ⟨hprice, hside, hpos, hstat, o', ho', hlag⟩ :=
              hOk price (resting :: lvlRest) (List.mem_cons_self _ _) resting
                (List.mem_cons_self _ _)
            have hids : ladderIds ((price, resting :: lvlRest) :: rest) =
                resting.id :: (lvlRest.map Order.id ++ ladderIds rest) := by
              simp [ladderIds_cons]
            have hRestingMem : resting.id ∈ ladderIds ((price, resting :: lvlRest) :: rest) := by
              rw [hids]
              exact List.mem_cons_self _ _
            have hOrderNeResting : order.id ≠ resting.id := fun he =>
              hfresh (he ▸ hRestingMem)
            have hTailIdsSub : List.Sublist (lvlRest.map Order.id ++ ladderIds rest)
                (ladderIds ((price, resting :: lvlRest) :: rest)) := by
              rw [hids]
              exact List.sublist_cons_self _ _
            have hTailNd : (lvlRest.map Order.id ++ ladderIds rest).Nodup := by
              rw [hids] at hnd
              exact hnd.of_cons
            have hRestingNotTail : resting.id ∉ lvlRest.map Order.id ++ ladderIds rest := by
              rw [hids] at hnd
              exact (List.nodup_cons.1 hnd).1
            have hfresh' : order.id ∉ lvlRest.map Order.id ++ ladderIds rest := fun hmem =>
              hfresh (hTailIdsSub.mem hmem)
            -- links of all view orders other than the aggressor survive
            -- the aggressor's own index update
            have hOkAgg : ladderOrdersOk ((price, resting :: lvlRest) :: rest) side
                (indexFillAggressor index order.id q) := by
              intro p lv hm o ho
              obtain ⟨h1, h2, h3, h4, w, hw, hlagw⟩ := hOk p lv hm o ho
              refine ⟨h1, h2, h3, h4, w, ?_, hlagw⟩
              rw [indexFillAggressor_get_ne index order.id q o.id ?_]
              · exact hw
              · intro he
                apply hfresh
                rw [← he]
                rw [hids]
                rcases List.mem_cons.1 hm with hm' | hm'
                · cases hm'
                  rcases List.mem_cons.1 ho with rfl | ho'
                  · exact List.mem_cons_self _ _
                  · exact List.mem_cons_of_mem _
                      (List.mem_append_left _ (List.mem_map_of_mem Order.id ho'))
                · refine List.mem_cons_of_mem _ (List.mem_append_right _ ?_)
                  have : o.id ∈ ladderIds rest := by
                    unfold ladderIds
                    exact List.mem_flatten.2 ⟨lv.map Order.id,
                      List.mem_map_of_mem _ hm', List.mem_map_of_mem Order.id ho⟩
                  exact this
            by_cases hf : (resting.fillPartial q).is_filled = true
            · rw [matchStep_fill_filled _ _ _ _ _ _ _ _ _ h0 hc hf]
              have hOk' : ladderOrdersOk ((price, lvlRest) :: rest) side
                  (indexFillComplete (indexFillAggressor index order.id q) resting.id) := by
                intro p lv hm o ho
                have hoPre : ∃ lv₀, (p, lv₀) ∈ (price, resting :: lvlRest) :: rest ∧
                    o ∈ lv₀ ∧ o.id ∈ lvlRest.map Order.id ++ ladderIds rest := by
                  rcases List.mem_cons.1 hm with hm' | hm'
                  · cases hm'
                    exact ⟨resting :: lvlRest, List.mem_cons_self _ _,
                      List.mem_cons_of_mem _ ho,
                      List.mem_append_left _ (List.mem_map_of_mem Order.id ho)⟩
                  · refine ⟨lv, List.mem_cons_of_mem _ hm', ho,
                      List.mem_append_right _ ?_⟩
                    exact mem_ladderIds_of_mem rest p lv o hm' ho
                obtain ⟨lv₀, hm₀, ho₀, hoid⟩ := hoPre
                obtain ⟨h1, h2, h3, h4, w, hw, hlagw⟩ := hOkAgg p lv₀ hm₀ o ho₀
                refine ⟨h1, h2, h3, h4, w, ?_, hlagw⟩
                rw [indexFillComplete_get_ne _ _ _
                  (fun he => hRestingNotTail (by rw [← he]; exact hoid))]
                exact hw
              have hTs' : ladderTsSorted ((price, lvlRest) :: rest) := by
                intro p lv hm
                rcases List.mem_cons.1 hm with hm' | hm'
                · cases hm'
                  exact (hTs price (resting :: lvlRest) (List.mem_cons_self _ _)).tail
                · exact hTs p lv (List.mem_cons_of_mem _ hm')
              have hids' : ladderIds ((price, lvlRest) :: rest) =
                  lvlRest.map Order.id ++ ladderIds rest := by
                simp [ladderIds_cons]
              obtain ⟨a, b, c, d⟩ := ih (order.fillPartial q) ((price, lvlRest) :: rest)
                (indexFillComplete (indexFillAggressor index order.id q) resting.id) (tid + 1)
                (by rw [Order.fillPartial_id, hids']; exact hfresh')
                (by rw [hids']; exact hTailNd) hOk' hTs'
              refine ⟨a, b, ?_, ?_⟩
              · refine c.trans ?_
                rw [hids']
                exact hTailIdsSub
              · intro k hk1 hk2
                have hk2' : k ∉ ladderIds ((price, lvlRest) :: rest) := by
                  rw [hids']
                  intro hm
                  exact hk2 (hTailIdsSub.mem hm)
                rw [d k (by simpa using hk1) hk2']
                rw [indexFillComplete_get_ne _ _ _
                  (fun he => hk2 (by rw [he]; exact hRestingMem))]
                exact indexFillAggressor_get_ne _ _ _ _ hk1
            · rw [matchStep_fill_open _ _ _ _ _ _ _ _ _ h0 hc hf]
              have hposRem : 0 < (resting.fillPartial q).remaining_quantity := by
                have : ¬ (resting.fillPartial q).remaining_quantity = 0 := by
                  intro hz
                  have hz' : resting.remaining_quantity - q = 0 := by simpa using hz
                  exact hf (by simp [Order.is_filled, hz'])
                omega
              have hids' : ladderIds ((price, resting.fillPartial q :: lvlRest) :: rest) =
                  ladderIds ((price, resting :: lvlRest) :: rest) := by
                simp [ladderIds_cons]
              have hOk' : ladderOrdersOk ((price, resting.fillPartial q :: lvlRest) :: rest)
                  side (indexFillAggressor index order.id q) := by
                intro p lv hm o ho
                rcases List.mem_cons.1 hm with hm' | hm'
                · cases hm'
                  rcases List.mem_cons.1 ho with rfl | ho'
                  · obtain ⟨h1, h2, h3, h4, w, hw, hlagw⟩ := hOkAgg price
                      (resting :: lvlRest) (List.mem_cons_self _ _) resting
                      (List.mem_cons_self _ _)
                    refine ⟨by rw [Order.fillPartial_price, h1],
                      by rw [Order.fillPartial_side, h2], hposRem, ?_, w, ?_, ?_⟩
                    · right
                      exact Order.fillPartial_status_pos resting q
                        (by rw [Order.fillPartial_remaining] at hposRem; exact hposRem)
                    · rw [Order.fillPartial_id]
                      exact hw
                    · obtain ⟨hcore, hle, hst⟩ := hlagw
                      refine ⟨?_, ?_, hst⟩
                      · rw [Order.fillPartial_override]
                        exact hcore
                      · calc (resting.fillPartial q).remaining_quantity
                            ≤ resting.remaining_quantity := by
                              rw [Order.fillPartial_remaining]; omega
                          _ ≤ w.remaining_quantity := hle
                  · exact hOkAgg price (resting :: lvlRest) (List.mem_cons_self _ _) o
                      (List.mem_cons_of_mem _ ho')
                · exact hOkAgg p lv (List.mem_cons_of_mem _ hm') o ho
              have hTs' : ladderTsSorted ((price, resting.fillPartial q :: lvlRest) :: rest) := by
                intro p lv hm
                rcases List.mem_cons.1 hm with hm' | hm'
                · cases hm'
                  have hch := hTs price (resting :: lvlRest) (List.mem_cons_self _ _)
                  cases lvlRest with
                  | nil => simp
                  | cons bb ll =>
                    rw [List.chain'_cons] at hch ⊢
                    exact ⟨by rw [Order.fillPartial_timestamp]; exact hch.1, hch.2⟩
                · exact hTs p lv (List.mem_cons_of_mem _ hm')
              obtain ⟨a, b, c, d⟩ := ih (order.fillPartial q)
                ((price, resting.fillPartial q :: lvlRest) :: rest)
                (indexFillAggressor index order.id q) (tid + 1)
                (by rw [Order.fillPartial_id, hids']; exact hfresh)
                (by rw [hids']; exact hnd) hOk' hTs'
              rw [hids'] at c
              refine ⟨a, b, c, ?_⟩
              intro k hk1 hk2
              rw [d k (by simpa using hk1) (by rw [hids']; exact hk2)]
              exact indexFillAggressor_get_ne _ _ _ _ hk1
        · rw [matchStep_nocross _ _ _ _ _ _ _ _ h0 (by simpa using hc)]
          exact ⟨hOk, hTs, List.Sublist.refl _, fun _ _ _ => rfl⟩

/-!
### Lockstep of the aggressor's index copy, and the fill assertions
-/

theorem Order.fillPartial_status_cases (o : Order) (q : Nat) :
    (o.fillPartial q).status = OrderStatus.PartiallyFilled ∨
      (o.fillPartial q).status = OrderStatus.Filled := by
  unfold Order.fillPartial
  simp only []
  split
  · exact Or.inl rfl
  · exact Or.inr rfl

theorem Order.fillPartial_filled_rem (o : Order) (q : Nat)
    (h : (o.fillPartial q).status = OrderStatus.Filled) :
    (o.fillPartial q).remaining_quantity = 0 := by
  unfold Order.fillPartial at h ⊢
  simp only [] at h ⊢
  split at h
  · exact absurd h (by simp)
  · omega

/-- As long as no resting order in the view shares the aggressor's id,
the aggressor's `orders_by_id` copy stays in lockstep with the loop's
local order, every `fill_partial` assertion of the loop holds, and the
copy's status only moves from its initial value to `PartiallyFilled` or
`Filled` (the latter only at zero remaining quantity). -/
theorem matchLoop_lockstep (cp : Bool) :
    ∀ (fuel : Nat) (order : Order) (L : List (Nat × List Order)) (index : Index)
      (tid : Nat) (st : Order),
      order.id ∉ ladderIds L →
      index.get order.id = some st →
      st.remaining_quantity = order.remaining_quantity →
      (st.status = OrderStatus.Filled → st.remaining_quantity = 0) →
      (matchLoop cp fuel order L index tid).assertsOk = true ∧
        ∃ st', (matchLoop cp fuel order L index tid).index.get order.id = some st' ∧
          st'.remaining_quantity =
            (matchLoop cp fuel order L index tid).order.remaining_quantity ∧
          (st'.status = OrderStatus.Filled → st'.remaining_quantity = 0) ∧
          (st'.status = st.status ∨ st'.status = OrderStatus.PartiallyFilled ∨
            st'.status = OrderStatus.Filled) ∧
          st' = { st with remaining_quantity := st'.remaining_quantity,
                          status := st'.status } := by
  intro fuel
  induction fuel with
  | zero =>
    intro order L index tid st _ hget hrel hstat0
    exact ⟨rfl, st, hget, hrel, hstat0, Or.inl rfl, rfl⟩
  | succ fuel ih =>
    intro order L index tid st hfresh hget hrel hstat0
    rw [matchLoop_succ]
    by_cases h0 : order.remaining_quantity = 0
    · rw [matchStep_done _ _ _ _ _ _ h0]
      exact ⟨rfl, st, hget, hrel, hstat0, Or.inl rfl, rfl⟩
    · match L with
      | [] =>
        rw [matchStep_nil _ _ _ _ _ h0]
        exact ⟨rfl, st, hget, hrel, hstat0, Or.inl rfl, rfl⟩
      | (price, lvl) :: rest =>
        by_cases hc : crossesPrice cp order.side order.price price = true
        · match lvl with
          | [] =>
            rw [matchStep_emptyLvl _ _ _ _ _ _ _ h0 hc]
            refine ih order rest index tid st ?_ hget hrel hstat0
            intro hm
            exact hfresh (by rw [ladderIds_cons]; exact List.mem_append_right _ hm)
          | resting :: lvlRest =>
            set q := min order.remaining_quantity resting.remaining_quantity with hq
            have hRestingMem : resting.id ∈ ladderIds ((price, resting :: lvlRest) :: rest) :=
              mem_ladderIds_of_mem _ price (resting :: lvlRest) resting
                (List.mem_cons_self _ _) (List.mem_cons_self _ _)
            have hOrderNeResting : order.id ≠ resting.id := fun he =>
              hfresh (by rw [he]; exact hRestingMem)
            have hA : stepAssert index order resting q = true := by
              unfold stepAssert
              rw [hget]
              simp only [Bool.and_eq_true, decide_eq_true_eq]
              exact ⟨⟨Nat.min_le_left _ _, by rw [hrel]; exact Nat.min_le_left _ _⟩,
                Nat.min_le_right _ _⟩
            have hget' : (indexFillAggressor index order.id q).get order.id =
                some (st.fillPartial q) :=
              indexFillAggressor_get_self index order.id q st hget
            have hrel' : (st.fillPartial q).remaining_quantity =
                (order.fillPartial q).remaining_quantity := by
              rw [Order.fillPartial_remaining, Order.fillPartial_remaining, hrel]
            by_cases hf : (resting.fillPartial q).is_filled = true
            · rw [matchStep_fill_filled _ _ _ _ _ _ _ _ _ h0 hc hf]
              have hgetC : (indexFillComplete (indexFillAggressor index order.id q)
                  resting.id).get order.id = some (st.fillPartial q) := by
                rw [indexFillComplete_get_ne _ _ _ hOrderNeResting]
                exact hget'
              obtain ⟨ha, st', hb, hcr, hfr, hds, hfe⟩ := ih (order.fillPartial q)
                ((price, lvlRest) :: rest)
                (indexFillComplete (indexFillAggressor index order.id q) resting.id) (tid + 1)
                (st.fillPartial q)
                (by
                  rw [Order.fillPartial_id]
                  intro hm
                  apply hfresh
                  rw [ladderIds_cons] at hm ⊢
                  simp only [List.map_cons]
                  rcases List.mem_append.1 hm with hm' | hm'
                  · exact List.mem_cons_of_mem _ (List.mem_append_left _ hm')
                  · exact List.mem_cons_of_mem _ (List.mem_append_right _ hm'))
                hgetC hrel' (Order.fillPartial_filled_rem st q)
              refine ⟨by simp [ha, hA], st', hb, hcr, hfr, ?_,
                hfe.trans (Order.fillPartial_override st q _ _)⟩
              rcases hds with hd | hd | hd
              · rcases Order.fillPartial_status_cases st q with hs | hs
                · exact Or.inr (Or.inl (hd.trans hs))
                · exact Or.inr (Or.inr (hd.trans hs))
              · exact Or.inr (Or.inl hd)
              · exact Or.inr (Or.inr hd)
            · rw [matchStep_fill_open _ _ _ _ _ _ _ _ _ h0 hc hf]
              obtain ⟨ha, st', hb, hcr, hfr, hds, hfe⟩ := ih (order.fillPartial q)
                ((price, resting.fillPartial q :: lvlRest) :: rest)
                (indexFillAggressor index order.id q) (tid + 1) (st.fillPartial q)
                (by
                  rw [Order.fillPartial_id]
                  intro hm
                  apply hfresh
                  rw [ladderIds_cons] at hm ⊢
                  simp only [List.map_cons, Order.fillPartial_id] at hm
                  simpa [List.map_cons] using hm)
                hget' hrel' (Order.fillPartial_filled_rem st q)
              refine ⟨by simp [ha, hA], st', hb, hcr, hfr, ?_,
                hfe.trans (Order.fillPartial_override st q _ _)⟩
              rcases hds with hd | hd | hd
              · rcases Order.fillPartial_status_cases st q with hs | hs
                · exact Or.inr (Or.inl (hd.trans hs))
                · exact Or.inr (Or.inr (hd.trans hs))
              · exact Or.inr (Or.inl hd)
              · exact Or.inr (Or.inr hd)
        · rw [matchStep_nocross _ _ _ _ _ _ _ _ h0 (by simpa using hc)]
          exact ⟨rfl, st, hget, hrel, hstat0, Or.inl rfl, rfl⟩

/-!
### `WellKeyed` preservation
-/

theorem Order.fill_complete_id (o : Order) : o.fill_complete.id = o.id := rfl

theorem wellKeyed_insert (m : Index) (k : Nat) (v : Order)
    (hm : WellKeyed m) (hv : v.id = k) : WellKeyed (m.insert k v) := by
  intro k' v' h
  by_cases he : k' = k
  · subst he
    rw [Index.get_insert_self] at h
    cases h
    exact hv
  · rw [Index.get_insert_ne _ _ _ _ he] at h
    exact hm _ _ h

theorem wellKeyed_erase (m : Index) (k : Nat) (hm : WellKeyed m) :
    WellKeyed (m.erase k) := by
  intro k' v h
  by_cases he : k' = k
  · subst he
    rw [Index.get_erase_self] at h
    cases h
  · rw [Index.get_erase_ne _ _ _ he] at h
    exact hm _ _ h

theorem wellKeyed_indexFillAggressor (index : Index) (oid q : Nat)
    (hm : WellKeyed index) : WellKeyed (indexFillAggressor index oid q) := by
  unfold indexFillAggressor
  cases hg : index.get oid with
  | some st =>
    exact wellKeyed_insert _ _ _ hm (by rw [Order.fillPartial_id]; exact hm _ _ hg)
  | none => exact hm

theorem wellKeyed_indexFillComplete (index : Index) (oid : Nat)
    (hm : WellKeyed index) : WellKeyed (indexFillComplete index oid) := by
  unfold indexFillComplete
  cases hg : index.get oid with
  | some st =>
    exact wellKeyed_insert _ _ _ hm (by rw [Order.fill_complete_id]; exact hm _ _ hg)
  | none => exact hm

theorem matchLoop_wellKeyed (cp : Bool) :
    ∀ (fuel : Nat) (order : Order) (L : List (Nat × List Order)) (index : Index) (tid : Nat),
      WellKeyed index →
      WellKeyed (matchLoop cp fuel order L index tid).index := by
  intro fuel
  induction fuel with
  | zero =>
    intro order L index tid h
    exact h
  | succ fuel ih =>
    intro order L index tid h
    rw [matchLoop_succ]
    by_cases h0 : order.remaining_quantity = 0
    · rw [matchStep_done _ _ _ _ _ _ h0]
      exact h
    · match L with
      | [] =>
        rw [matchStep_nil _ _ _ _ _ h0]
        exact h
      | (price, lvl) :: rest =>
        by_cases hc : crossesPrice cp order.side order.price price = true
        · match lvl with
          | [] =>
            rw [matchStep_emptyLvl _ _ _ _ _ _ _ h0 hc]
            exact ih _ _ _ _ h
          | resting :: lvlRest =>
            by_cases hf : (resting.fillPartial
                (min order.remaining_quantity resting.remaining_quantity)).is_filled = true
            · rw [matchStep_fill_filled _ _ _ _ _ _ _ _ _ h0 hc hf]
              simp only []
              exact ih _ _ _ _
                (wellKeyed_indexFillComplete _ _ (wellKeyed_indexFillAggressor _ _ _ h))
            · rw [matchStep_fill_open _ _ _ _ _ _ _ _ _ h0 hc hf]
              simp only []
              exact ih _ _ _ _ (wellKeyed_indexFillAggressor _ _ _ h)
        · rw [matchStep_nocross _ _ _ _ _ _ _ _ h0 (by simpa using hc)]
          exact h

/-!
### Stable insertion sort by timestamp
-/

theorem insertTsAfterEq_perm (o : Order) (l : List Order) :
    List.Perm (insertTsAfterEq o l) (o :: l) := by
  induction l with
  | nil => exact List.Perm.refl _
  | cons x xs ih =>
    rw [insertTsAfterEq]
    by_cases h : x.timestamp ≤ o.timestamp
    · rw [if_pos h]
      exact (List.Perm.cons x ih).trans (List.Perm.swap o x xs)
    · rw [if_neg h]

theorem sortByTs_perm (l : List Order) : List.Perm (sortByTs l) l := by
  suffices h : ∀ acc, List.Perm
      (l.foldl (fun acc o => insertTsAfterEq o acc) acc) (acc ++ l) by
    simpa using h []
  induction l with
  | nil =>
    intro acc
    simp
  | cons x xs ih =>
    intro acc
    rw [List.foldl_cons]
    refine (ih (insertTsAfterEq x acc)).trans ?_
    refine (List.Perm.append_right xs (insertTsAfterEq_perm x acc)).trans ?_
    exact List.perm_middle.symm

theorem insertTsAfterEq_head (o : Order) (l : List Order) :
    (insertTsAfterEq o l).head? = some o ∨ (insertTsAfterEq o l).head? = l.head? := by
  cases l with
  | nil => exact Or.inl rfl
  | cons y ys =>
    rw [insertTsAfterEq]
    by_cases h : y.timestamp ≤ o.timestamp
    · rw [if_pos h]
      exact Or.inr rfl
    · rw [if_neg h]
      exact Or.inl rfl

theorem insertTsAfterEq_sorted (o : Order) (l : List Order)
    (h : List.Chain' (fun a b => a.timestamp ≤ b.timestamp) l) :
    List.Chain' (fun a b => a.timestamp ≤ b.timestamp) (insertTsAfterEq o l) := by
  induction l with
  | nil => simp [insertTsAfterEq]
  | cons x xs ih =>
    rw [insertTsAfterEq]
    obtain ⟨hhead, htail⟩ := List.chain'_cons'.1 h
    by_cases hx : x.timestamp ≤ o.timestamp
    · rw [if_pos hx]
      refine List.chain'_cons'.2 ⟨?_, ih htail⟩
      intro b hb
      rcases insertTsAfterEq_head o xs with hh | hh
      · rw [hh] at hb
        cases hb
        exact hx
      · rw [hh] at hb
        exact hhead b hb
    · rw [if_neg hx]
      refine List.chain'_cons'.2 ⟨?_, h⟩
      intro b hb
      cases hb
      omega

theorem sortByTs_sorted (l : List Order) :
    List.Chain' (fun a b => a.timestamp ≤ b.timestamp) (sortByTs l) := by
  suffices h : ∀ acc, List.Chain' (fun a b => a.timestamp ≤ b.timestamp) acc →
      List.Chain' (fun a b => a.timestamp ≤ b.timestamp)
        (l.foldl (fun acc o => insertTsAfterEq o acc) acc) by
    exact h [] (by simp)
  induction l with
  | nil =>
    intro acc hacc
    simpa using hacc
  | cons x xs ih =>
    intro acc hacc
    rw [List.foldl_cons]
    exact ih _ (insertTsAfterEq_sorted x acc hacc)

/-!
### Ladder operations: membership, keys, ids
-/

theorem Ladder.getLevel_mem (lad : Ladder) (p : Nat) (lvl : List Order)
    (h : lad.getLevel p = some lvl) : (p, lvl) ∈ lad := by
  induction lad with
  | nil => cases h
  | cons e rest ih =>
    rw [Ladder.getLevel] at h
    by_cases he : e.1 = p
    · rw [if_pos he] at h
      cases h
      have hpe : (p, e.2) = e := by rw [← he]
      rw [hpe]
      exact List.mem_cons_self _ _
    · rw [if_neg he] at h
      exact List.mem_cons_of_mem _ (ih h)

theorem Ladder.getLevel_none_notMem (lad : Ladder) (p : Nat)
    (h : lad.getLevel p = none) : p ∉ lad.map Prod.fst := by
  induction lad with
  | nil => simp
  | cons e rest ih =>
    rw [Ladder.getLevel] at h
    by_cases he : e.1 = p
    · rw [if_pos he] at h
      cases h
    · rw [if_neg he] at h
      simp only [List.map_cons, List.mem_cons]
      rintro (rfl | hm)
      · exact he rfl
      · exact ih h hm

theorem Ladder.setLevel_keys (lad : Ladder) (p : Nat) (v : List Order) :
    (lad.setLevel p v).map Prod.fst = lad.map Prod.fst := by
  induction lad with
  | nil => rfl
  | cons e rest ih =>
    rw [Ladder.setLevel]
    by_cases he : e.1 = p
    · rw [if_pos he]
      simp [he]
    · rw [if_neg he]
      simp [ih]

theorem Ladder.setLevel_mem (lad : Ladder) (p : Nat) (v : List Order) (e : Nat × List Order)
    (h : e ∈ lad.setLevel p v) : e ∈ lad ∨ e = (p, v) := by
  induction lad with
  | nil => cases h
  | cons x rest ih =>
    rw [Ladder.setLevel] at h
    by_cases hx : x.1 = p
    · rw [if_pos hx] at h
      rcases List.mem_cons.1 h with rfl | h'
      · exact Or.inr rfl
      · exact Or.inl (List.mem_cons_of_mem _ h')
    · rw [if_neg hx] at h
      rcases List.mem_cons.1 h with rfl | h'
      · exact Or.inl (List.mem_cons_self _ _)
      · rcases ih h' with h'' | h''
        · exact Or.inl (List.mem_cons_of_mem _ h'')
        · exact Or.inr h''

theorem Ladder.insertLevel_mem (lad : Ladder) (p : Nat) (v : List Order)
    (e : Nat × List Order) (h : e ∈ lad.insertLevel p v) : e ∈ lad ∨ e = (p, v) := by
  induction lad with
  | nil =>
    rw [Ladder.insertLevel] at h
    rcases List.mem_cons.1 h with rfl | h'
    · exact Or.inr rfl
    · cases h'
  | cons x rest ih =>
    rw [Ladder.insertLevel] at h
    by_cases h1 : p < x.1
    · rw [if_pos h1] at h
      rcases List.mem_cons.1 h with rfl | h'
      · exact Or.inr rfl
      · exact Or.inl h'
    · rw [if_neg h1] at h
      by_cases h2 : p = x.1
      · rw [if_pos h2] at h
        rcases List.mem_cons.1 h with rfl | h'
        · exact Or.inr rfl
        · exact Or.inl (List.mem_cons_of_mem _ h')
      · rw [if_neg h2] at h
        rcases List.mem_cons.1 h with rfl | h'
        · exact Or.inl (List.mem_cons_self _ _)
        · rcases ih h' with h'' | h''
          · exact Or.inl (List.mem_cons_of_mem _ h'')
          · exact Or.inr h''

theorem Ladder.insertLevel_keys_nodup (lad : Ladder) (p : Nat) (v : List Order)
    (hnd : (lad.map Prod.fst).Nodup) (hp : p ∉ lad.map Prod.fst) :
    ((lad.insertLevel p v).map Prod.fst).Nodup := by
  induction lad with
  | nil => simp [Ladder.insertLevel]
  | cons x rest ih =>
    rw [Ladder.insertLevel]
    simp only [List.map_cons, List.nodup_cons, List.mem_cons] at hnd hp
    push_neg at hp
    by_cases h1 : p < x.1
    · rw [if_pos h1]
      simp only [List.map_cons, List.nodup_cons, List.mem_cons]
      refine ⟨?_, hnd.1, hnd.2⟩
      rintro (rfl | hm)
      · exact hp.1 rfl
      · exact hp.2 hm
    · rw [if_neg h1]
      by_cases h2 : p = x.1
      · exact absurd h2 hp.1
      · rw [if_neg h2]
        simp only [List.map_cons, List.nodup_cons]
        refine ⟨?_, ih hnd.2 hp.2⟩
        intro hm
        have : x.1 ∈ rest.map Prod.fst ∨ x.1 = p := by
          rcases List.mem_map.1 hm with ⟨e, he, heq⟩
          rcases Ladder.insertLevel_mem rest p v e he with h' | h'
          · exact Or.inl (heq ▸ List.mem_map_of_mem _ h')
          · subst h'
            exact Or.inr heq.symm
        rcases this with h' | h'
        · exact hnd.1 h'
        · exact hp.1 h'.symm

theorem ladderIds_setLevel_perm (lad : Ladder) (p : Nat) (lvl v : List Order)
    (hg : lad.getLevel p = some lvl) :
    List.Perm (ladderIds (lad.setLevel p v) ++ lvl.map Order.id)
      (ladderIds lad ++ v.map Order.id) := by
  induction lad with
  | nil => cases hg
  | cons e rest ih =>
    obtain ⟨k, w⟩ := e
    rw [Ladder.getLevel] at hg
    rw [Ladder.setLevel]
    by_cases hk : (k, w).1 = p
    · rw [if_pos hk] at hg ⊢
      cases hg
      rw [ladderIds_cons, ladderIds_cons]
      refine List.perm_iff_count.2 ?_
      intro a
      simp only [List.count_append]
      omega
    · rw [if_neg hk] at hg ⊢
      have hcount := fun a => (ih hg).count_eq a
      refine List.perm_iff_count.2 ?_
      intro a
      have h1 := hcount a
      simp only [List.count_append, ladderIds_cons] at h1 ⊢
      omega

theorem ladderIds_insertLevel_perm (lad : Ladder) (p : Nat) (v : List Order)
    (hp : p ∉ lad.map Prod.fst) :
    List.Perm (ladderIds (lad.insertLevel p v)) (v.map Order.id ++ ladderIds lad) := by
  induction lad with
  | nil =>
    rw [Ladder.insertLevel]
    simp [ladderIds_cons, ladderIds]
  | cons e rest ih =>
    obtain ⟨k, w⟩ := e
    simp only [List.map_cons, List.mem_cons] at hp
    push_neg at hp
    rw [Ladder.insertLevel]
    by_cases h1 : p < (k, w).1
    · rw [if_pos h1]
      exact List.Perm.refl _
    · rw [if_neg h1]
      by_cases h2 : p = (k, w).1
      · exact absurd h2 hp.1
      · rw [if_neg h2]
        have hcount := fun a => (ih hp.2).count_eq a
        refine List.perm_iff_count.2 ?_
        intro a
        have h3 := hcount a
        simp only [List.count_append, ladderIds_cons] at h3 ⊢
        omega

theorem eraseFirstById_sublist (oid : Nat) (lvl lvl' : List Order)
    (h : eraseFirstById oid lvl = some lvl') : List.Sublist lvl' lvl := by
  induction lvl generalizing lvl' with
  | nil => cases h
  | cons o rest ih =>
    rw [eraseFirstById] at h
    by_cases ho : o.id = oid
    · rw [if_pos ho] at h
      cases h
      exact List.sublist_cons_self _ _
    · rw [if_neg ho] at h
      cases hrec : eraseFirstById oid rest with
      | none =>
        rw [hrec] at h
        cases h
      | some r' =>
        rw [hrec] at h
        cases h
        exact List.Sublist.cons₂ _ (ih r' hrec)

theorem eraseFirstById_ids_perm (oid : Nat) (lvl lvl' : List Order)
    (h : eraseFirstById oid lvl = some lvl') :
    List.Perm (lvl.map Order.id) (oid :: lvl'.map Order.id) := by
  induction lvl generalizing lvl' with
  | nil => cases h
  | cons o rest ih =>
    rw [eraseFirstById] at h
    by_cases ho : o.id = oid
    · rw [if_pos ho] at h
      cases h
      rw [List.map_cons, ho]
    · rw [if_neg ho] at h
      cases hrec : eraseFirstById oid rest with
      | none =>
        rw [hrec] at h
        cases h
      | some r' =>
        rw [hrec] at h
        cases h
        rw [List.map_cons, List.map_cons]
        exact (List.Perm.cons o.id (ih r' hrec)).trans (List.Perm.swap oid o.id _)

theorem ladderIds_eraseKey_perm (lad : Ladder) (p : Nat) (lvl : List Order)
    (hg : lad.getLevel p = some lvl) (hnd : (lad.map Prod.fst).Nodup) :
    List.Perm (ladderIds lad) (lvl.map Order.id ++ ladderIds (lad.eraseKey p)) := by
  induction lad with
  | nil => cases hg
  | cons e rest ih =>
    obtain ⟨k, w⟩ := e
    simp only [List.map_cons, List.nodup_cons] at hnd
    rw [Ladder.getLevel] at hg
    rw [Ladder.eraseKey]
    by_cases hk : (k, w).1 = p
    · rw [if_pos hk] at hg ⊢
      cases hg
      have herase : Ladder.eraseKey rest p = rest := by
        clear ih
        induction rest with
        | nil => rfl
        | cons e2 r2 ih2 =>
          simp only [List.map_cons, List.mem_cons] at hnd
          rw [Ladder.eraseKey]
          rw [if_neg (by
            intro he2
            exact hnd.1 (Or.inl (by rw [he2, ← hk]))), ih2 ⟨fun hm =>
              hnd.1 (Or.inr hm), hnd.2.of_cons⟩]
      rw [herase, ladderIds_cons]
    · rw [if_neg hk] at hg ⊢
      have := ih hg hnd.2
      rw [ladderIds_cons, ladderIds_cons]
      refine List.perm_iff_count.2 ?_
      intro a
      have h1 := this.count_eq a
      simp only [List.count_append] at h1 ⊢
      omega

/-!
### Reverse views and counting tools
-/

theorem ladderOrdersOk_reverse (lad : Ladder) (side : OrderSide) (index : Index)
    (h : ladderOrdersOk lad side index) : ladderOrdersOk lad.reverse side index := by
  intro p lvl hm o ho
  exact h p lvl (List.mem_reverse.1 hm) o ho

theorem ladderOrdersOk_of_reverse (lad : Ladder) (side : OrderSide) (index : Index)
    (h : ladderOrdersOk lad.reverse side index) : ladderOrdersOk lad side index := by
  intro p lvl hm o ho
  exact h p lvl (List.mem_reverse.2 hm) o ho

theorem ladderTsSorted_reverse (lad : Ladder) (h : ladderTsSorted lad) :
    ladderTsSorted lad.reverse := by
  intro p lvl hm
  exact h p lvl (List.mem_reverse.1 hm)

theorem ladderTsSorted_of_reverse (lad : Ladder) (h : ladderTsSorted lad.reverse) :
    ladderTsSorted lad := by
  intro p lvl hm
  exact h p lvl (List.mem_reverse.2 hm)

theorem flatten_reverse_perm (l : List (List Nat)) :
    List.Perm l.reverse.flatten l.flatten := by
  induction l with
  | nil => rfl
  | cons x xs ih =>
    simp only [List.reverse_cons, List.flatten_append, List.flatten_cons]
    refine List.Perm.trans List.perm_append_comm ?_
    simp only [List.flatten_cons, List.flatten_nil, List.append_nil]
    exact List.Perm.append_left x ih

theorem ladderIds_reverse_perm (lad : Ladder) :
    List.Perm (ladderIds lad.reverse) (ladderIds lad) := by
  unfold ladderIds
  rw [List.map_reverse]
  exact flatten_reverse_perm (lad.map (fun e => e.2.map Order.id))

theorem nodup_append_of_count_le (l₁' l₂' l₁ l₂ : List Nat)
    (h1 : ∀ a, l₁'.count a ≤ l₁.count a) (h2 : ∀ a, l₂'.count a ≤ l₂.count a)
    (hnd : (l₁ ++ l₂).Nodup) : (l₁' ++ l₂').Nodup := by
  rw [List.nodup_iff_count_le_one] at hnd ⊢
  intro a
  have h3 := hnd a
  have h4 := h1 a
  have h5 := h2 a
  simp only [List.count_append] at h3 ⊢
  omega

theorem viewReduced_keys_sublist (L L' : List (Nat × List Order))
    (h : viewReduced L L') : List.Sublist (L'.map Prod.fst) (L.map Prod.fst) := by
  obtain ⟨k, h⟩ := h
  rcases h with ⟨_, rfl⟩ | ⟨p, lvl, rest, lvl', ha, _, rfl⟩
  · simp
  · have h2 : ((p, lvl') :: rest).map Prod.fst = (List.drop k L).map Prod.fst := by
      rw [ha]
      simp
    rw [h2, List.map_drop]
    exact List.drop_sublist _ _

theorem exists_of_mem_ladderIds (lad : Ladder) (k : Nat) (h : k ∈ ladderIds lad) :
    ∃ p lvl o, (p, lvl) ∈ lad ∧ o ∈ lvl ∧ o.id = k := by
  unfold ladderIds at h
  obtain ⟨s, hs, hks⟩ := List.mem_flatten.1 h
  obtain ⟨e, he, rfl⟩ := List.mem_map.1 hs
  obtain ⟨o, ho, rfl⟩ := List.mem_map.1 hks
  exact ⟨e.1, e.2, o, he, ho, rfl⟩

theorem notMem_ladderIds_of_get_none (lad : Ladder) (side : OrderSide) (index : Index)
    (hOk : ladderOrdersOk lad side index) (k : Nat) (hget : index.get k = none) :
    k ∉ ladderIds lad := by
  intro hm
  obtain ⟨p, lvl, o, hmem, ho, rfl⟩ := exists_of_mem_ladderIds lad k hm
  obtain ⟨_, _, _, _, w, hw, _⟩ := hOk p lvl hmem o ho
  rw [hget] at hw
  cases hw

theorem ladderOrdersOk_insert_ne (lad : Ladder) (side : OrderSide) (index : Index)
    (oid : Nat) (v : Order) (h : ladderOrdersOk lad side index)
    (hfresh : oid ∉ ladderIds lad) :
    ladderOrdersOk lad side (index.insert oid v) := by
  intro p lvl hm o ho
  obtain ⟨h1, h2, h3, h4, w, hw, hlag⟩ := h p lvl hm o ho
  refine ⟨h1, h2, h3, h4, w, ?_, hlag⟩
  rw [Index.get_insert_ne _ _ _ _
    (fun he => hfresh (by rw [← he]; exact mem_ladderIds_of_mem lad p lvl o hm ho))]
  exact hw

theorem ladderOrdersOk_erase_ne (lad : Ladder) (side : OrderSide) (index : Index)
    (oid : Nat) (h : ladderOrdersOk lad side index) (hfresh : oid ∉ ladderIds lad) :
    ladderOrdersOk lad side (index.erase oid) := by
  intro p lvl hm o ho
  obtain ⟨h1, h2, h3, h4, w, hw, hlag⟩ := h p lvl hm o ho
  refine ⟨h1, h2, h3, h4, w, ?_, hlag⟩
  rw [Index.get_erase_ne _ _ _
    (fun he => hfresh (by rw [← he]; exact mem_ladderIds_of_mem lad p lvl o hm ho))]
  exact hw

/-- CoreWF after a buy-side matching loop run against the asks. -/
theorem coreWF_after_loop_buy (cp : Bool) (fuel : Nat) (order : Order)
    (bids asks : Ladder) (index : Index) (tid : Nat)
    (hCore : CoreWF bids asks index)
    (hfb : order.id ∉ ladderIds bids) (hfa : order.id ∉ ladderIds asks) :
    CoreWF bids (matchLoop cp fuel order asks index tid).levels
      (matchLoop cp fuel order asks index tid).index := by
  obtain ⟨hbk, hak, hbo, hao, hbt, hat, hnd⟩ := hCore
  have hnd3 := List.nodup_append.1 hnd
  obtain ⟨hOk', hTs', hsub, hpres⟩ := matchLoop_stateInv cp OrderSide.Sell fuel order asks
    index tid hfa hnd3.2.1 hao hat
  have hred := matchLoop_viewReduced cp fuel order asks index tid
  refine ⟨hbk, ?_, ?_, hOk', hbt, hTs', ?_⟩
  · exact List.Nodup.sublist (viewReduced_keys_sublist _ _ hred) hak
  · intro p lvl hm o ho
    obtain ⟨h1, h2, h3, h4, w, hw, hlag⟩ := hbo p lvl hm o ho
    refine ⟨h1, h2, h3, h4, w, ?_, hlag⟩
    rw [hpres o.id
      (fun he => hfb (by rw [← he]; exact mem_ladderIds_of_mem bids p lvl o hm ho))
      (fun hmem => hnd3.2.2 (mem_ladderIds_of_mem bids p lvl o hm ho) hmem)]
    exact hw
  · exact nodup_append_of_count_le _ _ _ _ (fun a => Nat.le_refl _)
      (fun a => List.Sublist.count_le hsub a) hnd

/-- CoreWF after a sell-side matching loop run against the (reversed)
bids. -/
theorem coreWF_after_loop_sell (cp : Bool) (fuel : Nat) (order : Order)
    (bids asks : Ladder) (index : Index) (tid : Nat)
    (hCore : CoreWF bids asks index)
    (hfb : order.id ∉ ladderIds bids) (hfa : order.id ∉ ladderIds asks) :
    CoreWF (matchLoop cp fuel order bids.reverse index tid).levels.reverse asks
      (matchLoop cp fuel order bids.reverse index tid).index := by
  obtain ⟨hbk, hak, hbo, hao, hbt, hat, hnd⟩ := hCore
  have hnd3 := List.nodup_append.1 hnd
  have hrevperm := ladderIds_reverse_perm bids
  have hfbr : order.id ∉ ladderIds bids.reverse := fun hm => hfb (hrevperm.mem_iff.1 hm)
  have hndr : (ladderIds bids.reverse).Nodup := (hrevperm.nodup_iff).2 hnd3.1
  obtain ⟨hOk', hTs', hsub, hpres⟩ := matchLoop_stateInv cp OrderSide.Buy fuel order
    bids.reverse index tid hfbr hndr (ladderOrdersOk_reverse _ _ _ hbo)
    (ladderTsSorted_reverse _ hbt)
  have hred := matchLoop_viewReduced cp fuel order bids.reverse index tid
  set r := matchLoop cp fuel order bids.reverse index tid with hr
  have hridsperm := ladderIds_reverse_perm r.levels
  refine ⟨?_, hak, ladderOrdersOk_reverse _ _ _ hOk', ?_, ladderTsSorted_reverse _ hTs', hat, ?_⟩
  · rw [List.map_reverse]
    rw [List.nodup_reverse]
    refine List.Nodup.sublist (viewReduced_keys_sublist _ _ hred) ?_
    rw [List.map_reverse, List.nodup_reverse]
    exact hbk
  · intro p lvl hm o ho
    obtain ⟨h1, h2, h3, h4, w, hw, hlag⟩ := hao p lvl hm o ho
    refine ⟨h1, h2, h3, h4, w, ?_, hlag⟩
    rw [hpres o.id
      (fun he => hfa (by rw [← he]; exact mem_ladderIds_of_mem asks p lvl o hm ho))
      (fun hmem => hnd3.2.2 (hrevperm.mem_iff.1 hmem)
        (mem_ladderIds_of_mem asks p lvl o hm ho))]
    exact hw
  · refine nodup_append_of_count_le _ _ _ _ ?_ (fun a => Nat.le_refl _) hnd
    intro a
    calc (ladderIds r.levels.reverse).count a
        = (ladderIds r.levels).count a := hridsperm.count_eq a
      _ ≤ (ladderIds bids.reverse).count a := List.Sublist.count_le hsub a
      _ = (ladderIds bids).count a := hrevperm.count_eq a

/-!
### Insertion of a resting order (`add_to_book`)
-/

theorem addOrder_facts (lad : Ladder) (side : OrderSide) (index : Index) (o : Order)
    (hk : (lad.map Prod.fst).Nodup)
    (hOk : ladderOrdersOk lad side index)
    (hTs : ladderTsSorted lad)
    (hside : o.side = side)
    (hpos : 0 < o.remaining_quantity)
    (hstat : o.status = OrderStatus.New ∨ o.status = OrderStatus.PartiallyFilled)
    (hlink : ∃ o', index.get o.id = some o' ∧ laggedCopy o o') :
    ((lad.addOrder o).map Prod.fst).Nodup ∧
      ladderOrdersOk (lad.addOrder o) side index ∧
      ladderTsSorted (lad.addOrder o) ∧
      List.Perm (ladderIds (lad.addOrder o)) (o.id :: ladderIds lad) := by
  unfold Ladder.addOrder
  cases hg : lad.getLevel o.price with
  | some lvl =>
    have hmemlvl : (o.price, lvl) ∈ lad := Ladder.getLevel_mem lad o.price lvl hg
    have hsortmem : ∀ x ∈ sortByTs (lvl ++ [o]), x ∈ lvl ∨ x = o := by
      intro x hx
      have := (sortByTs_perm (lvl ++ [o])).mem_iff.1 hx
      rcases List.mem_append.1 this with h' | h'
      · exact Or.inl h'
      · exact Or.inr (by simpa using h')
    refine ⟨?_, ?_, ?_, ?_⟩
    · rw [Ladder.setLevel_keys]
      exact hk
    · intro p lvl' hm x hx
      rcases Ladder.setLevel_mem lad o.price _ _ hm with hm' | hm'
      · exact hOk p lvl' hm' x hx
      · cases hm'
        rcases hsortmem x hx with hx' | rfl
        · exact hOk o.price lvl hmemlvl x hx'
        · exact ⟨rfl, hside, hpos, hstat, hlink⟩
    · intro p lvl' hm
      rcases Ladder.setLevel_mem lad o.price _ _ hm with hm' | hm'
      · exact hTs p lvl' hm'
      · cases hm'
        exact sortByTs_sorted _
    · have h1 := ladderIds_setLevel_perm lad o.price lvl (sortByTs (lvl ++ [o])) hg
      have h2 : List.Perm ((sortByTs (lvl ++ [o])).map Order.id)
          (lvl.map Order.id ++ [o.id]) := by
        have := (sortByTs_perm (lvl ++ [o])).map Order.id
        simpa using this
      refine List.perm_iff_count.2 ?_
      intro a
      have c1 := h1.count_eq a
      have c2 := h2.count_eq a
      simp only [List.count_append, List.count_cons, List.count_nil] at c1 c2 ⊢
      by_cases ha : a = o.id
      · have hx1 : (a == o.id) = true := by simpa using ha
        have hx2 : (o.id == a) = true := by simpa using ha.symm
        simp only [hx1, hx2, if_true] at c2 ⊢
        omega
      · have hx1 : (a == o.id) = false := by simpa using ha
        have hx2 : (o.id == a) = false := by simpa using fun e => ha e.symm
        simp only [hx1, hx2, if_false] at c2 ⊢
        omega
  | none =>
    have hsort : sortByTs [o] = [o] := rfl
    rw [hsort]
    have hp : o.price ∉ lad.map Prod.fst := Ladder.getLevel_none_notMem lad o.price hg
    refine ⟨Ladder.insertLevel_keys_nodup lad o.price [o] hk hp, ?_, ?_, ?_⟩
    · intro p lvl' hm x hx
      rcases Ladder.insertLevel_mem lad o.price [o] _ hm with hm' | hm'
      · exact hOk p lvl' hm' x hx
      · cases hm'
        rcases List.mem_cons.1 hx with rfl | hx'
        · exact ⟨rfl, hside, hpos, hstat, hlink⟩
        · cases hx'
    · intro p lvl' hm
      rcases Ladder.insertLevel_mem lad o.price [o] _ hm with hm' | hm'
      · exact hTs p lvl' hm'
      · cases hm'
        simp
    · have h1 := ladderIds_insertLevel_perm lad o.price [o] hp
      simpa using h1

/-!
### Removal of a ladder entry (`remove_order`)
-/

theorem Order.cancel_side (o : Order) : o.cancel.side = o.side := by
  unfold Order.cancel
  split <;> rfl

theorem Order.cancel_price (o : Order) : o.cancel.price = o.price := by
  unfold Order.cancel
  split <;> rfl

theorem Order.cancel_id (o : Order) : o.cancel.id = o.id := by
  unfold Order.cancel
  split <;> rfl

theorem eraseFirstById_none (oid : Nat) (lvl : List Order)
    (h : eraseFirstById oid lvl = none) : ∀ x ∈ lvl, x.id ≠ oid := by
  induction lvl with
  | nil => intro x hx; cases hx
  | cons o rest ih =>
    rw [eraseFirstById] at h
    by_cases ho : o.id = oid
    · rw [if_pos ho] at h
      cases h
    · rw [if_neg ho] at h
      intro x hx
      rcases List.mem_cons.1 hx with rfl | hx'
      · exact ho
      · cases hrec : eraseFirstById oid rest with
        | none => exact ih hrec x hx'
        | some r' =>
          rw [hrec] at h
          cases h

theorem Ladder.eraseKey_sublist (lad : Ladder) (p : Nat) :
    List.Sublist (lad.eraseKey p) lad := by
  induction lad with
  | nil => exact List.Sublist.refl _
  | cons e rest ih =>
    rw [Ladder.eraseKey]
    by_cases he : e.1 = p
    · rw [if_pos he]
      exact ih.cons _
    · rw [if_neg he]
      exact ih.cons₂ _

theorem Ladder.getLevel_eq_of_mem (lad : Ladder) (p : Nat) (lvl : List Order)
    (hnd : (lad.map Prod.fst).Nodup) (hm : (p, lvl) ∈ lad) :
    lad.getLevel p = some lvl := by
  induction lad with
  | nil => cases hm
  | cons e rest ih =>
    simp only [List.map_cons, List.nodup_cons] at hnd
    rw [Ladder.getLevel]
    rcases List.mem_cons.1 hm with rfl | hm'
    · rw [if_pos rfl]
    · by_cases he : e.1 = p
      · exfalso
        apply hnd.1
        rw [he]
        exact List.mem_map_of_mem Prod.fst hm'
      · rw [if_neg he]
        exact ih hnd.2 hm'

/-- When the ladder removal fails, no entry with the given id rests at
the given price. -/
theorem removeOrderEntry_none (lad : Ladder) (p oid : Nat)
    (hnd : (lad.map Prod.fst).Nodup)
    (h : lad.removeOrderEntry p oid = none) :
    ∀ lvl, (p, lvl) ∈ lad → ∀ x ∈ lvl, x.id ≠ oid := by
  intro lvl hm x hx
  have hg : lad.getLevel p = some lvl := Ladder.getLevel_eq_of_mem lad p lvl hnd hm
  unfold Ladder.removeOrderEntry at h
  rw [hg] at h
  have h2 : (match eraseFirstById oid lvl with
    | none => none
    | some lvl' =>
      some (if lvl' = [] then lad.eraseKey p else lad.setLevel p lvl')) =
      (none : Option Ladder) := h
  cases he : eraseFirstById oid lvl with
  | none => exact eraseFirstById_none oid lvl he x hx
  | some lvl' =>
    rw [he] at h2
    cases h2

/-- When the ladder removal succeeds, the result keeps nodup keys,
consists of orders that already rested (in levels with the same key),
stays timestamp-sorted, and its ids are the old ids minus one
occurrence of `oid`. -/
theorem removeOrderEntry_some_facts (lad : Ladder) (p oid : Nat) (lad' : Ladder)
    (hnd : (lad.map Prod.fst).Nodup)
    (hTs : ladderTsSorted lad)
    (h : lad.removeOrderEntry p oid = some lad') :
    ((lad'.map Prod.fst).Nodup) ∧
      (∀ p' lvl', (p', lvl') ∈ lad' → ∀ x ∈ lvl', ∃ lvl₀, (p', lvl₀) ∈ lad ∧ x ∈ lvl₀) ∧
      ladderTsSorted lad' ∧
      List.Perm (ladderIds lad) (oid :: ladderIds lad') := by
  unfold Ladder.removeOrderEntry at h
  cases hg : lad.getLevel p with
  | none =>
    rw [hg] at h
    cases h
  | some lvl =>
    rw [hg] at h
    have h2 : (match eraseFirstById oid lvl with
      | none => none
      | some lvl' =>
        some (if lvl' = [] then lad.eraseKey p else lad.setLevel p lvl')) =
        some lad' := h
    clear h
    cases he : eraseFirstById oid lvl with
    | none =>
      rw [he] at h2
      cases h2
    | some lvl' =>
      rw [he] at h2
      cases h2
      have hmemlvl : (p, lvl) ∈ lad := Ladder.getLevel_mem lad p lvl hg
      have hperm1 := ladderIds_eraseKey_perm lad p lvl hg hnd
      have hperm2 := eraseFirstById_ids_perm oid lvl lvl' he
      have hsubl := eraseFirstById_sublist oid lvl lvl' he
      haveI : IsTrans Order (fun a b => a.timestamp ≤ b.timestamp) :=
        ⟨fun _ _ _ hab hbc => Nat.le_trans hab hbc⟩
      by_cases hempty : lvl' = []
      · rw [if_pos hempty]
        refine ⟨List.Nodup.sublist (List.Sublist.map _ (Ladder.eraseKey_sublist lad p)) hnd,
          ?_, ?_, ?_⟩
        · intro p' l' hm' x hx
          exact ⟨l', (Ladder.eraseKey_sublist lad p).subset hm', hx⟩
        · intro p' l' hm'
          exact hTs p' l' ((Ladder.eraseKey_sublist lad p).subset hm')
        · refine hperm1.trans ?_
          rw [hempty] at hperm2
          refine List.perm_iff_count.2 ?_
          intro a
          have c2 := hperm2.count_eq a
          simp only [List.map_nil, List.count_append, List.count_cons, List.count_nil]
            at c2 ⊢
          omega
      · rw [if_neg hempty]
        refine ⟨?_, ?_, ?_, ?_⟩
        · rw [Ladder.setLevel_keys]
          exact hnd
        · intro p' l' hm' x hx
          rcases Ladder.setLevel_mem lad p _ _ hm' with hm'' | hm''
          · exact ⟨l', hm'', hx⟩
          · cases hm''
            exact ⟨lvl, hmemlvl, hsubl.subset hx⟩
        · intro p' l' hm'
          rcases Ladder.setLevel_mem lad p _ _ hm' with hm'' | hm''
          · exact hTs p' l' hm''
          · cases hm''
            exact List.Chain'.sublist (hTs p lvl hmemlvl) hsubl
        · have hperm3 := ladderIds_setLevel_perm lad p lvl lvl' hg
          refine List.perm_iff_count.2 ?_
          intro a
          have c2 := hperm2.count_eq a
          have c3 := hperm3.count_eq a
          simp only [List.count_append, List.count_cons, List.count_nil] at c2 c3 ⊢
          omega

theorem coreWF_insert_fresh (b : OrderBook) (k : Nat) (v : Order)
    (hCore : CoreWF b.bids b.asks b.orders_by_id)
    (hfresh : b.orders_by_id.get k = none) :
    CoreWF b.bids b.asks (b.orders_by_id.insert k v) := by
  obtain ⟨hbk, hak, hbo, hao, hbt, hat, hnd⟩ := hCore
  exact ⟨hbk, hak,
    ladderOrdersOk_insert_ne _ _ _ _ _ hbo
      (notMem_ladderIds_of_get_none _ _ _ hbo k hfresh),
    ladderOrdersOk_insert_ne _ _ _ _ _ hao
      (notMem_ladderIds_of_get_none _ _ _ hao k hfresh),
    hbt, hat, hnd⟩

/-- Inserting a replacement copy for an existing binding and then
running `remove_order` on its id preserves the ladder/index
well-formedness, provided the replacement keeps the original's side and
price (as `Order::cancel` does). -/
theorem insertRemove_coreWF (b : OrderBook) (oid : Nat) (ro v : Order)
    (hget : b.orders_by_id.get oid = some ro)
    (hside : v.side = ro.side) (hprice : v.price = ro.price)
    (hCore : CoreWF b.bids b.asks b.orders_by_id) :
    CoreWF
      (({ b with orders_by_id := b.orders_by_id.insert oid v }.remove_order oid).2.bids)
      (({ b with orders_by_id := b.orders_by_id.insert oid v }.remove_order oid).2.asks)
      (({ b with orders_by_id := b.orders_by_id.insert oid v
        }.remove_order oid).2.orders_by_id) := by
  obtain ⟨hbk, hak, hbo, hao, hbt, hat, hnd⟩ := hCore
  have hnd3 := List.nodup_append.1 hnd
  have hidx3 : (b.orders_by_id.insert oid v).erase oid = b.orders_by_id.erase oid :=
    Index.erase_insert _ _ _
  -- a ladder entry with id `oid` pins down its side and price through
  -- the original link to `ro`
  have hpin : ∀ lad side, ladderOrdersOk lad side b.orders_by_id →
      ∀ p lvl x, (p, lvl) ∈ lad → x ∈ lvl → x.id = oid →
        side = ro.side ∧ p = ro.price := by
    intro lad side hOk p lvl x hm hx hxid
    obtain ⟨h1, h2, _, _, w, hw, hlag⟩ := hOk p lvl hm x hx
    rw [hxid, hget] at hw
    cases hw
    obtain ⟨hcore, _, _⟩ := hlag
    constructor
    · rw [← h2, hcore]
    · rw [← h1, hcore]
  unfold OrderBook.remove_order
  rw [Index.get_insert_self]
  simp only []
  rw [hside]
  cases hs : ro.side with
  | Buy =>
    cases hrem : Ladder.removeOrderEntry
        ({ b with orders_by_id := b.orders_by_id.insert oid v }).bids v.price oid with
    | none =>
      simp only []
      have hnotbid : oid ∉ ladderIds b.bids := by
        intro hmem
        obtain ⟨p, lvl, x, hm, hx, hxid⟩ := exists_of_mem_ladderIds _ _ hmem
        have hpv : p = v.price := by
          rw [hprice]
          exact (hpin b.bids OrderSide.Buy hbo p lvl x hm hx hxid).2
        exact removeOrderEntry_none b.bids v.price oid hbk hrem lvl (hpv ▸ hm) x hx hxid
      have hnotask : oid ∉ ladderIds b.asks := by
        intro hmem
        obtain ⟨p, lvl, x, hm, hx, hxid⟩ := exists_of_mem_ladderIds _ _ hmem
        have := (hpin b.asks OrderSide.Sell hao p lvl x hm hx hxid).1
        rw [hs] at this
        cases this
      rw [hidx3]
      exact ⟨hbk, hak,
        ladderOrdersOk_erase_ne _ _ _ _ hbo hnotbid,
        ladderOrdersOk_erase_ne _ _ _ _ hao hnotask,
        hbt, hat, hnd⟩
    | some bids' =>
      simp only []
      obtain ⟨hk', hmemtr, hts', hperm⟩ :=
        removeOrderEntry_some_facts b.bids v.price oid bids' hbk hbt hrem
      have hnodupbids' : oid ∉ ladderIds bids' := by
        have : (oid :: ladderIds bids').Nodup := (hperm.nodup_iff).1 hnd3.1
        exact (List.nodup_cons.1 this).1
      have hoidmem : oid ∈ ladderIds b.bids := hperm.mem_iff.2 (List.mem_cons_self _ _)
      have hnotask : oid ∉ ladderIds b.asks := fun hmem => hnd3.2.2 hoidmem hmem
      rw [hidx3]
      refine ⟨hk', hak, ?_, ladderOrdersOk_erase_ne _ _ _ _ hao hnotask, hts', hat, ?_⟩
      · intro p lvl hm x hx
        obtain ⟨lvl₀, hm₀, hx₀⟩ := hmemtr p lvl hm x hx
        obtain ⟨h1, h2, h3, h4, w, hw, hlag⟩ := hbo p lvl₀ hm₀ x hx₀
        refine ⟨h1, h2, h3, h4, w, ?_, hlag⟩
        rw [Index.get_erase_ne _ _ _ (fun he => hnodupbids'
          (by rw [← he]; exact mem_ladderIds_of_mem bids' p lvl x hm hx))]
        exact hw
      · refine nodup_append_of_count_le _ _ _ _ ?_ (fun a => Nat.le_refl _) hnd
        intro a
        have := hperm.count_eq a
        simp only [List.count_cons] at this
        omega
  | Sell =>
    cases hrem : Ladder.removeOrderEntry
        ({ b with orders_by_id := b.orders_by_id.insert oid v }).asks v.price oid with
    | none =>
      simp only []
      have hnotask : oid ∉ ladderIds b.asks := by
        intro hmem
        obtain ⟨p, lvl, x, hm, hx, hxid⟩ := exists_of_mem_ladderIds _ _ hmem
        have hpv : p = v.price := by
          rw [hprice]
          exact (hpin b.asks OrderSide.Sell hao p lvl x hm hx hxid).2
        exact removeOrderEntry_none b.asks v.price oid hak hrem lvl (hpv ▸ hm) x hx hxid
      have hnotbid : oid ∉ ladderIds b.bids := by
        intro hmem
        obtain ⟨p, lvl, x, hm, hx, hxid⟩ := exists_of_mem_ladderIds _ _ hmem
        have := (hpin b.bids OrderSide.Buy hbo p lvl x hm hx hxid).1
        rw [hs] at this
        cases this
      rw [hidx3]
      exact ⟨hbk, hak,
        ladderOrdersOk_erase_ne _ _ _ _ hbo hnotbid,
        ladderOrdersOk_erase_ne _ _ _ _ hao hnotask,
        hbt, hat, hnd⟩
    | some asks' =>
      simp only []
      obtain ⟨hk', hmemtr, hts', hperm⟩ :=
        removeOrderEntry_some_facts b.asks v.price oid asks' hak hat hrem
      have hnodupasks' : oid ∉ ladderIds asks' := by
        have : (oid :: ladderIds asks').Nodup := (hperm.nodup_iff).1 hnd3.2.1
        exact (List.nodup_cons.1 this).1
      have hoidmem : oid ∈ ladderIds b.asks := hperm.mem_iff.2 (List.mem_cons_self _ _)
      have hnotbid : oid ∉ ladderIds b.bids := fun hmem => hnd3.2.2 hmem hoidmem
      rw [hidx3]
      refine ⟨hbk, hk', ladderOrdersOk_erase_ne _ _ _ _ hbo hnotbid, ?_, hbt, hts', ?_⟩
      · intro p lvl hm x hx
        obtain ⟨lvl₀, hm₀, hx₀⟩ := hmemtr p lvl hm x hx
        obtain ⟨h1, h2, h3, h4, w, hw, hlag⟩ := hao p lvl₀ hm₀ x hx₀
        refine ⟨h1, h2, h3, h4, w, ?_, hlag⟩
        rw [Index.get_erase_ne _ _ _ (fun he => hnodupasks'
          (by rw [← he]; exact mem_ladderIds_of_mem asks' p lvl x hm hx))]
        exact hw
      · refine nodup_append_of_count_le _ _ _ _ (fun a => Nat.le_refl _) ?_ hnd
        intro a
        have := hperm.count_eq a
        simp only [List.count_cons] at this
        omega

/-!
### Origin of the trades emitted by the matching loop (towards C2)
-/

/-- Every trade emitted by the matching loop picks its price from a
level key of the pre-state view and carries, as its passive-side id, the
id of an order resting in that very level of the pre-state. -/
theorem matchLoop_trades_origin (cp : Bool) :
    ∀ (fuel : Nat) (order : Order) (levels : List (Nat × List Order)) (index : Index)
      (tid : Nat), ∀ t ∈ (matchLoop cp fuel order levels index tid).trades,
      ∃ p lvl o, (p, lvl) ∈ levels ∧ o ∈ lvl ∧ t.price = p ∧
        passiveOrderId order.side t = o.id := by
  intro fuel
  induction fuel with
  | zero =>
    intro order levels index tid t ht
    simp [matchLoop] at ht
  | succ fuel ih =>
    intro order levels index tid t ht
    rw [matchLoop_succ] at ht
    by_cases h0 : order.remaining_quantity = 0
    · rw [matchStep_done _ _ _ _ _ _ h0] at ht
      simp at ht
    · match levels with
      | [] =>
        rw [matchStep_nil _ _ _ _ _ h0] at ht
        simp at ht
      | (price, lvl) :: rest =>
        by_cases hc : crossesPrice cp order.side order.price price = true
        · match lvl with
          | [] =>
            rw [matchStep_emptyLvl _ _ _ _ _ _ _ h0 hc] at ht
            obtain ⟨p, lvl', o, hmem, homem, hp, hid⟩ := ih order rest index tid t ht
            exact ⟨p, lvl', o, List.mem_cons_of_mem _ hmem, homem, hp, hid⟩
          | resting :: lvlRest =>
            set q := min order.remaining_quantity resting.remaining_quantity with hq
            by_cases hf : (resting.fillPartial q).is_filled = true
            · rw [matchStep_fill_filled _ _ _ _ _ _ _ _ _ h0 hc hf] at ht
              simp only [List.mem_cons] at ht
              rcases ht with rfl | ht
              · refine ⟨price, resting :: lvlRest, resting, List.mem_cons_self _ _,
                  List.mem_cons_self _ _, mkTrade_price _ _ _ _ _, ?_⟩
                unfold passiveOrderId
                exact mkTrade_passive _ _ _ _ _
              · obtain ⟨p, lvl', o, hmem, homem, hp, hid⟩ :=
                  ih (order.fillPartial q) ((price, lvlRest) :: rest) _ _ t ht
                simp only [List.mem_cons] at hmem
                rcases hmem with heq | hmem
                · cases heq
                  exact ⟨price, resting :: lvlRest, o, List.mem_cons_self _ _,
                    List.mem_cons_of_mem _ homem, hp,
                    by simpa [passiveOrderId, Order.fillPartial_side] using hid⟩
                · exact ⟨p, lvl', o, List.mem_cons_of_mem _ hmem, homem, hp,
                    by simpa [passiveOrderId, Order.fillPartial_side] using hid⟩
            · rw [matchStep_fill_open _ _ _ _ _ _ _ _ _ h0 hc hf] at ht
              simp only [List.mem_cons] at ht
              rcases ht with rfl | ht
              · refine ⟨price, resting :: lvlRest, resting, List.mem_cons_self _ _,
                  List.mem_cons_self _ _, mkTrade_price _ _ _ _ _, ?_⟩
                unfold passiveOrderId
                exact mkTrade_passive _ _ _ _ _
              · obtain ⟨p, lvl', o, hmem, homem, hp, hid⟩ :=
                  ih (order.fillPartial q) ((price, resting.fillPartial q :: lvlRest) :: rest)
                    _ _ t ht
                simp only [List.mem_cons] at hmem
                rcases hmem with heq | hmem
                · cases heq
                  simp only [List.mem_cons] at homem
                  rcases homem with rfl | homem
                  · exact ⟨price, resting :: lvlRest, resting, List.mem_cons_self _ _,
                      List.mem_cons_self _ _, hp,
                      by simpa [passiveOrderId, Order.fillPartial_side,
                        Order.fillPartial_id] using hid⟩
                  · exact ⟨price, resting :: lvlRest, o, List.mem_cons_self _ _,
                      List.mem_cons_of_mem _ homem, hp,
                      by simpa [passiveOrderId, Order.fillPartial_side] using hid⟩
                · exact ⟨p, lvl', o, List.mem_cons_of_mem _ hmem, homem, hp,
                    by simpa [passiveOrderId, Order.fillPartial_side] using hid⟩
        · rw [matchStep_nocross _ _ _ _ _ _ _ _ h0 (by simpa using hc)] at ht
          simp at ht

/-!
### Book-level invariant preservation
-/

theorem OrderBook.remove_order_none (b : OrderBook) (oid : Nat)
    (h : b.orders_by_id.get oid = none) : b.remove_order oid = (false, b) := by
  unfold OrderBook.remove_order
  rw [h]

/-- `remove_order` on a bound id erases the binding and leaves symbol,
stats and matcher untouched. -/
theorem OrderBook.remove_order_proj (b : OrderBook) (oid : Nat) (o : Order)
    (h : b.orders_by_id.get oid = some o) :
    (b.remove_order oid).2.orders_by_id = b.orders_by_id.erase oid ∧
      (b.remove_order oid).2.symbol = b.symbol ∧
      (b.remove_order oid).2.stats = b.stats ∧
      (b.remove_order oid).2.matcher = b.matcher := by
  unfold OrderBook.remove_order
  rw [h]
  simp only []
  split <;> (split <;> exact ⟨rfl, rfl, rfl, rfl⟩)

/-- Applying a `match_market_order` run preserves the book invariant for
an aggressor whose id does not rest in the ladders. -/
theorem applyEngine_market_inv (b : OrderBook) (order : Order)
    (hCore : CoreWF b.bids b.asks b.orders_by_id)
    (hWK : WellKeyed b.orders_by_id)
    (hfb : order.id ∉ ladderIds b.bids) (hfa : order.id ∉ ladderIds b.asks) :
    BookInv (b.applyEngine (b.matcher.match_market_order order b.bids b.asks
      b.orders_by_id)) := by
  cases hside : order.side
  · rw [Matcher.match_market_order_buy _ _ _ _ _ hside]
    exact ⟨coreWF_after_loop_buy false _ order b.bids b.asks _ _ hCore hfb hfa,
      matchLoop_wellKeyed false _ order b.asks _ _ hWK⟩
  · rw [Matcher.match_market_order_sell _ _ _ _ _ hside]
    exact ⟨coreWF_after_loop_sell false _ order b.bids b.asks _ _ hCore hfb hfa,
      matchLoop_wellKeyed false _ order b.bids.reverse _ _ hWK⟩

/-- `add_to_book` preserves the invariant for a fresh-id order with
positive remaining quantity, open status and a lagged index copy. -/
theorem add_to_book_inv (b : OrderBook) (o : Order)
    (hCore : CoreWF b.bids b.asks b.orders_by_id)
    (hWK : WellKeyed b.orders_by_id)
    (hfb : o.id ∉ ladderIds b.bids) (hfa : o.id ∉ ladderIds b.asks)
    (hpos : 0 < o.remaining_quantity)
    (hstat : o.status = OrderStatus.New ∨ o.status = OrderStatus.PartiallyFilled)
    (hlink : ∃ o', b.orders_by_id.get o.id = some o' ∧ laggedCopy o o') :
    BookInv (b.add_to_book o) := by
  obtain ⟨hbk, hak, hbo, hao, hbt, hat, hnd⟩ := hCore
  unfold OrderBook.add_to_book
  cases hside : o.side
  · obtain ⟨h1, h2, h3, h4⟩ :=
      addOrder_facts b.bids OrderSide.Buy b.orders_by_id o hbk hbo hbt hside hpos hstat hlink
    refine ⟨⟨h1, hak, h2, hao, h3, hat, ?_⟩, hWK⟩
    have hperm : List.Perm (ladderIds (b.bids.addOrder o) ++ ladderIds b.asks)
        (o.id :: (ladderIds b.bids ++ ladderIds b.asks)) :=
      List.Perm.append_right (ladderIds b.asks) h4
    refine (List.Perm.nodup_iff hperm).2 (List.nodup_cons.2 ⟨?_, hnd⟩)
    intro hmem
    rcases List.mem_append.1 hmem with hm | hm
    · exact hfb hm
    · exact hfa hm
  · obtain ⟨h1, h2, h3, h4⟩ :=
      addOrder_facts b.asks OrderSide.Sell b.orders_by_id o hak hao hat hside hpos hstat hlink
    refine ⟨⟨hbk, h1, hbo, h2, hbt, h3, ?_⟩, hWK⟩
    have hperm : List.Perm (ladderIds b.bids ++ ladderIds (b.asks.addOrder o))
        (o.id :: (ladderIds b.bids ++ ladderIds b.asks)) := by
      refine (List.Perm.append_left (ladderIds b.bids) h4).trans ?_
      exact List.perm_middle
    refine (List.Perm.nodup_iff hperm).2 (List.nodup_cons.2 ⟨?_, hnd⟩)
    intro hmem
    rcases List.mem_append.1 hmem with hm | hm
    · exact hfb hm
    · exact hfa hm

/-- Invariants, freshness, assertions and aggressor lockstep after a
buy-side loop run, packaged for the engine wrappers. -/
theorem loopPack_buy (cp : Bool) (fuel tid : Nat) (b : OrderBook) (order st : Order)
    (hCore : CoreWF b.bids b.asks b.orders_by_id)
    (hWK : WellKeyed b.orders_by_id)
    (hfb : order.id ∉ ladderIds b.bids) (hfa : order.id ∉ ladderIds b.asks)
    (hget : b.orders_by_id.get order.id = some st)
    (hrel : st.remaining_quantity = order.remaining_quantity)
    (hstat : st.status = OrderStatus.New) :
    CoreWF b.bids (matchLoop cp fuel order b.asks b.orders_by_id tid).levels
        (matchLoop cp fuel order b.asks b.orders_by_id tid).index ∧
      WellKeyed (matchLoop cp fuel order b.asks b.orders_by_id tid).index ∧
      order.id ∉ ladderIds b.bids ∧
      order.id ∉ ladderIds (matchLoop cp fuel order b.asks b.orders_by_id tid).levels ∧
      (matchLoop cp fuel order b.asks b.orders_by_id tid).assertsOk = true ∧
      ∃ st', (matchLoop cp fuel order b.asks b.orders_by_id tid).index.get order.id =
          some st' ∧
        st'.remaining_quantity =
          (matchLoop cp fuel order b.asks b.orders_by_id tid).order.remaining_quantity ∧
        (st'.status = OrderStatus.Filled → st'.remaining_quantity = 0) ∧
        (st'.status = OrderStatus.New ∨ st'.status = OrderStatus.PartiallyFilled ∨
          st'.status = OrderStatus.Filled) ∧
        st' = { st with remaining_quantity := st'.remaining_quantity,
                        status := st'.status } := by
  have hcw := coreWF_after_loop_buy cp fuel order b.bids b.asks b.orders_by_id tid hCore
    hfb hfa
  have hwk := matchLoop_wellKeyed cp fuel order b.asks b.orders_by_id tid hWK
  have hnd3 := List.nodup_append.1 hCore.idsNodup
  obtain ⟨_, _, hsub, _⟩ := matchLoop_stateInv cp OrderSide.Sell fuel order b.asks
    b.orders_by_id tid hfa hnd3.2.1 hCore.asksOk hCore.asksTs
  obtain ⟨hass, st', h1, h2, h3, h4, h5⟩ := matchLoop_lockstep cp fuel order b.asks
    b.orders_by_id tid st hfa hget hrel
    (by rw [hstat]; intro hx; exact absurd hx (by decide))
  refine ⟨hcw, hwk, hfb, fun hm => hfa (hsub.subset hm), hass, st', h1, h2, h3, ?_, h5⟩
  rcases h4 with h | h | h
  · exact Or.inl (h.trans hstat)
  · exact Or.inr (Or.inl h)
  · exact Or.inr (Or.inr h)

/-- Invariants, freshness, assertions and aggressor lockstep after a
sell-side loop run against the reversed bids. -/
theorem loopPack_sell (cp : Bool) (fuel tid : Nat) (b : OrderBook) (order st : Order)
    (hCore : CoreWF b.bids b.asks b.orders_by_id)
    (hWK : WellKeyed b.orders_by_id)
    (hfb : order.id ∉ ladderIds b.bids) (hfa : order.id ∉ ladderIds b.asks)
    (hget : b.orders_by_id.get order.id = some st)
    (hrel : st.remaining_quantity = order.remaining_quantity)
    (hstat : st.status = OrderStatus.New) :
    CoreWF (matchLoop cp fuel order b.bids.reverse b.orders_by_id tid).levels.reverse
        b.asks (matchLoop cp fuel order b.bids.reverse b.orders_by_id tid).index ∧
      WellKeyed (matchLoop cp fuel order b.bids.reverse b.orders_by_id tid).index ∧
      order.id ∉
        ladderIds (matchLoop cp fuel order b.bids.reverse b.orders_by_id tid).levels.reverse ∧
      order.id ∉ ladderIds b.asks ∧
      (matchLoop cp fuel order b.bids.reverse b.orders_by_id tid).assertsOk = true ∧
      ∃ st', (matchLoop cp fuel order b.bids.reverse b.orders_by_id tid).index.get order.id =
          some st' ∧
        st'.remaining_quantity =
          (matchLoop cp fuel order b.bids.reverse b.orders_by_id
            tid).order.remaining_quantity ∧
        (st'.status = OrderStatus.Filled → st'.remaining_quantity = 0) ∧
        (st'.status = OrderStatus.New ∨ st'.status = OrderStatus.PartiallyFilled ∨
          st'.status = OrderStatus.Filled) ∧
        st' = { st with remaining_quantity := st'.remaining_quantity,
                        status := st'.status } := by
  have hcw := coreWF_after_loop_sell cp fuel order b.bids b.asks b.orders_by_id tid hCore
    hfb hfa
  have hwk := matchLoop_wellKeyed cp fuel order b.bids.reverse b.orders_by_id tid hWK
  have hnd3 := List.nodup_append.1 hCore.idsNodup
  have hrevperm := ladderIds_reverse_perm b.bids
  have hfbr : order.id ∉ ladderIds b.bids.reverse := fun hm => hfb (hrevperm.mem_iff.1 hm)
  have hndr : (ladderIds b.bids.reverse).Nodup := (hrevperm.nodup_iff).2 hnd3.1
  obtain ⟨_, _, hsub, _⟩ := matchLoop_stateInv cp OrderSide.Buy fuel order b.bids.reverse
    b.orders_by_id tid hfbr hndr (ladderOrdersOk_reverse _ _ _ hCore.bidsOk)
    (ladderTsSorted_reverse _ hCore.bidsTs)
  obtain ⟨hass, st', h1, h2, h3, h4, h5⟩ := matchLoop_lockstep cp fuel order b.bids.reverse
    b.orders_by_id tid st hfbr hget hrel
    (by rw [hstat]; intro hx; exact absurd hx (by decide))
  refine ⟨hcw, hwk, ?_, hfa, hass, st', h1, h2, h3, ?_, h5⟩
  · intro hm
    exact hfbr (hsub.subset
      ((ladderIds_reverse_perm
        (matchLoop cp fuel order b.bids.reverse b.orders_by_id tid).levels).mem_iff.1 hm))
  · rcases h4 with h | h | h
    · exact Or.inl (h.trans hstat)
    · exact Or.inr (Or.inl h)
    · exact Or.inr (Or.inr h)

/-- Everything the book wrappers need from a `Matcher.match_limit_order`
run. -/
theorem engine_limit_inv (b : OrderBook) (order st : Order)
    (hCore : CoreWF b.bids b.asks b.orders_by_id)
    (hWK : WellKeyed b.orders_by_id)
    (hfb : order.id ∉ ladderIds b.bids) (hfa : order.id ∉ ladderIds b.asks)
    (hget : b.orders_by_id.get order.id = some st)
    (hrel : st.remaining_quantity = order.remaining_quantity)
    (hstat : st.status = OrderStatus.New) :
    CoreWF (b.matcher.match_limit_order order b.bids b.asks b.orders_by_id).bids
        (b.matcher.match_limit_order order b.bids b.asks b.orders_by_id).asks
        (b.matcher.match_limit_order order b.bids b.asks b.orders_by_id).index ∧
      WellKeyed (b.matcher.match_limit_order order b.bids b.asks b.orders_by_id).index ∧
      order.id ∉
        ladderIds (b.matcher.match_limit_order order b.bids b.asks b.orders_by_id).bids ∧
      order.id ∉
        ladderIds (b.matcher.match_limit_order order b.bids b.asks b.orders_by_id).asks ∧
      (b.matcher.match_limit_order order b.bids b.asks b.orders_by_id).assertsOk = true ∧
      ∃ st', (b.matcher.match_limit_order order b.bids b.asks
          b.orders_by_id).index.get order.id = some st' ∧
        st'.remaining_quantity = (b.matcher.match_limit_order order b.bids b.asks
          b.orders_by_id).order.remaining_quantity ∧
        (st'.status = OrderStatus.Filled → st'.remaining_quantity = 0) ∧
        (st'.status = OrderStatus.New ∨ st'.status = OrderStatus.PartiallyFilled ∨
          st'.status = OrderStatus.Filled) ∧
        st' = { st with remaining_quantity := st'.remaining_quantity,
                        status := st'.status } := by
  cases hside : order.side
  · rw [Matcher.match_limit_order_buy _ _ _ _ _ hside]
    exact loopPack_buy true _ _ b order st hCore hWK hfb hfa hget hrel hstat
  · rw [Matcher.match_limit_order_sell _ _ _ _ _ hside]
    exact loopPack_sell true _ _ b order st hCore hWK hfb hfa hget hrel hstat

/-- Everything the book wrappers need from a `Matcher.match_market_order`
run. -/
theorem engine_market_inv (b : OrderBook) (order st : Order)
    (hCore : CoreWF b.bids b.asks b.orders_by_id)
    (hWK : WellKeyed b.orders_by_id)
    (hfb : order.id ∉ ladderIds b.bids) (hfa : order.id ∉ ladderIds b.asks)
    (hget : b.orders_by_id.get order.id = some st)
    (hrel : st.remaining_quantity = order.remaining_quantity)
    (hstat : st.status = OrderStatus.New) :
    CoreWF (b.matcher.match_market_order order b.bids b.asks b.orders_by_id).bids
        (b.matcher.match_market_order order b.bids b.asks b.orders_by_id).asks
        (b.matcher.match_market_order order b.bids b.asks b.orders_by_id).index ∧
      WellKeyed (b.matcher.match_market_order order b.bids b.asks b.orders_by_id).index ∧
      order.id ∉
        ladderIds (b.matcher.match_market_order order b.bids b.asks b.orders_by_id).bids ∧
      order.id ∉
        ladderIds (b.matcher.match_market_order order b.bids b.asks b.orders_by_id).asks ∧
      (b.matcher.match_market_order order b.bids b.asks b.orders_by_id).assertsOk = true ∧
      ∃ st', (b.matcher.match_market_order order b.bids b.asks
          b.orders_by_id).index.get order.id = some st' ∧
        st'.remaining_quantity = (b.matcher.match_market_order order b.bids b.asks
          b.orders_by_id).order.remaining_quantity ∧
        (st'.status = OrderStatus.Filled → st'.remaining_quantity = 0) ∧
        (st'.status = OrderStatus.New ∨ st'.status = OrderStatus.PartiallyFilled ∨
          st'.status = OrderStatus.Filled) ∧
        st' = { st with remaining_quantity := st'.remaining_quantity,
                        status := st'.status } := by
  cases hside : order.side
  · rw [Matcher.match_market_order_buy _ _ _ _ _ hside]
    exact loopPack_buy false _ _ b order st hCore hWK hfb hfa hget hrel hstat
  · rw [Matcher.match_market_order_sell _ _ _ _ _ hside]
    exact loopPack_sell false _ _ b order st hCore hWK hfb hfa hget hrel hstat

/-- The book returned by the `match_limit_order` wrapper, when the
aggressor's id is bound in the post-loop index. -/
theorem OrderBook.match_limit_order_book_eq (b : OrderBook) (order st' : Order)
    (h : (b.matcher.match_limit_order order b.bids b.asks
      b.orders_by_id).index.get order.id = some st') :
    (b.match_limit_order order).2.1 =
      if 0 < st'.remaining_quantity then
        (b.applyEngine (b.matcher.match_limit_order order b.bids b.asks
          b.orders_by_id)).add_to_book st'
      else b.applyEngine (b.matcher.match_limit_order order b.bids b.asks b.orders_by_id) := by
  unfold OrderBook.match_limit_order
  simp only []
  rw [show (b.applyEngine (b.matcher.match_limit_order order b.bids b.asks
      b.orders_by_id)).orders_by_id =
      (b.matcher.match_limit_order order b.bids b.asks b.orders_by_id).index from rfl, h]
  by_cases hq : 0 < st'.remaining_quantity
  · simp [hq]
  · simp [hq]

/-- The book-level `match_limit_order` wrapper preserves the invariant
for a fresh, pre-registered aggressor. -/
theorem wrapLimit_inv (b : OrderBook) (order st : Order)
    (hCore : CoreWF b.bids b.asks b.orders_by_id)
    (hWK : WellKeyed b.orders_by_id)
    (hfb : order.id ∉ ladderIds b.bids) (hfa : order.id ∉ ladderIds b.asks)
    (hget : b.orders_by_id.get order.id = some st)
    (hrel : st.remaining_quantity = order.remaining_quantity)
    (hstat : st.status = OrderStatus.New) :
    BookInv (b.match_limit_order order).2.1 := by
  obtain ⟨hc, hk, hfb', hfa', hass, st', hst', hrel', hfr, hds, hfe⟩ :=
    engine_limit_inv b order st hCore hWK hfb hfa hget hrel hstat
  rw [OrderBook.match_limit_order_book_eq b order st' hst']
  have hid : st'.id = order.id := by
    rw [hfe]
    show st.id = order.id
    exact hWK _ _ hget
  by_cases hq : 0 < st'.remaining_quantity
  · rw [if_pos hq]
    refine add_to_book_inv _ st' hc hk ?_ ?_ hq ?_ ?_
    · rw [hid]
      exact hfb'
    · rw [hid]
      exact hfa'
    · rcases hds with h | h | h
      · exact Or.inl h
      · exact Or.inr h
      · exact absurd (hfr h) (by omega)
    · refine ⟨st', ?_, rfl, Nat.le_refl _, ?_⟩
      · rw [hid]
        exact hst'
      · rcases hds with h | h | h
        · exact Or.inl h
        · exact Or.inr h
        · exact absurd (hfr h) (by omega)
  · rw [if_neg hq]
    exact ⟨hc, hk⟩

/-- Every dispatch branch of `process_order` preserves the book
invariant for a fresh, pre-registered, newly constructed order. -/
theorem dispatch_inv (b0 : OrderBook) (order : Order)
    (hCore : CoreWF b0.bids b0.asks b0.orders_by_id)
    (hWK : WellKeyed b0.orders_by_id)
    (hfb : order.id ∉ ladderIds b0.bids) (hfa : order.id ∉ ladderIds b0.asks)
    (hget : b0.orders_by_id.get order.id = some order)
    (hstat : order.status = OrderStatus.New) :
    BookInv (b0.dispatchOrder order).2.1 := by
  cases ht : order.order_type with
  | Market =>
    rw [OrderBook.dispatchOrder_market _ _ ht]
    exact applyEngine_market_inv b0 order hCore hWK hfb hfa
  | Limit =>
    rw [OrderBook.dispatchOrder_limit _ _ ht]
    exact wrapLimit_inv b0 order order hCore hWK hfb hfa hget rfl hstat
  | IOC =>
    rw [OrderBook.dispatchOrder_ioc _ _ ht]
    simp only []
    have hw := wrapLimit_inv b0 order order hCore hWK hfb hfa hget rfl hstat
    cases hg : ((b0.match_limit_order order).2.1).orders_by_id.get order.id with
    | none =>
      simp only [hg]
      exact hw
    | some ro =>
      simp only [hg]
      by_cases hq : 0 < ro.remaining_quantity
      · rw [if_pos hq]
        obtain ⟨hc, hk⟩ := hw
        have hcw := insertRemove_coreWF (b0.match_limit_order order).2.1 order.id ro
          ro.cancel hg (Order.cancel_side ro) (Order.cancel_price ro) hc
        have hwk2 : WellKeyed (({ (b0.match_limit_order order).2.1 with
            orders_by_id := ((b0.match_limit_order order).2.1).orders_by_id.insert order.id
              ro.cancel } : OrderBook).remove_order order.id).2.orders_by_id := by
          rw [(OrderBook.remove_order_proj _ order.id ro.cancel
            (Index.get_insert_self _ _ _)).1]
          exact wellKeyed_erase _ _ (wellKeyed_insert _ _ _ hk
            (by rw [Order.cancel_id]; exact hk _ _ hg))
        exact ⟨hcw, hwk2⟩
      · rw [if_neg hq]
        exact hw
  | FOK =>
    rw [OrderBook.dispatchOrder_fok _ _ ht]
    simp only []
    by_cases hm : ((Matcher.simulate_order_match order b0.bids b0.asks).map
        (·.quantity)).sum = order.quantity
    · rw [if_pos hm]
      exact wrapLimit_inv b0 order order hCore hWK hfb hfa hget rfl hstat
    · rw [if_neg hm]
      simp only [hget]
      have hcw := insertRemove_coreWF b0 order.id order order.cancel hget
        (Order.cancel_side order) (Order.cancel_price order) hCore
      have hwk2 : WellKeyed (({ b0 with
          orders_by_id := b0.orders_by_id.insert order.id order.cancel } :
          OrderBook).remove_order order.id).2.orders_by_id := by
        rw [(OrderBook.remove_order_proj _ order.id order.cancel
          (Index.get_insert_self _ _ _)).1]
        exact wellKeyed_erase _ _ (wellKeyed_insert _ _ _ hWK (Order.cancel_id order))
      exact ⟨hcw, hwk2⟩
  | Stop sp =>
    rw [OrderBook.dispatchOrder_stop _ _ _ ht]
    split
    · exact applyEngine_market_inv b0 { order with order_type := OrderType.Market }
        hCore hWK hfb hfa
    · exact ⟨hCore, hWK⟩
  | StopLimit sp lp =>
    rw [OrderBook.dispatchOrder_stopLimit _ _ _ _ ht]
    split
    · exact wrapLimit_inv b0 { order with order_type := OrderType.Limit, price := lp } order
        hCore hWK hfb hfa hget rfl hstat
    · exact ⟨hCore, hWK⟩

/-- `process_order` preserves the book invariant under the submission
side conditions. -/
theorem process_order_inv (b : OrderBook) (o : Order)
    (hCore : CoreWF b.bids b.asks b.orders_by_id)
    (hWK : WellKeyed b.orders_by_id)
    (hsub : SubmitOk b o) :
    BookInv (b.process_order o).book := by
  by_cases hs : o.symbol = b.symbol
  · rw [OrderBook.process_order_ok b o hs]
    simp only []
    have hd := dispatch_inv (b.preDispatch o) o
      (coreWF_insert_fresh b o.id o hCore hsub.1)
      (wellKeyed_insert _ _ _ hWK rfl)
      (notMem_ladderIds_of_get_none b.bids OrderSide.Buy b.orders_by_id hCore.bidsOk o.id
        hsub.1)
      (notMem_ladderIds_of_get_none b.asks OrderSide.Sell b.orders_by_id hCore.asksOk o.id
        hsub.1)
      (Index.get_insert_self _ _ _)
      hsub.2.2
    exact hd
  · rw [OrderBook.process_order_mismatch b o hs]
    exact ⟨hCore, hWK⟩

/-- `cancel_order` preserves the book invariant. -/
theorem cancel_order_inv (b : OrderBook) (oid : Nat)
    (hCore : CoreWF b.bids b.asks b.orders_by_id)
    (hWK : WellKeyed b.orders_by_id) :
    BookInv (b.cancel_order oid).2 := by
  unfold OrderBook.cancel_order
  cases hg : b.orders_by_id.get oid with
  | none =>
    simp only [hg]
    exact ⟨hCore, hWK⟩
  | some o =>
    simp only [hg]
    have hcw := insertRemove_coreWF b oid o o.cancel hg (Order.cancel_side o)
      (Order.cancel_price o) hCore
    have hwk2 : WellKeyed (({ b with
        orders_by_id := b.orders_by_id.insert oid o.cancel } :
        OrderBook).remove_order oid).2.orders_by_id := by
      rw [(OrderBook.remove_order_proj _ oid o.cancel (Index.get_insert_self _ _ _)).1]
      exact wellKeyed_erase _ _ (wellKeyed_insert _ _ _ hWK
        (by rw [Order.cancel_id]; exact hWK _ _ hg))
    exact ⟨hcw, hwk2⟩

/-- Every reachable book satisfies the ladder/index invariant. -/
theorem reachable_bookInv (b : OrderBook) (h : Reachable b) : BookInv b := by
  induction h with
  | base symbol =>
    refine ⟨⟨List.nodup_nil, List.nodup_nil, ?_, ?_, ?_, ?_,
      by simp [ladderIds, OrderBook.new]⟩, ?_⟩
    · intro p lvl hm
      cases hm
    · intro p lvl hm
      cases hm
    · intro p lvl hm
      cases hm
    · intro p lvl hm
      cases hm
    · intro k v hkv
      cases hkv
  | step_order b o _ hsub ih => exact process_order_inv b o ih.1 ih.2 hsub
  | step_cancel b oid _ ih => exact cancel_order_inv b oid ih.1 ih.2

/-!
### Stats refresh and full well-formedness of reachable books
-/

/-- Folding trades into the stats touches only `last_trade_price`,
`volume` and `trade_count`. -/
theorem foldl_update_with_trade_fields (ts : List Trade) (s : OrderBookStats) :
    (ts.foldl (fun s t => s.update_with_trade t.price t.quantity) s).best_bid = s.best_bid ∧
      (ts.foldl (fun s t => s.update_with_trade t.price t.quantity) s).best_ask =
        s.best_ask ∧
      (ts.foldl (fun s t => s.update_with_trade t.price t.quantity) s).bid_order_count =
        s.bid_order_count ∧
      (ts.foldl (fun s t => s.update_with_trade t.price t.quantity) s).ask_order_count =
        s.ask_order_count ∧
      (ts.foldl (fun s t => s.update_with_trade t.price t.quantity) s).last_update_time =
        s.last_update_time := by
  induction ts generalizing s with
  | nil => exact ⟨rfl, rfl, rfl, rfl, rfl⟩
  | cons t ts ih =>
    rw [List.foldl_cons]
    exact ih _

/-- `update_stats` turns a core-well-formed book into a fully
well-formed one. -/
theorem WF_update_stats (b' : OrderBook)
    (hc : CoreWF b'.bids b'.asks b'.orders_by_id) : WF b'.update_stats :=
  ⟨hc.bidsKeys, hc.asksKeys, hc.bidsOk, hc.asksOk, hc.bidsTs, hc.asksTs, hc.idsNodup,
    rfl, rfl, rfl, rfl⟩

/-- `update_stats` followed by the trade fold keeps full
well-formedness. -/
theorem WF_update_stats_fold (bOut : OrderBook) (ts : List Trade)
    (hc : CoreWF bOut.bids bOut.asks bOut.orders_by_id) :
    WF { bOut.update_stats with stats := ts.foldl (fun s t => s.update_with_trade t.price t.quantity) bOut.update_stats.stats } := by
  obtain ⟨f1, f2, f3, f4, _⟩ := foldl_update_with_trade_fields ts bOut.update_stats.stats
  exact ⟨hc.bidsKeys, hc.asksKeys, hc.bidsOk, hc.asksOk, hc.bidsTs, hc.asksTs, hc.idsNodup,
    f1, f2, f3, f4⟩

/-- `process_order` keeps full well-formedness. -/
theorem process_order_WF (b : OrderBook) (o : Order)
    (hCore : CoreWF b.bids b.asks b.orders_by_id)
    (hWK : WellKeyed b.orders_by_id)
    (hWFb : WF b) (hsub : SubmitOk b o) : WF (b.process_order o).book := by
  by_cases hs : o.symbol = b.symbol
  · rw [OrderBook.process_order_ok b o hs]
    have hd := dispatch_inv (b.preDispatch o) o
      (coreWF_insert_fresh b o.id o hCore hsub.1)
      (wellKeyed_insert _ _ _ hWK rfl)
      (notMem_ladderIds_of_get_none b.bids OrderSide.Buy b.orders_by_id hCore.bidsOk o.id
        hsub.1)
      (notMem_ladderIds_of_get_none b.asks OrderSide.Sell b.orders_by_id hCore.asksOk o.id
        hsub.1)
      (Index.get_insert_self _ _ _)
      hsub.2.2
    exact WF_update_stats_fold ((b.preDispatch o).dispatchOrder o).2.1
      ((b.preDispatch o).dispatchOrder o).1 hd.1
  · rw [OrderBook.process_order_mismatch b o hs]
    exact hWFb

/-- `cancel_order` keeps full well-formedness. -/
theorem cancel_order_WF (b : OrderBook) (oid : Nat)
    (hCore : CoreWF b.bids b.asks b.orders_by_id)
    (_hWK : WellKeyed b.orders_by_id)
    (hWFb : WF b) : WF (b.cancel_order oid).2 := by
  unfold OrderBook.cancel_order
  cases hg : b.orders_by_id.get oid with
  | none =>
    simp only [hg]
    exact hWFb
  | some o =>
    simp only [hg]
    have hcw := insertRemove_coreWF b oid o o.cancel hg (Order.cancel_side o)
      (Order.cancel_price o) hCore
    exact WF_update_stats _ hcw

/-- Every reachable book is fully well-formed. -/
theorem reachable_WF (b : OrderBook) (h : Reachable b) : WF b := by
  induction h with
  | base symbol =>
    obtain ⟨hc, _⟩ := reachable_bookInv _ (Reachable.base symbol)
    exact ⟨hc.bidsKeys, hc.asksKeys, hc.bidsOk, hc.asksOk, hc.bidsTs, hc.asksTs,
      hc.idsNodup, rfl, rfl, rfl, rfl⟩
  | step_order b o hb hsub ih =>
    obtain ⟨hc, hk⟩ := reachable_bookInv b hb
    exact process_order_WF b o hc hk ih hsub
  | step_cancel b oid hb ih =>
    obtain ⟨hc, hk⟩ := reachable_bookInv b hb
    exact cancel_order_WF b oid hc hk ih

/-!
### The fill assertions through dispatch (C10)
-/

/-- Every dispatch branch reports all `fill_partial` assertions true for
a fresh, pre-registered, newly constructed order. -/
theorem dispatch_asserts (b0 : OrderBook) (order : Order)
    (hCore : CoreWF b0.bids b0.asks b0.orders_by_id)
    (hWK : WellKeyed b0.orders_by_id)
    (hfb : order.id ∉ ladderIds b0.bids) (hfa : order.id ∉ ladderIds b0.asks)
    (hget : b0.orders_by_id.get order.id = some order)
    (hstat : order.status = OrderStatus.New) :
    (b0.dispatchOrder order).2.2.2 = true := by
  have hassL : (b0.match_limit_order order).2.2.2 = true := by
    rw [(OrderBook.match_limit_order_proj b0 order).2.2]
    exact (engine_limit_inv b0 order order hCore hWK hfb hfa hget rfl hstat).2.2.2.2.1
  cases ht : order.order_type with
  | Market =>
    rw [OrderBook.dispatchOrder_market _ _ ht]
    exact (engine_market_inv b0 order order hCore hWK hfb hfa hget rfl hstat).2.2.2.2.1
  | Limit =>
    rw [OrderBook.dispatchOrder_limit _ _ ht]
    exact hassL
  | IOC =>
    rw [OrderBook.dispatchOrder_ioc _ _ ht]
    simp only []
    cases hg : ((b0.match_limit_order order).2.1).orders_by_id.get order.id with
    | none =>
      simp only [hg]
      exact hassL
    | some ro =>
      simp only [hg]
      by_cases hq : 0 < ro.remaining_quantity
      · rw [if_pos hq]
        exact hassL
      · rw [if_neg hq]
        exact hassL
  | FOK =>
    rw [OrderBook.dispatchOrder_fok _ _ ht]
    simp only []
    by_cases hm : ((Matcher.simulate_order_match order b0.bids b0.asks).map
        (·.quantity)).sum = order.quantity
    · rw [if_pos hm]
      exact hassL
    · rw [if_neg hm]
  | Stop sp =>
    rw [OrderBook.dispatchOrder_stop _ _ _ ht]
    split
    · exact (engine_market_inv b0 { order with order_type := OrderType.Market } order
        hCore hWK hfb hfa hget rfl hstat).2.2.2.2.1
    · rfl
  | StopLimit sp lp =>
    rw [OrderBook.dispatchOrder_stopLimit _ _ _ _ ht]
    split
    · rw [(OrderBook.match_limit_order_proj b0
        { order with order_type := OrderType.Limit, price := lp }).2.2]
      exact (engine_limit_inv b0 { order with order_type := OrderType.Limit, price := lp }
        order hCore hWK hfb hfa hget rfl hstat).2.2.2.2.1
    · rfl

/-- `process_order` reports all `fill_partial` assertions true under the
submission side conditions. -/
theorem process_order_asserts (b : OrderBook) (o : Order)
    (hCore : CoreWF b.bids b.asks b.orders_by_id)
    (hWK : WellKeyed b.orders_by_id)
    (hsub : SubmitOk b o) : (b.process_order o).assertsOk = true := by
  by_cases hs : o.symbol = b.symbol
  · rw [OrderBook.process_order_ok b o hs]
    exact dispatch_asserts (b.preDispatch o) o
      (coreWF_insert_fresh b o.id o hCore hsub.1)
      (wellKeyed_insert _ _ _ hWK rfl)
      (notMem_ladderIds_of_get_none b.bids OrderSide.Buy b.orders_by_id hCore.bidsOk o.id
        hsub.1)
      (notMem_ladderIds_of_get_none b.asks OrderSide.Sell b.orders_by_id hCore.asksOk o.id
        hsub.1)
      (Index.get_insert_self _ _ _)
      hsub.2.2
  · rw [OrderBook.process_order_mismatch b o hs]

/-- C10.  The `assert!(filled_quantity <= remaining_quantity)` inside
`Order::fill_partial` holds at every call the matching loops make during
a submission whose id is fresh (distinct from every id already bound in
`orders_by_id`, as the spec's id-uniqueness guarantees): the fill is the
minimum of the two remaining quantities, and the aggressor's index copy
is kept in lockstep, so the ghost flag collecting every assertion
condition is true. -/
theorem c10_fill_assert_safe (b : OrderBook) (o : Order)
    (hr : Reachable b) (hsub : SubmitOk b o) :
    (b.process_order o).assertsOk = true := by
  obtain ⟨hc, hk⟩ := reachable_bookInv b hr
  exact process_order_asserts b o hc hk hsub

/-- Witness for C10: a crossing buy for 5 against the one-ask book runs
two fill iterations and every assertion holds. -/
theorem c10_fill_assert_safe_witness :
    Reachable exBookAsk ∧ SubmitOk exBookAsk (exLimit 2 100 5 OrderSide.Buy 2) ∧
      (exBookAsk.process_order (exLimit 2 100 5 OrderSide.Buy 2)).assertsOk = true :=
  ⟨Reachable.step_order exBook0 (exLimit 1 100 3 OrderSide.Sell 1)
      (Reachable.base "S") ⟨by decide, by decide, by decide⟩,
    ⟨by decide, by decide, by decide⟩,
    c10_fill_assert_safe exBookAsk (exLimit 2 100 5 OrderSide.Buy 2)
      (Reachable.step_order exBook0 (exLimit 1 100 3 OrderSide.Sell 1)
        (Reachable.base "S") ⟨by decide, by decide, by decide⟩)
      ⟨by decide, by decide, by decide⟩⟩

/-!
### C3: index-ladder consistency
-/

/-- C3 (amended).  Ladder-to-index consistency in every reachable book:
every order resting in a ladder sits at the level keyed by its price, on
its side, with positive remaining quantity and non-terminal status, and
has an `orders_by_id` entry of the same identity — equal on every field
except that the index copy's remaining quantity may lag behind (it is
only rewritten for the aggressor, so it is an upper bound) with a
non-terminal status; every id appears in at most one level of one
ladder.  The converse direction of the original claim is refuted by
`c3_counterexample`. -/
theorem c3_ladder_index_amended (b : OrderBook) (hr : Reachable b) :
    ladderOrdersOk b.bids OrderSide.Buy b.orders_by_id ∧
      ladderOrdersOk b.asks OrderSide.Sell b.orders_by_id ∧
      (ladderIds b.bids ++ ladderIds b.asks).Nodup := by
  obtain ⟨hc, _⟩ := reachable_bookInv b hr
  exact ⟨hc.bidsOk, hc.asksOk, hc.idsNodup⟩

/-- Witness for C3 (amended) on the partially-filled two-submission
book. -/
theorem c3_ladder_index_amended_witness :
    Reachable exBookPartial ∧
      (ladderOrdersOk exBookPartial.bids OrderSide.Buy exBookPartial.orders_by_id ∧
        ladderOrdersOk exBookPartial.asks OrderSide.Sell exBookPartial.orders_by_id ∧
        (ladderIds exBookPartial.bids ++ ladderIds exBookPartial.asks).Nodup) := by
  have hreach : Reachable exBookPartial :=
    Reachable.step_order exBookBid (exLimit 2 90 5 OrderSide.Sell 2)
      (Reachable.step_order exBook0 (exLimit 1 100 10 OrderSide.Buy 1)
        (Reachable.base "S") ⟨by decide, by decide, by decide⟩)
      ⟨by decide, by decide, by decide⟩
  exact ⟨hreach, c3_ladder_index_amended _ hreach⟩

/-- Counterexample to C3 as stated.  (1) An untriggered stop submission
leaves an `orders_by_id` entry with status `New` whose id appears in no
ladder at all.  (2) After a partial fill, the resting bid's ladder entry
has remaining quantity 5 while its `orders_by_id` copy still records 10
with status `New` — the index entry has no equal entry in the ladder,
only a lagged one. -/
theorem c3_counterexample :
    (((exBook0.process_order exStopOrder).book.orders_by_id.get 7).map (·.status) =
        some OrderStatus.New ∧
      7 ∉ ladderIds (exBook0.process_order exStopOrder).book.bids ∧
      7 ∉ ladderIds (exBook0.process_order exStopOrder).book.asks) ∧
    ((exBookPartial.orders_by_id.get 1).map (·.status) = some OrderStatus.New ∧
      (exBookPartial.orders_by_id.get 1).map (·.remaining_quantity) = some 10 ∧
      (exBookPartial.bids.getLevel 100).map (fun lvl => lvl.map (·.remaining_quantity)) =
        some [5]) := by
  decide

/-!
### C2: trades happen at the resting order's price
-/

theorem Matcher.match_limit_order_origin (m : Matcher) (order : Order)
    (bids asks : Ladder) (index : Index) :
    ∀ t ∈ (m.match_limit_order order bids asks index).trades,
      ∃ p lvl o, ((p, lvl) ∈ bids ∨ (p, lvl) ∈ asks) ∧ o ∈ lvl ∧ t.price = p ∧
        passiveOrderId order.side t = o.id := by
  cases hside : order.side
  · rw [Matcher.match_limit_order_buy _ _ _ _ _ hside]
    intro t ht
    obtain ⟨p, lvl, o, hm, ho, hp, hid⟩ :=
      matchLoop_trades_origin true _ order asks index _ t ht
    exact ⟨p, lvl, o, Or.inr hm, ho, hp, by rw [hside] at hid; exact hid⟩
  · rw [Matcher.match_limit_order_sell _ _ _ _ _ hside]
    intro t ht
    obtain ⟨p, lvl, o, hm, ho, hp, hid⟩ :=
      matchLoop_trades_origin true _ order bids.reverse index _ t ht
    exact ⟨p, lvl, o, Or.inl (List.mem_reverse.1 hm), ho, hp,
      by rw [hside] at hid; exact hid⟩

theorem Matcher.match_market_order_origin (m : Matcher) (order : Order)
    (bids asks : Ladder) (index : Index) :
    ∀ t ∈ (m.match_market_order order bids asks index).trades,
      ∃ p lvl o, ((p, lvl) ∈ bids ∨ (p, lvl) ∈ asks) ∧ o ∈ lvl ∧ t.price = p ∧
        passiveOrderId order.side t = o.id := by
  cases hside : order.side
  · rw [Matcher.match_market_order_buy _ _ _ _ _ hside]
    intro t ht
    obtain ⟨p, lvl, o, hm, ho, hp, hid⟩ :=
      matchLoop_trades_origin false _ order asks index _ t ht
    exact ⟨p, lvl, o, Or.inr hm, ho, hp, by rw [hside] at hid; exact hid⟩
  · rw [Matcher.match_market_order_sell _ _ _ _ _ hside]
    intro t ht
    obtain ⟨p, lvl, o, hm, ho, hp, hid⟩ :=
      matchLoop_trades_origin false _ order bids.reverse index _ t ht
    exact ⟨p, lvl, o, Or.inl (List.mem_reverse.1 hm), ho, hp,
      by rw [hside] at hid; exact hid⟩

/-- Every trade of every dispatch branch originates from an order that
rested in the pre-dispatch ladders, at that order's level. -/
theorem dispatchOrder_trades_origin (b0 : OrderBook) (order : Order) :
    ∀ t ∈ (b0.dispatchOrder order).1,
      ∃ p lvl o, ((p, lvl) ∈ b0.bids ∨ (p, lvl) ∈ b0.asks) ∧ o ∈ lvl ∧ t.price = p ∧
        passiveOrderId order.side t = o.id := by
  have hwrapL : ∀ mo : Order, mo.side = order.side →
      ∀ t ∈ (b0.match_limit_order mo).1,
      ∃ p lvl o, ((p, lvl) ∈ b0.bids ∨ (p, lvl) ∈ b0.asks) ∧ o ∈ lvl ∧ t.price = p ∧
        passiveOrderId order.side t = o.id := by
    intro mo hside t ht
    rw [(OrderBook.match_limit_order_proj b0 mo).1] at ht
    obtain ⟨p, lvl, o, hm, ho, hp, hid⟩ :=
      Matcher.match_limit_order_origin b0.matcher mo b0.bids b0.asks b0.orders_by_id t ht
    exact ⟨p, lvl, o, hm, ho, hp, by rw [← hside]; exact hid⟩
  cases ht : order.order_type with
  | Market =>
    rw [OrderBook.dispatchOrder_market _ _ ht]
    intro t htm
    exact Matcher.match_market_order_origin b0.matcher order b0.bids b0.asks
      b0.orders_by_id t htm
  | Limit =>
    rw [OrderBook.dispatchOrder_limit _ _ ht]
    exact hwrapL order rfl
  | IOC =>
    rw [OrderBook.dispatchOrder_ioc _ _ ht]
    simp only []
    cases hg : ((b0.match_limit_order order).2.1).orders_by_id.get order.id with
    | none =>
      simp only [hg]
      exact hwrapL order rfl
    | some ro =>
      simp only [hg]
      by_cases hq : 0 < ro.remaining_quantity
      · rw [if_pos hq]
        exact hwrapL order rfl
      · rw [if_neg hq]
        exact hwrapL order rfl
  | FOK =>
    rw [OrderBook.dispatchOrder_fok _ _ ht]
    simp only []
    by_cases hm : ((Matcher.simulate_order_match order b0.bids b0.asks).map
        (·.quantity)).sum = order.quantity
    · rw [if_pos hm]
      exact hwrapL order rfl
    · rw [if_neg hm]
      intro t htm
      cases htm
  | Stop sp =>
    rw [OrderBook.dispatchOrder_stop _ _ _ ht]
    split
    · intro t htm
      exact Matcher.match_market_order_origin b0.matcher
        { order with order_type := OrderType.Market } b0.bids b0.asks b0.orders_by_id t htm
    · intro t htm
      cases htm
  | StopLimit sp lp =>
    rw [OrderBook.dispatchOrder_stopLimit _ _ _ _ ht]
    split
    · exact hwrapL { order with order_type := OrderType.Limit, price := lp } rfl
    · intro t htm
      cases htm

/-- C2.  Trade at the resting price: every trade emitted by
`process_order` carries the price of the resting (passive) order that
participated — by well-formedness that order's own `price` equals the
ladder key of the level it was taken from — and names that order as the
trade's passive side; the aggressor's price never sets `trade.price`. -/
theorem c2_trade_at_resting_price (b : OrderBook) (o : Order)
    (hr : Reachable b) :
    ∀ t ∈ (b.process_order o).trades,
      ∃ resting, b.hasResting resting ∧ t.price = resting.price ∧
        passiveOrderId o.side t = resting.id := by
  obtain ⟨hc, _⟩ := reachable_bookInv b hr
  by_cases hs : o.symbol = b.symbol
  · rw [OrderBook.process_order_ok b o hs]
    intro t ht
    obtain ⟨p, lvl, orest, hm, ho, hp, hid⟩ :=
      dispatchOrder_trades_origin (b.preDispatch o) o t ht
    rcases hm with hm | hm
    · have hw := hc.bidsOk p lvl hm orest ho
      exact ⟨orest, Or.inl ⟨p, lvl, hm, ho⟩, by rw [hp]; exact hw.1.symm, hid⟩
    · have hw := hc.asksOk p lvl hm orest ho
      exact ⟨orest, Or.inr ⟨p, lvl, hm, ho⟩, by rw [hp]; exact hw.1.symm, hid⟩
  · rw [OrderBook.process_order_mismatch b o hs]
    intro t ht
    cases ht

/-- Witness for C2: a sell limit at 90 against the resting bid at 100
trades at 100 (the resting price), not at 90. -/
theorem c2_trade_at_resting_price_witness :
    Reachable exBookBid ∧
      ∀ t ∈ (exBookBid.process_order (exLimit 2 90 5 OrderSide.Sell 2)).trades,
        ∃ resting, exBookBid.hasResting resting ∧ t.price = resting.price ∧
          passiveOrderId (exLimit 2 90 5 OrderSide.Sell 2).side t = resting.id := by
  have hreach : Reachable exBookBid :=
    Reachable.step_order exBook0 (exLimit 1 100 10 OrderSide.Buy 1)
      (Reachable.base "S") ⟨by decide, by decide, by decide⟩
  exact ⟨hreach,
    c2_trade_at_resting_price exBookBid (exLimit 2 90 5 OrderSide.Sell 2) hreach⟩

/-!
### C5: untriggered stop orders
-/

/-- C5 (amended).  An untriggered `Stop` or `StopLimit` submission
produces no trades and adds nothing to either ladder, but the book does
keep a record of the order: its unchanged `Order` value (status `New`)
stays in `orders_by_id`, so `get_order` returns it — the original
claim's "contains no record / get_order returns None" is refuted by
`c5_counterexample`. -/
theorem c5_untriggered_stop_amended (b : OrderBook) (o : Order) (sp : Nat)
    (hty : o.order_type = OrderType.Stop sp ∨
      ∃ lp, o.order_type = OrderType.StopLimit sp lp)
    (hs : o.symbol = b.symbol)
    (hnt : b.stopTriggered o.side sp = false) :
    (b.process_order o).trades = [] ∧
      (b.process_order o).book.bids = b.bids ∧
      (b.process_order o).book.asks = b.asks ∧
      (b.process_order o).book.orders_by_id.get o.id = some o ∧
      (b.process_order o).finalOrder = o := by
  rw [OrderBook.process_order_ok b o hs]
  rcases hty with hty | ⟨lp, hty⟩
  · rw [OrderBook.dispatchOrder_stop _ _ _ hty,
      show (b.preDispatch o).stopTriggered o.side sp = false from hnt]
    simp only [Bool.false_eq_true, if_false]
    refine ⟨?_, ?_, ?_, ?_, ?_⟩ <;> first | trivial | exact Index.get_insert_self _ _ _
  · rw [OrderBook.dispatchOrder_stopLimit _ _ _ _ hty,
      show (b.preDispatch o).stopTriggered o.side sp = false from hnt]
    simp only [Bool.false_eq_true, if_false]
    refine ⟨?_, ?_, ?_, ?_, ?_⟩ <;> first | trivial | exact Index.get_insert_self _ _ _

/-- Witness for C5 (amended): the untriggered buy stop against the
empty book. -/
theorem c5_untriggered_stop_amended_witness :
    (exBook0.process_order exStopOrder).trades = [] ∧
      (exBook0.process_order exStopOrder).book.bids = exBook0.bids ∧
      (exBook0.process_order exStopOrder).book.asks = exBook0.asks ∧
      (exBook0.process_order exStopOrder).book.orders_by_id.get exStopOrder.id =
        some exStopOrder ∧
      (exBook0.process_order exStopOrder).finalOrder = exStopOrder :=
  c5_untriggered_stop_amended exBook0 exStopOrder 100 (Or.inl (by decide)) (by decide)
    (by decide)

/-- Counterexample to C5 as stated: the untriggered stop leaves a
queryable record — `get_order` on its id returns the order, not
`None`. -/
theorem c5_counterexample :
    (exBook0.process_order exStopOrder).trades = [] ∧
      (exBook0.process_order exStopOrder).book.get_order 7 ≠ none ∧
      ((exBook0.process_order exStopOrder).book.get_order 7).map (·.status) =
        some OrderStatus.New := by
  decide

/-!
### C6: cancel of a terminal order
-/

/-- C6 (amended).  `cancel_order` checks only presence, not status: an
id absent from `orders_by_id` reports `false` with the book unchanged,
while ANY bound id — terminal status included — reports `true` and has
its record removed from `orders_by_id`.  The original claim's "terminal
status returns false with no state change" is refuted by
`c6_counterexample`. -/
theorem c6_cancel_amended (b : OrderBook) (oid : Nat) :
    (b.orders_by_id.get oid = none → b.cancel_order oid = (false, b)) ∧
      ∀ o, b.orders_by_id.get oid = some o →
        (b.cancel_order oid).1 = true ∧
          (b.cancel_order oid).2.orders_by_id.get oid = none := by
  constructor
  · intro h
    unfold OrderBook.cancel_order
    simp only [h]
  · intro o h
    unfold OrderBook.cancel_order
    simp only [h]
    refine ⟨trivial, ?_⟩
    show ((({ b with
        orders_by_id := b.orders_by_id.insert oid o.cancel } :
        OrderBook).remove_order oid).2).orders_by_id.get oid = none
    rw [(OrderBook.remove_order_proj _ oid o.cancel (Index.get_insert_self _ _ _)).1,
      Index.erase_insert]
    exact Index.get_erase_self _ _

/-- Witness for C6 (amended) on the fully-filled book. -/
theorem c6_cancel_amended_witness :
    (exBookFilled.cancel_order 1).1 = true ∧
      (exBookFilled.cancel_order 1).2.orders_by_id.get 1 = none := by
  cases hg : exBookFilled.orders_by_id.get 1 with
  | none => exact absurd hg (by decide)
  | some o => exact (c6_cancel_amended exBookFilled 1).2 o hg

/-- Counterexample to C6 as stated: the resting ask was fully filled
(terminal status `Filled`, still recorded in `orders_by_id`), yet
`cancel_order` returns `true` and removes the record — a state
change. -/
theorem c6_counterexample :
    (exBookFilled.orders_by_id.get 1).map (·.status) = some OrderStatus.Filled ∧
      (exBookFilled.cancel_order 1).1 = true ∧
      (exBookFilled.cancel_order 1).2.orders_by_id.get 1 = none := by
  decide

/-!
### C7: rejection of zero-quantity and symbol-mismatched orders
-/

theorem matchLoop_done (cp : Bool) (fuel : Nat) (order : Order)
    (L : List (Nat × List Order)) (index : Index) (tid : Nat)
    (h : order.remaining_quantity = 0) :
    matchLoop cp fuel order L index tid = ⟨[], order, L, index, tid, true⟩ := by
  cases fuel
  · rfl
  · rw [matchLoop_succ, matchStep_done _ _ _ _ _ _ h]

theorem Matcher.limit_engine_zero (m : Matcher) (order : Order)
    (bids asks : Ladder) (index : Index) (h : order.remaining_quantity = 0) :
    m.match_limit_order order bids asks index = ⟨[], order, bids, asks, index, m, true⟩ := by
  cases hside : order.side
  · rw [Matcher.match_limit_order_buy _ _ _ _ _ hside, matchLoop_done _ _ _ _ _ _ h]
  · rw [Matcher.match_limit_order_sell _ _ _ _ _ hside, matchLoop_done _ _ _ _ _ _ h]
    simp [List.reverse_reverse]

theorem OrderBook.match_limit_order_zero (b : OrderBook) (order : Order)
    (h : order.remaining_quantity = 0)
    (hget : b.orders_by_id.get order.id = some order) :
    b.match_limit_order order = ([], b, order, true) := by
  unfold OrderBook.match_limit_order
  rw [Matcher.limit_engine_zero b.matcher order b.bids b.asks b.orders_by_id h]
  simp only []
  rw [show (b.applyEngine
      (⟨[], order, b.bids, b.asks, b.orders_by_id, b.matcher, true⟩ : EngineResult)
      ).orders_by_id = b.orders_by_id from rfl, hget]
  simp only [h, Nat.lt_irrefl, if_false]
  rfl

/-- C7 (amended).  A symbol mismatch is a complete no-op: empty trades,
no book mutation, and the order's status is left as it was (it is never
set to `Rejected`).  A zero-quantity order is NOT rejected: a
zero-quantity limit order with the right symbol yields no trades and no
ladder change, but its record (status `New`) is inserted into
`orders_by_id` — a book-state mutation.  The original claim's
`Rejected` status and no-mutation guarantee are refuted by
`c7_counterexample`. -/
theorem c7_reject_amended (b : OrderBook) (o : Order) :
    (o.symbol ≠ b.symbol → b.process_order o = ⟨[], b, o, true⟩) ∧
      (o.symbol = b.symbol → o.remaining_quantity = 0 →
        o.order_type = OrderType.Limit →
        (b.process_order o).trades = [] ∧
          (b.process_order o).book.bids = b.bids ∧
          (b.process_order o).book.asks = b.asks ∧
          (b.process_order o).book.orders_by_id.get o.id = some o ∧
          (b.process_order o).finalOrder = o) := by
  constructor
  · intro h
    exact OrderBook.process_order_mismatch b o h
  · intro hs h0 hty
    rw [OrderBook.process_order_ok b o hs, OrderBook.dispatchOrder_limit _ _ hty,
      OrderBook.match_limit_order_zero (b.preDispatch o) o h0 (Index.get_insert_self _ _ _)]
    refine ⟨?_, ?_, ?_, ?_, ?_⟩ <;> first | trivial | exact Index.get_insert_self _ _ _

/-- Witness for C7 (amended): the zero-quantity limit buy into the
empty book. -/
theorem c7_reject_amended_witness :
    (exBook0.process_order exZeroOrder).trades = [] ∧
      (exBook0.process_order exZeroOrder).book.bids = exBook0.bids ∧
      (exBook0.process_order exZeroOrder).book.asks = exBook0.asks ∧
      (exBook0.process_order exZeroOrder).book.orders_by_id.get exZeroOrder.id =
        some exZeroOrder ∧
      (exBook0.process_order exZeroOrder).finalOrder = exZeroOrder :=
  (c7_reject_amended exBook0 exZeroOrder).2 (by decide) (by decide) (by decide)

/-- Counterexample to C7 as stated: the zero-quantity limit order is
not rejected — the book is mutated (its record appears in
`orders_by_id`) and its status stays `New`, never `Rejected`; a
symbol-mismatched order likewise keeps status `New`. -/
theorem c7_counterexample :
    (exBook0.process_order exZeroOrder).trades = [] ∧
      (exBook0.process_order exZeroOrder).book ≠ exBook0 ∧
      (exBook0.process_order exZeroOrder).book.get_order 3 ≠ none ∧
      (exBook0.process_order exZeroOrder).finalOrder.status = OrderStatus.New ∧
      (exBook0.process_order
          (Order.new_limit 9 5 5 OrderSide.Buy 1009 9 none "T")).finalOrder.status =
        OrderStatus.New := by
  decide

/-!
### C9: slippage accumulation wraps in u64
-/

theorem slipOrders_spec_rel (price : Nat) :
    ∀ (lvl : List Order) (rem costL costS vol), costL = costS % U64MOD →
      (slipOrdersLoop price rem costL vol lvl).1 =
          (slipOrdersSpec price rem costS vol lvl).1 ∧
        (slipOrdersLoop price rem costL vol lvl).2.1 =
          (slipOrdersSpec price rem costS vol lvl).2.1 % U64MOD ∧
        (slipOrdersLoop price rem costL vol lvl).2.2.1 =
          (slipOrdersSpec price rem costS vol lvl).2.2.1 ∧
        (slipOrdersLoop price rem costL vol lvl).2.2.2 =
          (slipOrdersSpec price rem costS vol lvl).2.2.2 := by
  intro lvl
  induction lvl with
  | nil =>
    intro rem costL costS vol hc
    rw [slipOrdersLoop, slipOrdersSpec]
    exact ⟨rfl, hc, rfl, rfl⟩
  | cons o rest ih =>
    intro rem costL costS vol hc
    rw [slipOrdersLoop, slipOrdersSpec]
    have hc' : (costL + price * min rem o.remaining_quantity) % U64MOD =
        (costS + price * min rem o.remaining_quantity) % U64MOD := by
      rw [hc, Nat.mod_add_mod]
    by_cases h0 : rem - min rem o.remaining_quantity = 0
    · rw [if_pos h0, if_pos h0]
      exact ⟨rfl, hc', rfl, rfl⟩
    · rw [if_neg h0, if_neg h0]
      exact ih _ _ _ _ hc'

theorem slipLevels_spec_rel :
    ∀ (L : List (Nat × List Order)) (rem costL costS vol), costL = costS % U64MOD →
      (slipLevelsLoop rem costL vol L).1 = (slipLevelsSpec rem costS vol L).1 ∧
        (slipLevelsLoop rem costL vol L).2.1 =
          (slipLevelsSpec rem costS vol L).2.1 % U64MOD ∧
        (slipLevelsLoop rem costL vol L).2.2.1 = (slipLevelsSpec rem costS vol L).2.2.1 ∧
        (slipLevelsLoop rem costL vol L).2.2.2 = (slipLevelsSpec rem costS vol L).2.2.2 := by
  intro L
  induction L with
  | nil =>
    intro rem costL costS vol hc
    rw [slipLevelsLoop, slipLevelsSpec]
    exact ⟨rfl, hc, rfl, rfl⟩
  | cons e rest ih =>
    intro rem costL costS vol hc
    rw [slipLevelsLoop, slipLevelsSpec]
    obtain ⟨h1, h2, h3, h4⟩ := slipOrders_spec_rel e.1 e.2 rem costL costS vol hc
    rw [h4]
    by_cases hb : (slipOrdersSpec e.1 rem costS vol e.2).2.2.2 = true
    · rw [if_pos hb, if_pos hb]
      exact ⟨h1, h2, h3, by rw [h4, hb]⟩
    · rw [if_neg hb, if_neg hb]
      rw [h1, h3]
      exact ih _ _ _ _ h2

/-- C9 (amended).  `calculate_slippage` accumulates
`total_cost += price * match_qty` in plain `u64` (wrapping in a release
build): on a covered walk it returns the wrapped cost
`(Σ price·fill) % 2^64` divided by the matched volume, `none` only for
an empty opposite side or insufficient liquidity — overflow is neither
widened nor checked nor mapped to `None`, as `c9_counterexample`
shows concretely. -/
theorem c9_slippage_amended (b : OrderBook) (side : OrderSide) (quantity : Nat) :
    b.calculate_slippage side quantity =
      (if (oppositeView side b.bids b.asks).isEmpty then none
       else if (slipLevelsSpec quantity 0 0 (oppositeView side b.bids b.asks)).2.2.2 then
         some (((slipLevelsSpec quantity 0 0 (oppositeView side b.bids b.asks)).2.1 %
             U64MOD) /
           (slipLevelsSpec quantity 0 0 (oppositeView side b.bids b.asks)).2.2.1)
       else none) := by
  obtain ⟨_, h2, h3, h4⟩ := slipLevels_spec_rel (oppositeView side b.bids b.asks) quantity
    0 0 0 (Nat.zero_mod _).symm
  unfold OrderBook.calculate_slippage
  cases side with
  | Buy =>
    by_cases he : b.asks.isEmpty
    · rw [if_pos he, if_pos (show (oppositeView OrderSide.Buy b.bids b.asks).isEmpty = true
        from he)]
    · rw [if_neg he, if_neg (show ¬ (oppositeView OrderSide.Buy b.bids
        b.asks).isEmpty = true from he)]
      rw [show (slipLevelsLoop quantity 0 0 b.asks) =
        (slipLevelsLoop quantity 0 0 (oppositeView OrderSide.Buy b.bids b.asks)) from rfl]
      simp only []
      rw [h4]
      by_cases hb : (slipLevelsSpec quantity 0 0
          (oppositeView OrderSide.Buy b.bids b.asks)).2.2.2 = true
      · rw [if_pos hb, if_pos hb, h2, h3]
      · rw [if_neg hb, if_neg hb]
  | Sell =>
    by_cases he : b.bids.reverse.isEmpty
    · rw [if_pos he, if_pos (show (oppositeView OrderSide.Sell b.bids b.asks).isEmpty = true
        from he)]
    · rw [if_neg he, if_neg (show ¬ (oppositeView OrderSide.Sell b.bids
        b.asks).isEmpty = true from he)]
      rw [show (slipLevelsLoop quantity 0 0 b.bids.reverse) =
        (slipLevelsLoop quantity 0 0 (oppositeView OrderSide.Sell b.bids b.asks)) from rfl]
      simp only []
      rw [h4]
      by_cases hb : (slipLevelsSpec quantity 0 0
          (oppositeView OrderSide.Sell b.bids b.asks)).2.2.2 = true
      · rw [if_pos hb, if_pos hb, h2, h3]
      · rw [if_neg hb, if_neg hb]

/-- Counterexample to C9 as stated: buying 2 units against a resting
ask at price `2^63` needs cost `2^64`, which wraps the u64 accumulator
to 0, so `calculate_slippage` returns `some 0` (average price 0) instead
of `None` — the mathematically correct average price is `2^63`. -/
theorem c9_counterexample :
    exBookBigAsk.calculate_slippage OrderSide.Buy 2 = some 0 ∧
      (slipLevelsSpec 2 0 0 exBookBigAsk.asks).2.1 = 2 ^ 64 ∧
      (slipLevelsSpec 2 0 0 exBookBigAsk.asks).2.1 /
          (slipLevelsSpec 2 0 0 exBookBigAsk.asks).2.2.1 = 2 ^ 63 := by
  decide

/-!
### C8: FOK — simulation and execution both consume
`min(remaining, crossing liquidity)`
-/

theorem simOrdersLoop_spec (order : Order) (price : Nat) :
    ∀ (lvl : List Order) (remaining : Nat),
      ((simOrdersLoop order price remaining lvl).1.map (·.quantity)).sum =
          min remaining (levelQty lvl) ∧
        (simOrdersLoop order price remaining lvl).2.1 = remaining - levelQty lvl ∧
        ((simOrdersLoop order price remaining lvl).2.2 = true ↔
          lvl ≠ [] ∧ remaining ≤ levelQty lvl) := by
  intro lvl
  induction lvl with
  | nil =>
    intro remaining
    rw [simOrdersLoop]
    refine ⟨by simp [levelQty], by simp [levelQty], ?_⟩
    simp
  | cons o rest ih =>
    intro remaining
    rw [simOrdersLoop]
    have hq : levelQty (o :: rest) = o.remaining_quantity + levelQty rest := by
      simp [levelQty]
    by_cases h0 : remaining - min remaining o.remaining_quantity = 0
    · rw [if_pos h0]
      refine ⟨?_, ?_, ?_⟩
      · show min remaining o.remaining_quantity + 0 = min remaining (levelQty (o :: rest))
        rw [hq]
        omega
      · show (0 : Nat) = remaining - levelQty (o :: rest)
        rw [hq]
        omega
      · constructor
        · intro _
          exact ⟨by simp, by rw [hq]; omega⟩
        · intro _
          rfl
    · rw [if_neg h0]
      obtain ⟨ih1, ih2, ih3⟩ := ih (remaining - min remaining o.remaining_quantity)
      have hmin : min remaining o.remaining_quantity = o.remaining_quantity := by omega
      refine ⟨?_, ?_, ?_⟩
      · show min remaining o.remaining_quantity +
            ((simOrdersLoop order price (remaining - min remaining o.remaining_quantity)
              rest).1.map (·.quantity)).sum = min remaining (levelQty (o :: rest))
        rw [ih1, hq, hmin]
        omega
      · show (simOrdersLoop order price (remaining - min remaining o.remaining_quantity)
            rest).2.1 = remaining - levelQty (o :: rest)
        rw [ih2, hq, hmin]
        omega
      · show ((simOrdersLoop order price (remaining - min remaining o.remaining_quantity)
            rest).2.2 = true) ↔ (o :: rest ≠ [] ∧ remaining ≤ levelQty (o :: rest))
        rw [ih3, hq, hmin]
        constructor
        · intro ⟨hne, hle⟩
          exact ⟨by simp, by omega⟩
        · intro ⟨_, hle⟩
          refine ⟨?_, by omega⟩
          intro hrest
          subst hrest
          simp [levelQty] at hle
          omega

theorem simLevelsLoop_spec (order : Order) :
    ∀ (L : List (Nat × List Order)) (remaining : Nat),
      ((simLevelsLoop order remaining L).map (·.quantity)).sum =
        min remaining (matchableQty true order L) := by
  intro L
  induction L with
  | nil =>
    intro remaining
    rw [simLevelsLoop, matchableQty]
    simp
  | cons e rest ih =>
    intro remaining
    obtain ⟨price, lvl⟩ := e
    rw [simLevelsLoop, matchableQty]
    by_cases hc : crossesPrice true order.side order.price price = true
    · rw [if_pos hc,
        if_pos (show (match order.side with
          | OrderSide.Buy => decide (price ≤ order.price)
          | OrderSide.Sell => decide (order.price ≤ price)) = true from hc)]
      obtain ⟨h1, h2, h3⟩ := simOrdersLoop_spec order price lvl remaining
      by_cases hf : (simOrdersLoop order price remaining lvl).2.2 = true
      · rw [if_pos hf]
        obtain ⟨hne, hle⟩ := h3.1 hf
        rw [h1]
        omega
      · rw [if_neg hf]
        have hx : ¬ (lvl ≠ [] ∧ remaining ≤ levelQty lvl) := fun hh => hf (h3.2 hh)
        rw [List.map_append, List.sum_append, h1, h2, ih]
        by_cases hnil : lvl = []
        · subst hnil
          simp [levelQty]
        · have : levelQty lvl < remaining := by
            rcases Nat.lt_or_ge (levelQty lvl) remaining with h | h
            · exact h
            · exact absurd ⟨hnil, h⟩ hx
          omega
    · rw [if_neg hc,
        if_neg (show ¬ (match order.side with
          | OrderSide.Buy => decide (price ≤ order.price)
          | OrderSide.Sell => decide (order.price ≤ price)) = true from hc)]
      simp

/-- The simulated total is `min(remaining, crossing liquidity of the
opposite view)`. -/
theorem simulate_total (order : Order) (bids asks : Ladder) :
    ((Matcher.simulate_order_match order bids asks).map (·.quantity)).sum =
      min order.remaining_quantity
        (matchableQty true order (oppositeView order.side bids asks)) := by
  unfold Matcher.simulate_order_match oppositeView
  cases order.side
  · exact simLevelsLoop_spec order asks order.remaining_quantity
  · exact simLevelsLoop_spec order bids.reverse order.remaining_quantity

theorem matchableQty_fillPartial (cp : Bool) (order : Order) (q : Nat) :
    ∀ L, matchableQty cp (order.fillPartial q) L = matchableQty cp order L := by
  intro L
  induction L with
  | nil => rfl
  | cons e rest ih =>
    obtain ⟨p, lvl⟩ := e
    rw [matchableQty, matchableQty, Order.fillPartial_side, Order.fillPartial_price, ih]

/-- With fuel at least the termination measure, the matching loop
consumes exactly `min(remaining, crossing liquidity)`: the final
remaining quantity is the truncated difference. -/
theorem matchLoop_rem (cp : Bool) :
    ∀ (fuel : Nat) (order : Order) (L : List (Nat × List Order)) (index : Index)
      (tid : Nat),
      order.remaining_quantity + totalOrders L + L.length + 1 ≤ fuel →
      (matchLoop cp fuel order L index tid).order.remaining_quantity =
        order.remaining_quantity - matchableQty cp order L := by
  intro fuel
  induction fuel with
  | zero =>
    intro order L index tid hf
    omega
  | succ fuel ih =>
    intro order L index tid hf
    rw [matchLoop_succ]
    by_cases h0 : order.remaining_quantity = 0
    · rw [matchStep_done _ _ _ _ _ _ h0]
      show order.remaining_quantity = _
      omega
    · match L with
      | [] =>
        rw [matchStep_nil _ _ _ _ _ h0, matchableQty]
        show order.remaining_quantity = _
        omega
      | (price, lvl) :: rest =>
        rw [matchableQty]
        by_cases hc : crossesPrice cp order.side order.price price = true
        · rw [if_pos hc]
          match lvl with
          | [] =>
            rw [matchStep_emptyLvl _ _ _ _ _ _ _ h0 hc]
            have hrec := ih order rest index tid (by
              simp only [totalOrders, List.map_cons, List.sum_cons, List.length_cons] at hf ⊢
              omega)
            rw [hrec]
            simp only [levelQty, List.map_nil, List.sum_nil]
            omega
          | resting :: lvlRest =>
            have hlq : levelQty (resting :: lvlRest) =
                resting.remaining_quantity + levelQty lvlRest := by
              simp [levelQty]
            by_cases hfq : (resting.fillPartial
                (min order.remaining_quantity resting.remaining_quantity)).is_filled = true
            · have hqr : resting.remaining_quantity -
                  min order.remaining_quantity resting.remaining_quantity = 0 := by
                simpa [Order.is_filled, Order.fillPartial_remaining] using hfq
              rw [matchStep_fill_filled _ _ _ _ _ _ _ _ _ h0 hc hfq]
              simp only []
              have hrec := ih
                (order.fillPartial (min order.remaining_quantity resting.remaining_quantity))
                ((price, lvlRest) :: rest)
                (indexFillComplete (indexFillAggressor index order.id
                  (min order.remaining_quantity resting.remaining_quantity)) resting.id)
                (tid + 1)
                (by
                  simp only [totalOrders, List.map_cons, List.sum_cons, List.length_cons,
                    List.length_cons, Order.fillPartial_remaining] at hf ⊢
                  omega)
              rw [hrec, matchableQty,
                if_pos (show crossesPrice cp
                  (order.fillPartial
                    (min order.remaining_quantity resting.remaining_quantity)).side
                  (order.fillPartial
                    (min order.remaining_quantity resting.remaining_quantity)).price price =
                  true from hc),
                Order.fillPartial_remaining, hlq, matchableQty_fillPartial]
              omega
            · have hqr : 0 < resting.remaining_quantity -
                  min order.remaining_quantity resting.remaining_quantity := by
                have := hfq
                simp only [Order.is_filled, Order.fillPartial_remaining,
                  decide_eq_true_eq] at this
                omega
              rw [matchStep_fill_open _ _ _ _ _ _ _ _ _ h0 hc hfq]
              simp only []
              have hrem0 : (order.fillPartial
                  (min order.remaining_quantity resting.remaining_quantity)
                  ).remaining_quantity = 0 := by
                rw [Order.fillPartial_remaining]
                omega
              rw [matchLoop_done _ _ _ _ _ _ hrem0]
              show (order.fillPartial
                (min order.remaining_quantity resting.remaining_quantity)
                ).remaining_quantity = _
              rw [hrem0, hlq]
              omega
        · rw [if_neg hc]
          rw [matchStep_nocross _ _ _ _ _ _ _ _ h0 (by simpa using hc)]
          show order.remaining_quantity = _
          omega

/-- The limit engine's final remaining quantity: the crossing liquidity
is consumed up to the order's remaining quantity. -/
theorem Matcher.match_limit_order_rem (m : Matcher) (order : Order)
    (bids asks : Ladder) (index : Index) :
    (m.match_limit_order order bids asks index).order.remaining_quantity =
      order.remaining_quantity -
        matchableQty true order (oppositeView order.side bids asks) := by
  cases hside : order.side
  · rw [Matcher.match_limit_order_buy _ _ _ _ _ hside]
    show (matchLoop true (matchFuel order asks) order asks index
      m.last_trade_id).order.remaining_quantity = _
    rw [matchLoop_rem true (matchFuel order asks) order asks index m.last_trade_id
      (Nat.le_refl _)]
    rfl
  · rw [Matcher.match_limit_order_sell _ _ _ _ _ hside]
    show (matchLoop true (matchFuel order bids.reverse) order bids.reverse index
      m.last_trade_id).order.remaining_quantity = _
    rw [matchLoop_rem true (matchFuel order bids.reverse) order bids.reverse index
      m.last_trade_id (Nat.le_refl _)]
    rfl

theorem eraseFirstById_eq_none (oid : Nat) :
    ∀ lvl : List Order, (∀ x ∈ lvl, x.id ≠ oid) → eraseFirstById oid lvl = none := by
  intro lvl
  induction lvl with
  | nil =>
    intro _
    rfl
  | cons o rest ih =>
    intro h
    rw [eraseFirstById, if_neg (h o (List.mem_cons_self _ _)),
      ih (fun x hx => h x (List.mem_cons_of_mem _ hx))]
    rfl

theorem eraseFirstById_some_mem (oid : Nat) :
    ∀ (lvl : List Order) (l' : List Order), eraseFirstById oid lvl = some l' →
      ∃ x ∈ lvl, x.id = oid := by
  intro lvl
  induction lvl with
  | nil =>
    intro l' h
    cases h
  | cons o rest ih =>
    intro l' h
    rw [eraseFirstById] at h
    by_cases ho : o.id = oid
    · exact ⟨o, List.mem_cons_self _ _, ho⟩
    · rw [if_neg ho] at h
      cases he : eraseFirstById oid rest with
      | none =>
        rw [he] at h
        cases h
      | some l₂ =>
        obtain ⟨x, hx, hxid⟩ := ih l₂ he
        exact ⟨x, List.mem_cons_of_mem _ hx, hxid⟩

theorem removeOrderEntry_eq_none (lad : Ladder) (p oid : Nat)
    (h : oid ∉ ladderIds lad) : lad.removeOrderEntry p oid = none := by
  unfold Ladder.removeOrderEntry
  cases hg : lad.getLevel p with
  | none => rfl
  | some lvl =>
    show (match eraseFirstById oid lvl with
      | none => none
      | some lvl' => some (if lvl' = [] then lad.eraseKey p else lad.setLevel p lvl')) =
      none
    rw [eraseFirstById_eq_none oid lvl (fun x hx hxid => h (by
      rw [← hxid]
      exact mem_ladderIds_of_mem lad p lvl x (Ladder.getLevel_mem lad p lvl hg) hx))]

theorem removeOrderEntry_some_mem (lad : Ladder) (p oid : Nat) (lad' : Ladder)
    (h : lad.removeOrderEntry p oid = some lad') : oid ∈ ladderIds lad := by
  unfold Ladder.removeOrderEntry at h
  cases hg : lad.getLevel p with
  | none =>
    rw [hg] at h
    cases h
  | some lvl =>
    rw [hg] at h
    have h2 : (match eraseFirstById oid lvl with
      | none => none
      | some lvl' => some (if lvl' = [] then lad.eraseKey p else lad.setLevel p lvl')) =
      some lad' := h
    cases he : eraseFirstById oid lvl with
    | none =>
      rw [he] at h2
      cases h2
    | some l₂ =>
      obtain ⟨x, hx, hxid⟩ := eraseFirstById_some_mem oid lvl l₂ he
      rw [← hxid]
      exact mem_ladderIds_of_mem lad p lvl x (Ladder.getLevel_mem lad p lvl hg) hx

/-- `remove_order` leaves both ladders untouched when the id rests in
neither. -/
theorem OrderBook.remove_order_ladders (b : OrderBook) (oid : Nat) (o : Order)
    (h : b.orders_by_id.get oid = some o)
    (hnb : oid ∉ ladderIds b.bids) (hna : oid ∉ ladderIds b.asks) :
    (b.remove_order oid).2.bids = b.bids ∧ (b.remove_order oid).2.asks = b.asks := by
  unfold OrderBook.remove_order
  rw [h]
  simp only []
  split
  · split
    · exact ⟨rfl, rfl⟩
    · rename_i lad' heq
      exact absurd (removeOrderEntry_some_mem _ _ _ _ heq) hnb
  · split
    · exact ⟨rfl, rfl⟩
    · rename_i lad' heq
      exact absurd (removeOrderEntry_some_mem _ _ _ _ heq) hna

theorem OrderBook.eq_of_fields (x y : OrderBook) (h1 : x.symbol = y.symbol)
    (h2 : x.bids = y.bids) (h3 : x.asks = y.asks) (h4 : x.orders_by_id = y.orders_by_id)
    (h5 : x.stats = y.stats) (h6 : x.matcher = y.matcher) : x = y := by
  cases x
  cases y
  cases h1
  cases h2
  cases h3
  cases h4
  cases h5
  cases h6
  rfl

theorem OrderBookStats.eq_of_statFields (x y : OrderBookStats) (h1 : x.symbol = y.symbol)
    (h2 : x.best_bid = y.best_bid) (h3 : x.best_ask = y.best_ask)
    (h4 : x.last_trade_price = y.last_trade_price) (h5 : x.volume = y.volume)
    (h6 : x.trade_count = y.trade_count) (h7 : x.bid_order_count = y.bid_order_count)
    (h8 : x.ask_order_count = y.ask_order_count)
    (h9 : x.last_update_time = y.last_update_time) : x = y := by
  cases x
  cases y
  cases h1
  cases h2
  cases h3
  cases h4
  cases h5
  cases h6
  cases h7
  cases h8
  cases h9
  rfl

/-- The FOK reject path: no trades, the order's record is inserted and
then removed again, the ladders are untouched, and the stats are
recomputed to their old values — the only surviving mutation is
`stats.last_update_time`. -/
theorem process_fok_reject (b : OrderBook) (o : Order)
    (hWFb : WF b) (hsub : SubmitOk b o)
    (hty : o.order_type = OrderType.FOK) (hs : o.symbol = b.symbol)
    (hm : ¬ ((Matcher.simulate_order_match o b.bids b.asks).map (·.quantity)).sum =
      o.quantity) :
    (b.process_order o).trades = [] ∧
      (b.process_order o).book =
        { b with stats := { b.stats with last_update_time := o.timestamp } } ∧
      (b.process_order o).finalOrder = o.cancel := by
  have hfb : o.id ∉ ladderIds b.bids :=
    notMem_ladderIds_of_get_none b.bids OrderSide.Buy b.orders_by_id hWFb.bidsOk o.id
      hsub.1
  have hfa : o.id ∉ ladderIds b.asks :=
    notMem_ladderIds_of_get_none b.asks OrderSide.Sell b.orders_by_id hWFb.asksOk o.id
      hsub.1
  rw [OrderBook.process_order_ok b o hs, OrderBook.dispatchOrder_fok _ _ hty]
  simp only [OrderBook.preDispatch, Index.get_insert_self]
  rw [if_neg hm]
  refine ⟨rfl, ?_, rfl⟩
  have hget1 : (
      { symbol := b.symbol, bids := b.bids, asks := b.asks,
        orders_by_id := (b.orders_by_id.insert o.id o).insert o.id o.cancel,
        stats :=
          { symbol := b.stats.symbol, best_bid := b.stats.best_bid,
            best_ask := b.stats.best_ask, last_trade_price := b.stats.last_trade_price,
            volume := b.stats.volume, trade_count := b.stats.trade_count,
            bid_order_count := b.stats.bid_order_count,
            ask_order_count := b.stats.ask_order_count,
            last_update_time := o.timestamp },
        matcher := b.matcher } : OrderBook).orders_by_id.get o.id = some o.cancel :=
    Index.get_insert_self _ _ _
  have hproj := OrderBook.remove_order_proj _ o.id o.cancel hget1
  have hlad := OrderBook.remove_order_ladders _ o.id o.cancel hget1 hfb hfa
  refine OrderBook.eq_of_fields _ _ ?_ ?_ ?_ ?_ ?_ ?_
  · exact hproj.2.1
  · exact hlad.1
  · exact hlad.2
  · refine (hproj.1).trans ?_
    show ((b.orders_by_id.insert o.id o).insert o.id o.cancel).erase o.id = b.orders_by_id
    rw [Index.erase_insert, Index.erase_insert]
    exact Index.erase_of_get_none _ _ hsub.1
  · refine OrderBookStats.eq_of_statFields _ _ ?_ ?_ ?_ ?_ ?_ ?_ ?_ ?_ ?_
    · have e := congrArg OrderBookStats.symbol hproj.2.2.1
      exact e
    · have e := (congrArg Ladder.maxKey hlad.1).trans hWFb.statsBid.symm
      exact e
    · have e := (congrArg Ladder.minKey hlad.2).trans hWFb.statsAsk.symm
      exact e
    · have e := congrArg OrderBookStats.last_trade_price hproj.2.2.1
      exact e
    · have e := congrArg OrderBookStats.volume hproj.2.2.1
      exact e
    · have e := congrArg OrderBookStats.trade_count hproj.2.2.1
      exact e
    · have e := (congrArg totalOrders hlad.1).trans hWFb.statsBidCount.symm
      exact e
    · have e := (congrArg totalOrders hlad.2).trans hWFb.statsAskCount.symm
      exact e
    · have e := congrArg OrderBookStats.last_update_time hproj.2.2.1
      exact e
  · exact hproj.2.2.2

/-- The FOK full-fill path: when the simulated liquidity covers the
order, the trades sum to the whole quantity. -/
theorem process_fok_fill (b : OrderBook) (o : Order)
    (hrq : o.remaining_quantity = o.quantity)
    (hty : o.order_type = OrderType.FOK) (hs : o.symbol = b.symbol)
    (hm : o.quantity ≤
      ((Matcher.simulate_order_match o b.bids b.asks).map (·.quantity)).sum) :
    ((b.process_order o).trades.map (·.quantity)).sum = o.quantity := by
  have hsim := simulate_total o b.bids b.asks
  have hM : o.quantity ≤ matchableQty true o (oppositeView o.side b.bids b.asks) := by
    rw [hsim, hrq] at hm
    omega
  have heq : ((Matcher.simulate_order_match o b.bids b.asks).map (·.quantity)).sum =
      o.quantity := by
    rw [hsim, hrq]
    omega
  rw [OrderBook.process_order_ok b o hs, OrderBook.dispatchOrder_fok _ _ hty]
  simp only []
  rw [if_pos (show ((Matcher.simulate_order_match o (b.preDispatch o).bids
    (b.preDispatch o).asks).map (·.quantity)).sum = o.quantity from heq)]
  show (((b.preDispatch o).match_limit_order o).1.map (·.quantity)).sum = o.quantity
  have hcons := (OrderBook.match_limit_order_conserved (b.preDispatch o) o).1
  have hrem : ((b.preDispatch o).match_limit_order o).2.2.1.remaining_quantity = 0 := by
    rw [(OrderBook.match_limit_order_proj (b.preDispatch o) o).2.1,
      Matcher.match_limit_order_rem]
    show o.remaining_quantity - matchableQty true o (oppositeView o.side b.bids b.asks) = 0
    omega
  omega

/-- C8 (amended).  FOK all-or-nothing, with the one surviving mutation
of the reject path made explicit: if the simulated matchable quantity
covers the order's quantity, the returned trades sum exactly to that
quantity; if it falls short, no trades are returned, the order ends
absent from `orders_by_id` with final value `o.cancel` (status
`Canceled`), and the book is returned with ladders, index and stats all
equal to their old values EXCEPT `stats.last_update_time`, which is
overwritten with the rejected order's timestamp — so the book state is
not left entirely unchanged (`c8_counterexample`). -/
theorem c8_fok_amended (b : OrderBook) (o : Order)
    (hr : Reachable b) (hsub : SubmitOk b o)
    (hty : o.order_type = OrderType.FOK) (hs : o.symbol = b.symbol) :
    (o.quantity ≤ ((Matcher.simulate_order_match o b.bids b.asks).map (·.quantity)).sum →
        ((b.process_order o).trades.map (·.quantity)).sum = o.quantity) ∧
      (((Matcher.simulate_order_match o b.bids b.asks).map (·.quantity)).sum <
          o.quantity →
        (b.process_order o).trades = [] ∧
          (b.process_order o).book =
            { b with stats := { b.stats with last_update_time := o.timestamp } } ∧
          (b.process_order o).book.orders_by_id.get o.id = none ∧
          (b.process_order o).finalOrder = o.cancel) := by
  constructor
  · intro hm
    exact process_fok_fill b o hsub.2.1 hty hs hm
  · intro hm
    obtain ⟨h1, h2, h3⟩ := process_fok_reject b o (reachable_WF b hr) hsub hty hs (by omega)
    refine ⟨h1, h2, ?_, h3⟩
    rw [h2]
    show b.orders_by_id.get o.id = none
    exact hsub.1

/-- Witness for C8 (amended): the FOK buy for 5 against 3 resting is
one-unit-plus short, returns no trades and leaves the book unchanged
except for the stamped `last_update_time`. -/
theorem c8_fok_amended_witness :
    Reachable exBookAsk ∧ SubmitOk exBookAsk exFokOrder ∧
      ((Matcher.simulate_order_match exFokOrder exBookAsk.bids exBookAsk.asks).map
          (·.quantity)).sum < exFokOrder.quantity ∧
      (exBookAsk.process_order exFokOrder).trades = [] ∧
      (exBookAsk.process_order exFokOrder).book.orders_by_id.get exFokOrder.id = none := by
  have hreach : Reachable exBookAsk :=
    Reachable.step_order exBook0 (exLimit 1 100 3 OrderSide.Sell 1)
      (Reachable.base "S") ⟨by decide, by decide, by decide⟩
  have hres := (c8_fok_amended exBookAsk exFokOrder hreach
    ⟨by decide, by decide, by decide⟩ (by decide) (by decide)).2 (by decide)
  exact ⟨hreach, ⟨by decide, by decide, by decide⟩, by decide, hres.1, hres.2.2.1⟩

/-- Counterexample to C8 as stated: the rejected FOK mutates the book —
`stats.last_update_time` moves from 1 to the FOK order's timestamp 9,
so the post-state differs from the pre-state. -/
theorem c8_counterexample :
    (exBookAsk.process_order exFokOrder).trades = [] ∧
      exBookAsk.stats.last_update_time = 1 ∧
      (exBookAsk.process_order exFokOrder).book.stats.last_update_time = 9 ∧
      (exBookAsk.process_order exFokOrder).book ≠ exBookAsk := by
  decide

/-!
### C4: price-time priority — the opposite side is consumed strictly
front-of-queue, and queues are timestamp-sorted
-/

theorem viewReduced_getLevel (L L' : Ladder) (hnd : (L.map Prod.fst).Nodup)
    (hred : viewReduced L L') (p : Nat) (lvl lvl' : List Order)
    (hpre : L.getLevel p = some lvl) (hpost : L'.getLevel p = some lvl') :
    levelReduced lvl lvl' := by
  obtain ⟨k, hcase⟩ := hred
  rcases hcase with ⟨hdrop, rfl⟩ | ⟨p₀, lvl₀, rest, lvl₀', hdrop, hlr, rfl⟩
  · cases hpost
  · by_cases hp : p₀ = p
    · subst hp
      rw [Ladder.getLevel, if_pos rfl] at hpost
      cases hpost
      have hmem : (p₀, lvl₀) ∈ L :=
        (List.drop_subset k L) (by rw [hdrop]; exact List.mem_cons_self _ _)
      have heq := Ladder.getLevel_eq_of_mem L p₀ lvl₀ hnd hmem
      rw [hpre] at heq
      cases heq
      exact hlr
    · rw [Ladder.getLevel, if_neg hp] at hpost
      have hmem : (p, lvl') ∈ L := (List.drop_subset k L) (by
        rw [hdrop]
        exact List.mem_cons_of_mem _ (Ladder.getLevel_mem rest p lvl' hpost))
      have heq := Ladder.getLevel_eq_of_mem L p lvl' hnd hmem
      rw [hpre] at heq
      cases heq
      exact levelReduced_refl _

theorem Ladder.keys_reverse_nodup (lad : Ladder) (hnd : (lad.map Prod.fst).Nodup) :
    (lad.reverse.map Prod.fst).Nodup := by
  rw [List.map_reverse, List.nodup_reverse]
  exact hnd

theorem Ladder.getLevel_reverse (lad : Ladder) (hnd : (lad.map Prod.fst).Nodup) (p : Nat) :
    Ladder.getLevel lad.reverse p = lad.getLevel p := by
  cases hg : lad.getLevel p with
  | some lvl =>
    exact Ladder.getLevel_eq_of_mem lad.reverse p lvl (Ladder.keys_reverse_nodup lad hnd)
      (List.mem_reverse.2 (Ladder.getLevel_mem lad p lvl hg))
  | none =>
    cases hg' : Ladder.getLevel lad.reverse p with
    | none => rfl
    | some lvl =>
      have hmem := List.mem_reverse.1 (Ladder.getLevel_mem lad.reverse p lvl hg')
      have heq := Ladder.getLevel_eq_of_mem lad p lvl hnd hmem
      rw [hg] at heq
      cases heq

theorem loopView_levelReduced_buy (cp : Bool) (fuel tid : Nat) (order : Order)
    (asks : Ladder) (index : Index) (hnd : (asks.map Prod.fst).Nodup)
    (p : Nat) (lvl lvl' : List Order) (hpre : asks.getLevel p = some lvl)
    (hpost : Ladder.getLevel (matchLoop cp fuel order asks index tid).levels p =
      some lvl') :
    levelReduced lvl lvl' :=
  viewReduced_getLevel asks _ hnd (matchLoop_viewReduced cp fuel order asks index tid)
    p lvl lvl' hpre hpost

theorem loopView_levelReduced_sell (cp : Bool) (fuel tid : Nat) (order : Order)
    (bids : Ladder) (index : Index) (hnd : (bids.map Prod.fst).Nodup)
    (p : Nat) (lvl lvl' : List Order) (hpre : bids.getLevel p = some lvl)
    (hpost : Ladder.getLevel (matchLoop cp fuel order bids.reverse index
      tid).levels.reverse p = some lvl') :
    levelReduced lvl lvl' := by
  have hndrev := Ladder.keys_reverse_nodup bids hnd
  have hndloop : ((matchLoop cp fuel order bids.reverse index
      tid).levels.map Prod.fst).Nodup :=
    List.Nodup.sublist (viewReduced_keys_sublist _ _
      (matchLoop_viewReduced cp fuel order bids.reverse index tid)) hndrev
  rw [Ladder.getLevel_reverse _ hndloop] at hpost
  rw [← Ladder.getLevel_reverse bids hnd] at hpre
  exact viewReduced_getLevel bids.reverse _ hndrev
    (matchLoop_viewReduced cp fuel order bids.reverse index tid) p lvl lvl' hpre hpost

theorem OrderBook.add_to_book_opposite (X : OrderBook) (u : Order) (side : OrderSide)
    (h : side ≠ u.side) :
    (X.add_to_book u).sideLadder side = X.sideLadder side := by
  unfold OrderBook.add_to_book
  cases hu : u.side
  · cases side
    · rw [hu] at h
      exact absurd rfl h
    · rfl
  · cases side
    · rfl
    · rw [hu] at h
      exact absurd rfl h

theorem OrderBook.add_to_book_index (X : OrderBook) (u : Order) :
    (X.add_to_book u).orders_by_id = X.orders_by_id := by
  unfold OrderBook.add_to_book
  cases u.side <;> rfl

theorem OrderBook.match_limit_order_index (b : OrderBook) (order : Order) :
    (b.match_limit_order order).2.1.orders_by_id =
      (b.matcher.match_limit_order order b.bids b.asks b.orders_by_id).index := by
  unfold OrderBook.match_limit_order
  simp only []
  split
  · split
    · exact OrderBook.add_to_book_index _ _
    · rfl
  · rfl

theorem OrderBook.remove_order_opposite (b : OrderBook) (oid : Nat) (ro : Order)
    (side : OrderSide) (hro : b.orders_by_id.get oid = some ro) (hside : side ≠ ro.side) :
    ((b.remove_order oid).2).sideLadder side = b.sideLadder side := by
  unfold OrderBook.remove_order
  rw [hro]
  simp only []
  cases hrs : ro.side
  · cases side
    · rw [hrs] at hside
      exact absurd rfl hside
    · split
      · split <;> rfl
      · rename_i x h
        cases h
  · cases side
    · split
      · rename_i x h
        cases h
      · split <;> rfl
    · rw [hrs] at hside
      exact absurd rfl hside

/-- The book wrapper of the limit engine only reduces the side opposite
the aggressor: any surviving level there arose by front consumption. -/
theorem OrderBook.match_limit_order_opposite (b : OrderBook) (order st : Order)
    (side : OrderSide)
    (hCore : CoreWF b.bids b.asks b.orders_by_id)
    (hWK : WellKeyed b.orders_by_id)
    (hfb : order.id ∉ ladderIds b.bids) (hfa : order.id ∉ ladderIds b.asks)
    (hget : b.orders_by_id.get order.id = some st)
    (hrel : st.remaining_quantity = order.remaining_quantity)
    (hstat : st.status = OrderStatus.New)
    (hside : st.side = order.side)
    (hopp : side ≠ order.side)
    (p : Nat) (lvl lvl' : List Order)
    (hpre : (b.sideLadder side).getLevel p = some lvl)
    (hpost : ((b.match_limit_order order).2.1.sideLadder side).getLevel p = some lvl') :
    levelReduced lvl lvl' := by
  obtain ⟨hc, hk, hfb', hfa', hass, st', hst', hrel', hfr, hds, hfe⟩ :=
    engine_limit_inv b order st hCore hWK hfb hfa hget hrel hstat
  rw [OrderBook.match_limit_order_book_eq b order st' hst'] at hpost
  have hstside : st'.side = order.side := by
    rw [hfe]
    show st.side = order.side
    exact hside
  by_cases hq : 0 < st'.remaining_quantity
  · rw [if_pos hq, OrderBook.add_to_book_opposite _ st' side
      (by rw [hstside]; exact hopp)] at hpost
    cases hordside : order.side
    · cases side
      · rw [hordside] at hopp
        exact absurd rfl hopp
      · rw [Matcher.match_limit_order_buy _ _ _ _ _ hordside] at hpost
        exact loopView_levelReduced_buy true _ _ order b.asks b.orders_by_id
          hCore.asksKeys p lvl lvl' hpre hpost
    · cases side
      · rw [Matcher.match_limit_order_sell _ _ _ _ _ hordside] at hpost
        exact loopView_levelReduced_sell true _ _ order b.bids b.orders_by_id
          hCore.bidsKeys p lvl lvl' hpre hpost
      · rw [hordside] at hopp
        exact absurd rfl hopp
  · rw [if_neg hq] at hpost
    cases hordside : order.side
    · cases side
      · rw [hordside] at hopp
        exact absurd rfl hopp
      · rw [Matcher.match_limit_order_buy _ _ _ _ _ hordside] at hpost
        exact loopView_levelReduced_buy true _ _ order b.asks b.orders_by_id
          hCore.asksKeys p lvl lvl' hpre hpost
    · cases side
      · rw [Matcher.match_limit_order_sell _ _ _ _ _ hordside] at hpost
        exact loopView_levelReduced_sell true _ _ order b.bids b.orders_by_id
          hCore.bidsKeys p lvl lvl' hpre hpost
      · rw [hordside] at hopp
        exact absurd rfl hopp

/-- Every dispatch branch consumes the side opposite the aggressor
strictly from the front of each level. -/
theorem dispatchOrder_opposite (b0 : OrderBook) (order : Order) (side : OrderSide)
    (hCore : CoreWF b0.bids b0.asks b0.orders_by_id)
    (hWK : WellKeyed b0.orders_by_id)
    (hfb : order.id ∉ ladderIds b0.bids) (hfa : order.id ∉ ladderIds b0.asks)
    (hget : b0.orders_by_id.get order.id = some order)
    (hstat : order.status = OrderStatus.New)
    (hopp : side ≠ order.side)
    (p : Nat) (lvl lvl' : List Order)
    (hpre : Ladder.getLevel (b0.sideLadder side) p = some lvl)
    (hpost : Ladder.getLevel (((b0.dispatchOrder order).2.1).sideLadder side) p =
      some lvl') :
    levelReduced lvl lvl' := by
  cases ht : order.order_type with
  | Market =>
    rw [OrderBook.dispatchOrder_market _ _ ht] at hpost
    cases hordside : order.side
    · cases side
      · rw [hordside] at hopp
        exact absurd rfl hopp
      · rw [Matcher.match_market_order_buy _ _ _ _ _ hordside] at hpost
        exact loopView_levelReduced_buy false _ _ order b0.asks b0.orders_by_id
          hCore.asksKeys p lvl lvl' hpre hpost
    · cases side
      · rw [Matcher.match_market_order_sell _ _ _ _ _ hordside] at hpost
        exact loopView_levelReduced_sell false _ _ order b0.bids b0.orders_by_id
          hCore.bidsKeys p lvl lvl' hpre hpost
      · rw [hordside] at hopp
        exact absurd rfl hopp
  | Limit =>
    rw [OrderBook.dispatchOrder_limit _ _ ht] at hpost
    exact OrderBook.match_limit_order_opposite b0 order order side hCore hWK hfb hfa hget
      rfl hstat rfl hopp p lvl lvl' hpre hpost
  | IOC =>
    rw [OrderBook.dispatchOrder_ioc _ _ ht] at hpost
    simp only [] at hpost
    obtain ⟨hc, hk, hfb', hfa', hass, st', hst', hrel', hfr, hds, hfe⟩ :=
      engine_limit_inv b0 order order hCore hWK hfb hfa hget rfl hstat
    have hbget : (b0.match_limit_order order).2.1.orders_by_id.get order.id = some st' := by
      rw [OrderBook.match_limit_order_index b0 order]
      exact hst'
    simp only [hbget] at hpost
    have hsideNe : side ≠ st'.cancel.side := by
      rw [Order.cancel_side, hfe]
      show side ≠ order.side
      exact hopp
    by_cases hq : 0 < st'.remaining_quantity
    · rw [if_pos hq] at hpost
      have hro2 : ({ (b0.match_limit_order order).2.1 with
          orders_by_id := (b0.match_limit_order order).2.1.orders_by_id.insert order.id
            st'.cancel } : OrderBook).orders_by_id.get order.id = some st'.cancel :=
        Index.get_insert_self _ _ _
      rw [OrderBook.remove_order_opposite _ order.id st'.cancel side hro2 hsideNe] at hpost
      have hlad3 : ({ (b0.match_limit_order order).2.1 with
          orders_by_id := (b0.match_limit_order order).2.1.orders_by_id.insert order.id
            st'.cancel } : OrderBook).sideLadder side =
          (b0.match_limit_order order).2.1.sideLadder side := by
        cases side <;> rfl
      rw [hlad3] at hpost
      exact OrderBook.match_limit_order_opposite b0 order order side hCore hWK hfb hfa
        hget rfl hstat rfl hopp p lvl lvl' hpre hpost
    · rw [if_neg hq] at hpost
      exact OrderBook.match_limit_order_opposite b0 order order side hCore hWK hfb hfa
        hget rfl hstat rfl hopp p lvl lvl' hpre hpost
  | FOK =>
    rw [OrderBook.dispatchOrder_fok _ _ ht] at hpost
    simp only [] at hpost
    by_cases hmq : ((Matcher.simulate_order_match order b0.bids b0.asks).map
        (·.quantity)).sum = order.quantity
    · rw [if_pos hmq] at hpost
      exact OrderBook.match_limit_order_opposite b0 order order side hCore hWK hfb hfa
        hget rfl hstat rfl hopp p lvl lvl' hpre hpost
    · rw [if_neg hmq] at hpost
      simp only [hget] at hpost
      have hsideNe : side ≠ order.cancel.side := by
        rw [Order.cancel_side]
        exact hopp
      have hro2 : ({ b0 with
          orders_by_id := b0.orders_by_id.insert order.id order.cancel } :
          OrderBook).orders_by_id.get order.id = some order.cancel :=
        Index.get_insert_self _ _ _
      rw [OrderBook.remove_order_opposite _ order.id order.cancel side hro2 hsideNe]
        at hpost
      have hlad3 : ({ b0 with
          orders_by_id := b0.orders_by_id.insert order.id order.cancel } :
          OrderBook).sideLadder side = b0.sideLadder side := by
        cases side <;> rfl
      rw [hlad3, hpre] at hpost
      cases hpost
      exact levelReduced_refl _
  | Stop sp =>
    rw [OrderBook.dispatchOrder_stop _ _ _ ht] at hpost
    split at hpost
    · simp only [] at hpost
      cases hordside : order.side
      · cases side
        · rw [hordside] at hopp
          exact absurd rfl hopp
        · rw [Matcher.match_market_order_buy _ _ _ _ _
            (show ({ order with order_type := OrderType.Market } : Order).side =
              OrderSide.Buy from hordside)] at hpost
          exact loopView_levelReduced_buy false _ _ _ b0.asks b0.orders_by_id
            hCore.asksKeys p lvl lvl' hpre hpost
      · cases side
        · rw [Matcher.match_market_order_sell _ _ _ _ _
            (show ({ order with order_type := OrderType.Market } : Order).side =
              OrderSide.Sell from hordside)] at hpost
          exact loopView_levelReduced_sell false _ _ _ b0.bids b0.orders_by_id
            hCore.bidsKeys p lvl lvl' hpre hpost
        · rw [hordside] at hopp
          exact absurd rfl hopp
    · rw [hpre] at hpost
      cases hpost
      exact levelReduced_refl _
  | StopLimit sp lp =>
    rw [OrderBook.dispatchOrder_stopLimit _ _ _ _ ht] at hpost
    split at hpost
    · exact OrderBook.match_limit_order_opposite b0
        { order with order_type := OrderType.Limit, price := lp } order side hCore hWK
        hfb hfa hget rfl hstat rfl hopp p lvl lvl' hpre hpost
    · rw [hpre] at hpost
      cases hpost
      exact levelReduced_refl _

/-- C4.  Price-time priority, FIFO within a level: in a reachable book
every level of the side opposite a submission is sorted by ascending
timestamp, and processing the submission transforms any surviving level
of that side by dropping a front prefix and at most partially filling
the new front order (`levelReduced`).  Hence an order B resting behind
an earlier-timestamped order A at the same price is only consumed after
A is fully consumed. -/
theorem c4_price_time_priority (b : OrderBook) (o : Order) (side : OrderSide)
    (hr : Reachable b) (hsub : SubmitOk b o) (hopp : side ≠ o.side)
    (p : Nat) (lvl lvl' : List Order)
    (hpre : Ladder.getLevel (b.sideLadder side) p = some lvl)
    (hpost : Ladder.getLevel (((b.process_order o).book).sideLadder side) p =
      some lvl') :
    levelReduced lvl lvl' ∧
      List.Chain' (fun x y => x.timestamp ≤ y.timestamp) lvl := by
  obtain ⟨hc, hk⟩ := reachable_bookInv b hr
  have hts : List.Chain' (fun x y => x.timestamp ≤ y.timestamp) lvl := by
    cases side
    · exact hc.bidsTs p lvl (Ladder.getLevel_mem b.bids p lvl hpre)
    · exact hc.asksTs p lvl (Ladder.getLevel_mem b.asks p lvl hpre)
  by_cases hs : o.symbol = b.symbol
  · have hlad2 : (((b.process_order o).book).sideLadder side) =
        (((b.preDispatch o).dispatchOrder o).2.1.sideLadder side) := by
      rw [OrderBook.process_order_ok b o hs]
      cases side <;> rfl
    rw [hlad2] at hpost
    refine ⟨dispatchOrder_opposite (b.preDispatch o) o side
      (coreWF_insert_fresh b o.id o hc hsub.1)
      (wellKeyed_insert _ _ _ hk rfl)
      (notMem_ladderIds_of_get_none b.bids OrderSide.Buy b.orders_by_id hc.bidsOk o.id
        hsub.1)
      (notMem_ladderIds_of_get_none b.asks OrderSide.Sell b.orders_by_id hc.asksOk o.id
        hsub.1)
      (Index.get_insert_self _ _ _) hsub.2.2 hopp p lvl lvl'
      (by rw [show (b.preDispatch o).sideLadder side = b.sideLadder side from
        by cases side <;> rfl]; exact hpre)
      hpost, hts⟩
  · rw [OrderBook.process_order_mismatch b o hs] at hpost
    rw [show ((⟨[], b, o, true⟩ : ProcessResult).book).sideLadder side =
      b.sideLadder side from rfl, hpre] at hpost
    cases hpost
    exact ⟨levelReduced_refl _, hts⟩

/-- Witness for C4: the resting bid level at 100 is timestamp-sorted
and the crossing sell for 5 reduces it by partially filling its front
order. -/
theorem c4_price_time_priority_witness :
    Reachable exBookBid ∧ SubmitOk exBookBid (exLimit 2 90 5 OrderSide.Sell 2) ∧
      OrderSide.Buy ≠ (exLimit 2 90 5 OrderSide.Sell 2).side ∧
      ∃ lvl lvl', Ladder.getLevel (exBookBid.sideLadder OrderSide.Buy) 100 = some lvl ∧
        Ladder.getLevel
          (((exBookBid.process_order (exLimit 2 90 5 OrderSide.Sell 2)).book).sideLadder
            OrderSide.Buy) 100 = some lvl' ∧
        (levelReduced lvl lvl' ∧
          List.Chain' (fun x y => x.timestamp ≤ y.timestamp) lvl) := by
  have hreach : Reachable exBookBid :=
    Reachable.step_order exBook0 (exLimit 1 100 10 OrderSide.Buy 1)
      (Reachable.base "S") ⟨by decide, by decide, by decide⟩
  have hsub : SubmitOk exBookBid (exLimit 2 90 5 OrderSide.Sell 2) :=
    ⟨by decide, by decide, by decide⟩
  exact ⟨hreach, hsub, by decide, _, _, rfl, rfl,
    c4_price_time_priority exBookBid (exLimit 2 90 5 OrderSide.Sell 2) OrderSide.Buy
      hreach hsub (by decide) 100 _ _ rfl rfl⟩

end RustFlow
